import Mathlib

/-!
# Spreadsheet: dependency graph, cycle check and cache of `Sheet` / `Cell`

A shallow embedding of `sheet.cpp`, `cell.cpp` and `formula.cpp`.

* `std::unordered_map<Position, std::unique_ptr<Cell>>` is an association list read through
  `Sheet.find` (first match), written through `Sheet.assign` / `Sheet.modify` / `Sheet.erase`.
* `std::set<Position>` is a list kept sorted and duplicate-free by `setInsert`.
* C++ exceptions and the dereference of a null `Cell*` are explicit `Outcome`s, returned
  together with the sheet as it stands when control leaves the call.
* Recursion that the C++ does not bound (`ResetCacheDependentsCells`, `GetValue`) takes a
  recursion-depth budget and returns `none` when the budget is exhausted.
-/

namespace Spreadsheet

/-! ## common.h -/

/-- Cell position (`struct Position`), indices start from zero. -/
structure Position where
  row : Int
  col : Int
deriving DecidableEq, Repr

/-- Modelled from the spec: `Position::MAX_ROWS` / `MAX_COLS` are in common.h, the body of
`Position::IsValid` is not under src/; the spec gives `0 ≤ row < 16384 ∧ 0 ≤ col < 16384`. -/
def Position.IsValid (p : Position) : Bool :=
  decide (0 ≤ p.row) && decide (p.row < 16384) && decide (0 ≤ p.col) && decide (p.col < 16384)

/-- Modelled from the spec: `Position::operator<`, whose body is not under src/; the spec gives
the lexicographic order on `(row, col)`. -/
def Position.lt (a b : Position) : Bool :=
  decide (a.row < b.row) || (decide (a.row = b.row) && decide (a.col < b.col))

/-- The class `FormulaError` with its `Category`. -/
inductive FormulaError where
  | Ref
  | Value
  | Div0
deriving DecidableEq, Repr

/-- The C++ `double`, modelled by exact rationals; concrete evaluations below use small
integers only, on which double arithmetic is exact. -/
abbrev Double := ℚ

/-- The type `CellInterface::Value = std::variant<std::string, double, FormulaError>`. -/
inductive Value where
  | str (s : String)
  | num (d : Double)
  | err (e : FormulaError)
deriving DecidableEq

/-- The constant `FORMULA_SIGN`. -/
def FORMULA_SIGN : Char := '='

/-- The constant `ESCAPE_SIGN`. -/
def ESCAPE_SIGN : Char := '\''

/-! ## `std::set<Position>` -/

/-- Insertion into a `std::set<Position>`: keeps the order of `Position.lt`, drops a duplicate. -/
def setInsert (p : Position) : List Position → List Position
  | [] => [p]
  | q :: qs =>
    if p = q then q :: qs
    else if p.lt q then p :: q :: qs
    else q :: setInsert p qs

/-- The call `std::set::erase(key)`. -/
def setErase (p : Position) (l : List Position) : List Position :=
  l.filter (fun q => decide (q ≠ p))

/-- Range construction / range insertion of a `std::set<Position>` from a sequence. -/
def setOfList (l : List Position) : List Position :=
  l.foldr setInsert []

/-! ## FormulaAST (external collaborator) -/

/-- Binary operators of the formula grammar. -/
inductive BinOp where
  | add
  | sub
  | mul
  | div
deriving DecidableEq, Repr

/-- Modelled from the spec: the class `FormulaAST` (FormulaAST.h is not under src/). The spec
gives arithmetic operators over numeric and cell operands. -/
inductive Expr where
  | num (d : Double)
  | cell (p : Position)
  | neg (e : Expr)
  | bin (op : BinOp) (l r : Expr)
deriving DecidableEq

/-- Modelled from the spec: `FormulaAST::GetCells`, the positions the AST mentions, in
traversal order and with repetitions. -/
def Expr.GetCells : Expr → List Position
  | .num _ => []
  | .cell p => [p]
  | .neg e => e.GetCells
  | .bin _ l r => l.GetCells ++ r.GetCells

/-- The parts of the program that are not under src/ and are taken as parameters:
`ParseFormulaAST` (`none` when it throws), `FormulaAST::PrintFormula`, and `std::stod`
(`none` when it throws). -/
structure Env where
  ParseFormulaAST : String → Option Expr
  PrintFormula : Expr → String
  stod : String → Option Double

/-! ## cell.h / cell.cpp -/

/-- The enum `Cell::Impl::ImplType`. -/
inductive ImplType where
  | FORMULA
  | TEXT
  | EMPTY
deriving DecidableEq, Repr

/-- The `Impl` hierarchy: `EmptyImpl`, `TextImpl` (field `value_`), `FormulaImpl` (field
`formula_`, a `Formula` holding `ast_`). -/
inductive Impl where
  | empty
  | text (value_ : String)
  | formula (ast_ : Expr)
deriving DecidableEq

/-- The class `Cell`: `impl_`, `dependents_cells_`, `referenced_cells_`, `cache_value_`. -/
structure Cell where
  impl_ : Impl
  dependents_cells_ : List Position
  referenced_cells_ : List Position
  cache_value_ : Option Value
deriving DecidableEq

/-- `Cell::Impl::DefineImplType` (cell.cpp 61-69). -/
def Impl.DefineImplType (text : String) : ImplType :=
  match text.data with
  | [] => ImplType.EMPTY
  | c :: _ => if c = FORMULA_SIGN then ImplType.FORMULA else ImplType.TEXT

/-- The call `std::string::substr(1)` on a non-empty string whose first character is one byte. -/
def substr1 (text : String) : String := String.mk text.data.tail

/-- `Formula::GetReferencedCells` (formula.cpp 63-67): the AST's cells through a `std::set`. -/
def Formula.GetReferencedCells (ast : Expr) : List Position :=
  setOfList ast.GetCells

/-- `Impl::GetReferencedCells` for the three implementations. -/
def Impl.GetReferencedCells : Impl → List Position
  | .empty => []
  | .text _ => []
  | .formula ast => Formula.GetReferencedCells ast

/-- `Impl::GetText` for the three implementations. -/
def Impl.GetText (E : Env) : Impl → String
  | .empty => ""
  | .text v => v
  | .formula ast => String.mk [FORMULA_SIGN] ++ E.PrintFormula ast

/-- `Cell::Cell(SheetInterface&)` (cell.cpp 8-14). -/
def Cell.new : Cell :=
  { impl_ := Impl.empty, dependents_cells_ := [], referenced_cells_ := [], cache_value_ := none }

/-- `Cell::GetReferencedCells` (cell.cpp 25-27). -/
def Cell.GetReferencedCells (c : Cell) : List Position := c.impl_.GetReferencedCells

/-- `Cell::GetText` (cell.cpp 106-108). -/
def Cell.GetText (E : Env) (c : Cell) : String := c.impl_.GetText E

/-- `Cell::AddDependency` (cell.cpp 29-31). -/
def Cell.AddDependency (c : Cell) (pos : Position) : Cell :=
  { c with dependents_cells_ := setInsert pos c.dependents_cells_ }

/-- `Cell::AddOldDependents` (cell.cpp 34-36). -/
def Cell.AddOldDependents (c : Cell) (old_depend_cells : List Position) : Cell :=
  { c with dependents_cells_ := old_depend_cells }

/-- `Cell::UpdateReferencedCells` (cell.cpp 71-75). -/
def Cell.UpdateReferencedCells (c : Cell) : Cell :=
  { c with referenced_cells_ := setOfList c.impl_.GetReferencedCells }

/-- `Cell::Set` (cell.cpp 42-57) up to and including `cache_value_.reset()`: `none` when
`ParseFormula` throws `FormulaException`. The closing call of `ResetCacheDependentsCells` is
made by the callers below, on the sheet. -/
def Cell.Set (E : Env) (c : Cell) (text : String) : Option Cell :=
  match Impl.DefineImplType text with
  | ImplType.FORMULA =>
    match E.ParseFormulaAST (substr1 text) with
    | none => none
    | some ast => some { c with impl_ := Impl.formula ast, cache_value_ := none }
  | ImplType.TEXT => some { c with impl_ := Impl.text text, cache_value_ := none }
  | ImplType.EMPTY => some { c with impl_ := Impl.empty, cache_value_ := none }

/-- `Cell::Cell(SheetInterface&, std::string)` (cell.cpp 16-19): the empty cell, then `Set`.
The `ResetCacheDependentsCells` that ends `Set` runs on the empty `dependents_cells_` of the
cell just built and returns at its first line. -/
def Cell.create (E : Env) (text : String) : Option Cell :=
  Cell.Set E Cell.new text

/-! ## sheet.h / sheet.cpp -/

/-- How a call leaves: normally, by one of the three exceptions of common.h, or by using the
null `Cell*` that `dynamic_cast<Cell*>(sheet_.GetCell(..))` yields for a position without a
cell (undefined behaviour; the run ends there). -/
inductive Outcome where
  | ok
  | invalidPosition
  | formulaException
  | circularDependency
  | nullDereference
deriving DecidableEq, Repr

/-- The field `Sheet::sheet_`. -/
abbrev Sheet := List (Position × Cell)

/-- `CreateSheet` (sheet.cpp 147-149): the sheet without cells. -/
def CreateSheet : Sheet := []

/-- Lookup in `sheet_` (`count` / `at` / `operator[]` on a present key). -/
def Sheet.find : Sheet → Position → Option Cell
  | [], _ => none
  | (q, c) :: rest, p => if q = p then some c else Sheet.find rest p

/-- The call `sheet_.erase(pos)`. -/
def Sheet.erase (s : Sheet) (p : Position) : Sheet :=
  s.filter (fun e => decide (e.1 ≠ p))

/-- The assignment `sheet_[pos] = cell`. -/
def Sheet.assign (s : Sheet) (p : Position) (c : Cell) : Sheet :=
  (p, c) :: Sheet.erase s p

/-- A mutation, through its pointer, of the cell installed at `p`. -/
def Sheet.modify (s : Sheet) (p : Position) (f : Cell → Cell) : Sheet :=
  s.map (fun e => if e.1 = p then (e.1, f e.2) else e)

/-- `Sheet::GetCell` (sheet.cpp 66-84): `none` when it throws `InvalidPositionException`,
`some none` for `nullptr`. -/
def Sheet.GetCell (s : Sheet) (pos : Position) : Option (Option Cell) :=
  if pos.IsValid then some (Sheet.find s pos) else none

/-- The loop of `Sheet::CycleDependencyFound` (sheet.cpp 155-177) on `cells_to_check` and
`checked_positions`; one unit of `fuel` per iteration, `some true` when it throws
`CircularDependencyException`, `some false` when the loop ends. -/
def CycleLoop (s : Sheet) (pos : Position) :
    Nat → List Position → List Position → Option Bool
  | 0, _, _ => none
  | _ + 1, [], _ => some false
  | fuel + 1, current_pos :: rest, checked_positions =>
    if current_pos = pos then some true
    else if current_pos ∈ checked_positions then CycleLoop s pos fuel rest checked_positions
    else
      match (Sheet.GetCell s current_pos).getD none with
      | some cell =>
        CycleLoop s pos fuel (rest ++ cell.GetReferencedCells)
          (setInsert current_pos checked_positions)
      | none => CycleLoop s pos fuel rest (setInsert current_pos checked_positions)

/-- A number of iterations that the loop of `CycleDependencyFound` cannot exceed: every queue
entry is popped once, and the entries are the candidate's references plus the references of
the cells that get expanded, each at most once. -/
def cycleFuel (s : Sheet) (cells_to_check : List Position) : Nat :=
  cells_to_check.length + (s.map (fun e => e.2.GetReferencedCells.length)).sum + 1

/-- `Sheet::CycleDependencyFound` (sheet.cpp 151-178): `true` when it throws. -/
def Sheet.CycleDependencyFound (s : Sheet) (tmp_cell : Cell) (pos : Position) : Bool :=
  (CycleLoop s pos (cycleFuel s tmp_cell.GetReferencedCells) tmp_cell.GetReferencedCells []).getD
    false

/-- `Cell::RemoveOldLinks` (cell.cpp 88-92) of the cell at `pos`, over its `referenced_cells_`:
`sheet_.GetCell(ref_cell)` throws for an invalid position and is null for a missing cell. -/
def RemoveOldLinks (pos : Position) : Sheet → List Position → Outcome × Sheet
  | s, [] => (Outcome.ok, s)
  | s, ref_cell :: rest =>
    match Sheet.GetCell s ref_cell with
    | none => (Outcome.invalidPosition, s)
    | some none => (Outcome.nullDereference, s)
    | some (some _) =>
      RemoveOldLinks pos
        (Sheet.modify s ref_cell
          (fun c => { c with dependents_cells_ := setErase pos c.dependents_cells_ }))
        rest

/-- `Sheet::SafeAddDependForRefCells` (sheet.cpp 54-64) over `depend_cell->GetReferencedCells()`. -/
def SafeAddDependForRefCells (pos : Position) : Sheet → List Position → Sheet
  | s, [] => s
  | s, ref_cell_pos :: rest =>
    let s1 := if (Sheet.find s ref_cell_pos).isNone then Sheet.assign s ref_cell_pos Cell.new else s
    SafeAddDependForRefCells pos (Sheet.modify s1 ref_cell_pos (fun c => c.AddDependency pos)) rest

/-- Lines 44-51 of `Sheet::SetCell`: `UpdateReferencedCells`, `SafeAddDependForRefCells`, and
the installation of the new cell. -/
def installCell (s : Sheet) (pos : Position) (new_cell : Cell) : Sheet :=
  let new_cell := new_cell.UpdateReferencedCells
  Sheet.assign (SafeAddDependForRefCells pos s new_cell.GetReferencedCells) pos new_cell

/-- `Sheet::SetCell` (sheet.cpp 28-52). -/
def Sheet.SetCell (E : Env) (s : Sheet) (pos : Position) (text : String) : Outcome × Sheet :=
  if !pos.IsValid then (Outcome.invalidPosition, s)
  else
    match Cell.create E text with
    | none => (Outcome.formulaException, s)
    | some new_cell =>
      if Sheet.CycleDependencyFound s new_cell pos then (Outcome.circularDependency, s)
      else
        match Sheet.find s pos with
        | some old =>
          match RemoveOldLinks pos s old.referenced_cells_ with
          | (Outcome.ok, s1) =>
            (Outcome.ok, installCell s1 pos
              (new_cell.AddOldDependents ((Sheet.find s1 pos).getD old).dependents_cells_))
          | (o, s1) => (o, s1)
        | none => (Outcome.ok, installCell s pos new_cell)

/-- One level of `Cell::ResetCacheDependentsCells` (cell.cpp 81-84): the loop over
`dependents_cells_`, with the recursive call passed in as `rec`. -/
def forEachDependent (rec : Sheet → List Position → Option (Outcome × Sheet)) :
    Sheet → List Position → Option (Outcome × Sheet)
  | s, [] => some (Outcome.ok, s)
  | s, depend_cell :: rest =>
    match Sheet.GetCell s depend_cell with
    | none => some (Outcome.invalidPosition, s)
    | some none => some (Outcome.nullDereference, s)
    | some (some c) =>
      match rec (Sheet.modify s depend_cell (fun c => { c with cache_value_ := none }))
          c.dependents_cells_ with
      | none => none
      | some (Outcome.ok, s1) => forEachDependent rec s1 rest
      | some (o, s1) => some (o, s1)

/-- `Cell::ResetCacheDependentsCells` (cell.cpp 77-85) of a cell whose `dependents_cells_` is
the list given; `fuel` bounds the recursion depth, `none` when it is exceeded. -/
def ResetCacheDependentsCells : Nat → Sheet → List Position → Option (Outcome × Sheet)
  | _, s, [] => some (Outcome.ok, s)
  | 0, _, _ :: _ => none
  | fuel + 1, s, d :: ds => forEachDependent (ResetCacheDependentsCells fuel) s (d :: ds)

/-- `Sheet::ClearCell` (sheet.cpp 86-98), with `Cell::Clear` (cell.cpp 94-97) inlined on the
cell at `pos`. -/
def Sheet.ClearCell (E : Env) (fuel : Nat) (s : Sheet) (pos : Position) :
    Option (Outcome × Sheet) :=
  if !pos.IsValid then some (Outcome.invalidPosition, s)
  else
    match Sheet.find s pos with
    | none => some (Outcome.ok, s)
    | some cell =>
      match RemoveOldLinks pos s cell.referenced_cells_ with
      | (Outcome.ok, s1) =>
        match Cell.Set E ((Sheet.find s1 pos).getD cell) "" with
        | none => some (Outcome.formulaException, s1)
        | some c1 =>
          let s2 := Sheet.modify s1 pos (fun _ => c1)
          match ResetCacheDependentsCells fuel s2 c1.dependents_cells_ with
          | none => none
          | some (Outcome.ok, s3) =>
            some (Outcome.ok,
              Sheet.erase (Sheet.modify s3 pos (fun c => { c with referenced_cells_ := [] })) pos)
          | some (o, s3) => some (o, s3)
      | (o, s1) => some (o, s1)

/-! ## Evaluation: `Cell::GetValue`, `Formula::Evaluate` -/

/-- What leaves an evaluation other than a value: a thrown `FormulaError`, the
`InvalidPositionException` of `GetCell`, or the use of a null `Cell*`. -/
inductive Thrown where
  | formulaError (e : FormulaError)
  | invalidPosition
  | nullDereference
deriving DecidableEq

/-- Modelled from the spec: `FormulaAST::Execute` (FormulaAST.h is not under src/): arithmetic
over the operands, left operand first, `lookup` for a cell, `Div0` on division by zero. The
sheet is threaded through because `lookup` fills caches. -/
def Expr.Execute (lookup : Sheet → Position → Option (Except Thrown Double × Sheet)) :
    Expr → Sheet → Option (Except Thrown Double × Sheet)
  | .num d, s => some (Except.ok d, s)
  | .cell p, s => lookup s p
  | .neg e, s =>
    match Expr.Execute lookup e s with
    | some (Except.ok d, s1) => some (Except.ok (-d), s1)
    | r => r
  | .bin op l r, s =>
    match Expr.Execute lookup l s with
    | some (Except.ok a, s1) =>
      match Expr.Execute lookup r s1 with
      | some (Except.ok b, s2) =>
        match op with
        | BinOp.add => some (Except.ok (a + b), s2)
        | BinOp.sub => some (Except.ok (a - b), s2)
        | BinOp.mul => some (Except.ok (a * b), s2)
        | BinOp.div =>
          if b = 0 then some (Except.error (Thrown.formulaError FormulaError.Div0), s2)
          else some (Except.ok (a / b), s2)
      | r2 => r2
    | r1 => r1

/-- `Cell::TextImpl::GetValue` (cell.cpp 142-148). -/
def TextImpl.GetValue (value_ : String) : Value :=
  match value_.data with
  | c :: rest => if c = ESCAPE_SIGN then Value.str (String.mk rest) else Value.str value_
  | [] => Value.str value_

/-- The closure `interpret_function` of `Formula::Evaluate` (formula.cpp 20-48); `getValue` is
`Cell::GetValue` of the cell at a position. -/
def interpret_function (E : Env)
    (getValue : Sheet → Position → Option (Except Thrown Value × Sheet))
    (s : Sheet) (pos : Position) : Option (Except Thrown Double × Sheet) :=
  match Sheet.GetCell s pos with
  | none => some (Except.error Thrown.invalidPosition, s)
  | some none => some (Except.ok 0, s)
  | some (some cell) =>
    match getValue s pos with
    | none => none
    | some (Except.error t, s1) => some (Except.error t, s1)
    | some (Except.ok (Value.num d), s1) => some (Except.ok d, s1)
    | some (Except.ok (Value.str _), s1) =>
      let text := ((Sheet.find s1 pos).getD cell).GetText E
      match text.data with
      | [] => some (Except.ok 0, s1)
      | c :: _ =>
        if c = ESCAPE_SIGN then some (Except.error (Thrown.formulaError FormulaError.Value), s1)
        else
          match E.stod text with
          | some d => some (Except.ok d, s1)
          | none => some (Except.error (Thrown.formulaError FormulaError.Value), s1)
    | some (Except.ok (Value.err e), s1) => some (Except.error (Thrown.formulaError e), s1)

/-- `Cell::GetValue` (cell.cpp 99-104) of the cell at `pos`, with `FormulaImpl::GetValue` and
`Formula::Evaluate` (formula.cpp 50-54) for a formula; `fuel` bounds the depth of the
recursion through referenced cells. A position without a cell stands for a caller that uses
the null result of `GetCell`. -/
def GetValue (E : Env) : Nat → Sheet → Position → Option (Except Thrown Value × Sheet)
  | 0, _, _ => none
  | fuel + 1, s, pos =>
    match Sheet.find s pos with
    | none => some (Except.error Thrown.nullDereference, s)
    | some c =>
      match c.cache_value_ with
      | some v => some (Except.ok v, s)
      | none =>
        match c.impl_ with
        | Impl.empty =>
          some (Except.ok (Value.str ""),
            Sheet.modify s pos (fun c => { c with cache_value_ := some (Value.str "") }))
        | Impl.text value_ =>
          some (Except.ok (TextImpl.GetValue value_),
            Sheet.modify s pos (fun c => { c with cache_value_ := some (TextImpl.GetValue value_) }))
        | Impl.formula ast =>
          match Expr.Execute (interpret_function E (GetValue E fuel)) ast s with
          | none => none
          | some (Except.ok d, s1) =>
            some (Except.ok (Value.num d),
              Sheet.modify s1 pos (fun c => { c with cache_value_ := some (Value.num d) }))
          | some (Except.error (Thrown.formulaError e), s1) =>
            some (Except.ok (Value.err e),
              Sheet.modify s1 pos (fun c => { c with cache_value_ := some (Value.err e) }))
          | some (Except.error t, s1) => some (Except.error t, s1)

/-! ## Sequences of calls -/

/-- A call of the public interface: `SetCell(pos, text)`, `ClearCell(pos)`, or a read
`GetCell(pos)->GetValue()` made when `GetCell(pos)` is not null. -/
inductive Op where
  | SetCell (pos : Position) (text : String)
  | ClearCell (pos : Position)
  | GetValue (pos : Position)
deriving DecidableEq

/-- One call on the sheet: the outcome and the sheet after it; `none` when the recursion budget
`fuel` is exceeded. -/
def step (E : Env) (fuel : Nat) (s : Sheet) : Op → Option (Outcome × Sheet)
  | Op.SetCell pos text => some (Sheet.SetCell E s pos text)
  | Op.ClearCell pos => Sheet.ClearCell E fuel s pos
  | Op.GetValue pos =>
    match Sheet.GetCell s pos with
    | none => some (Outcome.invalidPosition, s)
    | some none => some (Outcome.ok, s)
    | some (some _) =>
      match GetValue E fuel s pos with
      | none => none
      | some (Except.ok _, s1) => some (Outcome.ok, s1)
      | some (Except.error Thrown.nullDereference, s1) => some (Outcome.nullDereference, s1)
      | some (Except.error _, s1) => some (Outcome.invalidPosition, s1)

/-- A sequence of calls from a sheet; an exception is caught by the caller and the run goes on,
a null dereference ends it. The result is the outcome of the last call made and the sheet. -/
def runOps (E : Env) (fuel : Nat) : Sheet → List Op → Option (Outcome × Sheet)
  | s, [] => some (Outcome.ok, s)
  | s, op :: ops =>
    match step E fuel s op with
    | none => none
    | some (Outcome.nullDereference, s1) => some (Outcome.nullDereference, s1)
    | some (o, s1) =>
      match ops with
      | [] => some (o, s1)
      | _ :: _ => runOps E fuel s1 ops

/-! ## A sample environment for the concrete scenarios -/

/-- Position `A1`. -/
def A1 : Position := ⟨0, 0⟩

/-- Position `A2`. -/
def A2 : Position := ⟨1, 0⟩

/-- Position `A3`. -/
def A3 : Position := ⟨2, 0⟩

/-- Modelled from the spec: the formula parser (FormulaAST.h is not under src/) on the
expressions the scenarios use; formula.h documents numbers, cell names, binary operations and
brackets, and an expression printed without spaces and extra brackets. -/
def sampleParse (expression : String) : Option Expr :=
  if expression = "A1" then some (Expr.cell A1)
  else if expression = "A2" then some (Expr.cell A2)
  else if expression = "A3" then some (Expr.cell A3)
  else if expression = "A1+A2*2" then
    some (Expr.bin BinOp.add (Expr.cell A1) (Expr.bin BinOp.mul (Expr.cell A2) (Expr.num 2)))
  else if expression = "(A1)" then some (Expr.cell A1)
  else none

/-- Modelled from the spec: `FormulaAST::PrintFormula` on the sample expressions. -/
def samplePrint : Expr → String
  | Expr.cell p =>
    if p = A1 then "A1" else if p = A2 then "A2" else if p = A3 then "A3" else "?"
  | Expr.bin BinOp.add (Expr.cell _) (Expr.bin BinOp.mul (Expr.cell _) (Expr.num _)) => "A1+A2*2"
  | _ => "?"

/-- The test `std::isspace` in the "C" locale: the space and the characters 9 to 13. -/
def isSpaceChar (c : Char) : Bool :=
  decide (c.toNat = 32) || (decide (9 ≤ c.toNat) && decide (c.toNat ≤ 13))

/-- The value of a digit of the given base (`0`-`9`, `a`-`f`, `A`-`F`), if `c` is one. -/
def digitValue (base : Nat) (c : Char) : Option Nat :=
  let d : Nat :=
    if 48 ≤ c.toNat ∧ c.toNat ≤ 57 then c.toNat - 48
    else if 97 ≤ c.toNat ∧ c.toNat ≤ 102 then c.toNat - 87
    else if 65 ≤ c.toNat ∧ c.toNat ≤ 70 then c.toNat - 55
    else 16
  if d < base then some d else none

/-- The longest run of digits at the head of the text: the number they continue from `acc`,
how many they are, and the rest. -/
def readDigits (base : Nat) : List Char → Nat → Nat → Nat × Nat × List Char
  | [], acc, n => (acc, n, [])
  | c :: cs, acc, n =>
    match digitValue base c with
    | some d => readDigits base cs (base * acc + d) (n + 1)
    | none => (acc, n, c :: cs)

/-- An optional sign: `true` for a minus. -/
def readSign : List Char → Bool × List Char
  | c :: cs => if c = '-' then (true, cs) else if c = '+' then (false, cs) else (false, c :: cs)
  | [] => (false, [])

/-- An optional exponent part: the marker, an optional sign and at least one decimal digit;
`0` when the text does not start with one. -/
def readExponent (lower upper : Char) : List Char → Int
  | [] => 0
  | c :: cs =>
    if c = lower ∨ c = upper then
      match readDigits 10 (readSign cs).2 0 0 with
      | (_, 0, _) => 0
      | (v, _ + 1, _) => if (readSign cs).1 then -(v : Int) else (v : Int)
    else 0

/-- The number `± m * b ^ e` as a `double`, `none` for the range error of `strtod`: a
magnitude that rounds beyond the largest finite `double`, or a non-zero magnitude below the
smallest normal `double` that no `double` holds exactly. -/
def toDouble (negative : Bool) (m b : Nat) (e : Int) : Option Double :=
  if 0 ≤ e then
    if m * b ^ e.toNat < (1 <<< 1024) - (1 <<< 970) then
      some (if negative then -((m * b ^ e.toNat : Nat) : ℚ) else ((m * b ^ e.toNat : Nat) : ℚ))
    else none
  else if ((1 <<< 1024) - (1 <<< 970)) * b ^ (-e).toNat ≤ m then none
  else if 0 < m ∧ m <<< 1022 < b ^ (-e).toNat ∧ (m <<< 1074) % b ^ (-e).toNat ≠ 0 then none
  else
    some (if negative then -((m : ℚ) / ((b ^ (-e).toNat : Nat) : ℚ))
      else (m : ℚ) / ((b ^ (-e).toNat : Nat) : ℚ))

/-- A significand of digits of the given base with an optional point and at least one digit,
then an optional exponent of base `expBase`; `none` when there is no digit. -/
def readNumber (negative : Bool) (base expBase bitsPerDigit : Nat) (lower upper : Char)
    (l : List Char) : Option Double :=
  match readDigits base l 0 0 with
  | (i, ni, r1) =>
    match (match r1 with
      | c :: r => if c = '.' then readDigits base r i 0 else (i, 0, r1)
      | [] => (i, 0, r1)) with
    | (m, nf, r2) =>
      if ni + nf = 0 then none
      else
        toDouble negative m expBase
          (readExponent lower upper r2 - ((bitsPerDigit * nf : Nat) : Int))

/-- Modelled from the spec: `std::stod` (the spec's decimal parse of the host; a library
function, not under src/), `none` when it throws. As `strtod` in the "C" locale it skips leading
white space, reads an optional sign and the longest prefix that is a decimal number (digits
with an optional point, optional exponent `e`) or a hexadecimal one (`0x`, hexadecimal digits
with an optional point, optional binary exponent `p`), and ignores what follows; it throws
when there is no such prefix and on a range error. The value is the exact rational, not
rounded to a `double`; the forms `inf` and `nan`, which are no numbers, have no value here. -/
def sampleStod (text : String) : Option Double :=
  match readSign (text.data.dropWhile isSpaceChar) with
  | (negative, l) =>
    match l with
    | c0 :: x :: rest =>
      if c0 = '0' ∧ (x = 'x' ∨ x = 'X') then
        match readNumber negative 16 2 4 'p' 'P' rest with
        | some d => some d
        | none => readNumber negative 10 10 1 'e' 'E' l
      else readNumber negative 10 10 1 'e' 'E' l
    | _ => readNumber negative 10 10 1 'e' 'E' l

/-- The sample environment. -/
def sampleEnv : Env :=
  { ParseFormulaAST := sampleParse, PrintFormula := samplePrint, stod := sampleStod }

/-- The value a read returns, when it returns one. -/
def valueOf (r : Option (Except Thrown Value × Sheet)) : Option Value :=
  r.bind (fun x => x.1.toOption)

/-- Scenario S3 up to the second `SetCell(A1, ..)`: S2, then a read of `A3`. -/
def scenarioS3 : List Op :=
  [Op.SetCell A1 "2", Op.SetCell A2 "3", Op.SetCell A3 "=A1+A2*2", Op.GetValue A3,
    Op.SetCell A1 "10"]

/-- A referenced cell is cleared and later set again. -/
def scenarioClearThenSet : List Op :=
  [Op.SetCell A2 "=A1", Op.ClearCell A1, Op.SetCell A1 "5"]

/-- Scenario S8: `A2` caches the value of `A1`, then `A1` is cleared. -/
def scenarioS8 : List Op :=
  [Op.SetCell A1 "5", Op.SetCell A2 "=A1", Op.GetValue A2, Op.ClearCell A1]

/-- The cell `A2` references the cleared `A1`, `A3` has cached a value of `A2`, and `A2` is
cleared. -/
def scenarioClearAfterReferenceCleared : List Op :=
  [Op.SetCell A3 "=A2", Op.SetCell A2 "=A1", Op.ClearCell A1, Op.GetValue A3, Op.ClearCell A2]

/-! ## The reference graph -/

/-- The positions the cycle check moves to from `a`: the `GetReferencedCells` list of the cell
that `GetCell(a)` yields, nothing when it yields no cell. -/
def succs (s : Sheet) (a : Position) : List Position :=
  match (Sheet.GetCell s a).getD none with
  | some cell => cell.GetReferencedCells
  | none => []

/-- An edge `a → b` of the graph the cycle check walks: `b` is in the `GetReferencedCells`
list of the cell installed at `a`. -/
def RefEdge (s : Sheet) (a b : Position) : Prop :=
  ∃ c, Sheet.find s a = some c ∧ b ∈ c.GetReferencedCells

/-- An edge `p → q` of the dependency graph: `q` is in the `referenced_cells_` set of the cell
installed at `p`. -/
def RefSetEdge (s : Sheet) (p q : Position) : Prop :=
  ∃ c, Sheet.find s p = some c ∧ q ∈ c.referenced_cells_

/-- An edge `p → q` of the dependents graph: `q` is in the `dependents_cells_` set of the cell
installed at `p`. -/
def DepEdge (s : Sheet) (p q : Position) : Prop :=
  ∃ c, Sheet.find s p = some c ∧ q ∈ c.dependents_cells_

/-- Every cell installed at a position that is not valid is a leaf of the reference graph. -/
def InvalidLeaves (s : Sheet) : Prop :=
  ∀ p c, Sheet.find s p = some c → p.IsValid = false → c.GetReferencedCells = []

/-- The references still to be enqueued: those of the entries whose position is not checked. -/
def pending (checked : List Position) : Sheet → Nat
  | [] => 0
  | (k, c) :: rest =>
    (if k ∈ checked then 0 else c.GetReferencedCells.length) + pending checked rest

/-! ## Invariants of the sheets the interface produces -/

/-- No directed cycle in the relation `p → q ⇔ q ∈ cell(p).referenced_cells_`. -/
def Acyclic (s : Sheet) : Prop :=
  ∀ p, ¬ Relation.TransGen (RefSetEdge s) p p

/-- The `referenced_cells_` of an installed cell holds the positions of its
`GetReferencedCells` list. -/
def RefsAgree (s : Sheet) : Prop :=
  ∀ p c, Sheet.find s p = some c → ∀ q, q ∈ c.referenced_cells_ ↔ q ∈ c.GetReferencedCells

/-- Every entry of a `dependents_cells_` set is a valid position. -/
def DepsValid (s : Sheet) : Prop :=
  ∀ p c, Sheet.find s p = some c → ∀ d, d ∈ c.dependents_cells_ → d.IsValid = true

/-- Every entry `q` of the `dependents_cells_` of the cell at `p` names an installed cell whose
`referenced_cells_` contains `p`. -/
def DepsSound (s : Sheet) : Prop :=
  ∀ p c, Sheet.find s p = some c → ∀ q, q ∈ c.dependents_cells_ →
    ∃ c', Sheet.find s q = some c' ∧ p ∈ c'.referenced_cells_

/-- The invariants that every call keeps as long as no null pointer is used. -/
structure Inv (s : Sheet) : Prop where
  acyclic : Acyclic s
  refsAgree : RefsAgree s
  invalidLeaves : InvalidLeaves s
  depsValid : DepsValid s
  depsSound : DepsSound s

/-- The sheet `s1` has the cells of `s` at the same positions, with the same content and
`referenced_cells_`, and with `dependents_cells_` that lost entries at most (caches are free). -/
def Shrinks (s s1 : Sheet) : Prop :=
  ∀ q, (Sheet.find s q = none ∧ Sheet.find s1 q = none) ∨
    ∃ c c1, Sheet.find s q = some c ∧ Sheet.find s1 q = some c1 ∧ c1.impl_ = c.impl_ ∧
      c1.referenced_cells_ = c.referenced_cells_ ∧
      ∀ d, d ∈ c1.dependents_cells_ → d ∈ c.dependents_cells_

/-- The sheet `s1` differs from `s` in cached values only. -/
def CacheOnly (s s1 : Sheet) : Prop :=
  ∀ q, (Sheet.find s q = none ∧ Sheet.find s1 q = none) ∨
    ∃ c c1, Sheet.find s q = some c ∧ Sheet.find s1 q = some c1 ∧ c1.impl_ = c.impl_ ∧
      c1.referenced_cells_ = c.referenced_cells_ ∧ c1.dependents_cells_ = c.dependents_cells_

/-- What a run of `ResetCacheDependentsCells` that returns guarantees: only caches change, and it
leaves normally or by a null pointer unless some dependents entry is an invalid position. -/
def ResetPost (s : Sheet) (l : List Position) (o : Outcome) (s1 : Sheet) : Prop :=
  CacheOnly s s1 ∧ (o = Outcome.ok ∨ o = Outcome.nullDereference ∨
    (o = Outcome.invalidPosition ∧ ¬ (DepsValid s ∧ ∀ d ∈ l, d.IsValid = true)))

/-- The sheet `s1` differs from `s` only in cached values that were emptied. -/
def Cleared (s s1 : Sheet) : Prop :=
  CacheOnly s s1 ∧ ∀ q c c1, Sheet.find s q = some c → Sheet.find s1 q = some c1 →
    c1.cache_value_ = none ∨ c1.cache_value_ = c.cache_value_

/-- What `Cell::RemoveOldLinks` of the cell at `pos` does to the cell at `q`, given the
referenced positions `l` it went through. -/
def unlink (pos : Position) (l : List Position) (q : Position) (c : Cell) : Cell :=
  if q ∈ l then { c with dependents_cells_ := setErase pos c.dependents_cells_ } else c

/-- What `SafeAddDependForRefCells` for the cell at `pos` with references `l` does to the
position `q`. -/
def link (pos : Position) (l : List Position) (q : Position) (oc : Option Cell) : Option Cell :=
  if q ∈ l then some ((oc.getD Cell.new).AddDependency pos) else oc

/-- Scenario S4: `A1` references `A2`, `A2` references `A3`, and `SetCell(A3, "=A1")` is
rejected. -/
def scenarioS4 : List Op :=
  [Op.SetCell A1 "=A2", Op.SetCell A2 "=A3", Op.SetCell A3 "=A1"]

/-! ## Printable size, `Formula::Evaluate`, and further well-formedness conditions -/

/-- The struct `Size` of common.h. -/
structure Size where
  rows : Int
  cols : Int
deriving DecidableEq, Repr

/-- `Sheet::ComputePrintSize` (sheet.cpp 15-26): `(0, 0)` for the empty map, otherwise the
running maxima, started at `0`, over all entries of `sheet_`, plus one. -/
def Sheet.ComputePrintSize (s : Sheet) : Size :=
  match s with
  | [] => { rows := 0, cols := 0 }
  | _ :: _ =>
    let m := s.foldl
      (fun (m : Int × Int) e =>
        (if m.1 ≥ e.1.row then m.1 else e.1.row, if m.2 ≥ e.1.col then m.2 else e.1.col))
      (0, 0)
    { rows := m.1 + 1, cols := m.2 + 1 }

/-- `Sheet::GetPrintableSize` (sheet.cpp 100-102). -/
def Sheet.GetPrintableSize (s : Sheet) : Size := Sheet.ComputePrintSize s

/-- `Formula::Evaluate` (formula.cpp 19-55): the AST is executed with the closure
`interpret_function`; a thrown `FormulaError` is caught and returned as the value, any other
exception leaves the call. -/
def Formula.Evaluate (E : Env)
    (getValue : Sheet → Position → Option (Except Thrown Value × Sheet))
    (ast : Expr) (s : Sheet) : Option (Except Thrown Value × Sheet) :=
  match Expr.Execute (interpret_function E getValue) ast s with
  | none => none
  | some (Except.ok d, s1) => some (Except.ok (Value.num d), s1)
  | some (Except.error (Thrown.formulaError e), s1) => some (Except.ok (Value.err e), s1)
  | some (Except.error t, s1) => some (Except.error t, s1)

/-- Every position in a `referenced_cells_` set is a valid position. -/
def RefsValid (s : Sheet) : Prop :=
  ∀ p c, Sheet.find s p = some c → ∀ q, q ∈ c.referenced_cells_ → q.IsValid = true

/-- A cached value of an Empty or Text cell is the value its `GetValue` computes, and a cached
value of a Formula cell is not a string. -/
def CacheCoherent (s : Sheet) : Prop :=
  ∀ p c v, Sheet.find s p = some c → c.cache_value_ = some v →
    match c.impl_ with
    | Impl.empty => v = Value.str ""
    | Impl.text value_ => v = TextImpl.GetValue value_
    | Impl.formula _ => ∀ str, v ≠ Value.str str

/-- Every entry of a `dependents_cells_` set names an installed cell. -/
def DepsInstalled (s : Sheet) : Prop :=
  ∀ p c, Sheet.find s p = some c → ∀ d, d ∈ c.dependents_cells_ →
    (Sheet.find s d).isSome = true

/-- No directed cycle in the dependents relation. -/
def DepsAcyclic (s : Sheet) : Prop :=
  ∀ a, ¬ Relation.TransGen (DepEdge s) a a

/-- A sheet whose dependents relation has a directed cycle: the formula cells at `A1` and `A2`
reference each other, and each is in the dependents set of the other. -/
def sheetWithDependentsCycle : Sheet :=
  [(A1,
      { impl_ := Impl.formula (Expr.cell A2)
        dependents_cells_ := [A2]
        referenced_cells_ := [A2]
        cache_value_ := none }),
    (A2,
      { impl_ := Impl.formula (Expr.cell A1)
        dependents_cells_ := [A1]
        referenced_cells_ := [A1]
        cache_value_ := none })]

/-- The loop of `Sheet::CycleDependencyFound` (sheet.cpp 155-177) as in `CycleLoop`, which
also records, in the order of the iterations, the positions it expands: those that pass the
test on `checked_positions` and whose cell's `GetReferencedCells` are pushed to
`cells_to_check`. -/
def CycleLoopTrace (s : Sheet) (pos : Position) :
    Nat → List Position → List Position → Option (Bool × List Position)
  | 0, _, _ => none
  | _ + 1, [], _ => some (false, [])
  | fuel + 1, current_pos :: rest, checked_positions =>
    if current_pos = pos then some (true, [])
    else if current_pos ∈ checked_positions then
      CycleLoopTrace s pos fuel rest checked_positions
    else
      match (Sheet.GetCell s current_pos).getD none with
      | some cell =>
        (CycleLoopTrace s pos fuel (rest ++ cell.GetReferencedCells)
          (setInsert current_pos checked_positions)).map
            (fun r => (r.1, current_pos :: r.2))
      | none => CycleLoopTrace s pos fuel rest (setInsert current_pos checked_positions)

/-! ## Lemmas: sets and the map -/

theorem mem_setInsert (x p : Position) (l : List Position) :
    x ∈ setInsert p l ↔ x = p ∨ x ∈ l := by
  induction l with
  | nil => simp [setInsert]
  | cons q qs ih =>
    unfold setInsert
    by_cases h1 : p = q
    · subst h1
      simp
    · cases h2 : p.lt q
      · simp only [h1, if_false, List.mem_cons, ih, Bool.false_eq_true]
        tauto
      · simp [h1]

theorem mem_setErase (x p : Position) (l : List Position) :
    x ∈ setErase p l ↔ x ∈ l ∧ x ≠ p := by
  simp [setErase]

theorem mem_setOfList (x : Position) (l : List Position) : x ∈ setOfList l ↔ x ∈ l := by
  induction l with
  | nil => simp [setOfList]
  | cons q qs ih =>
    have : setOfList (q :: qs) = setInsert q (setOfList qs) := rfl
    rw [this, mem_setInsert, ih]
    simp

theorem find_erase (s : Sheet) (p q : Position) :
    Sheet.find (Sheet.erase s p) q = if q = p then none else Sheet.find s q := by
  induction s with
  | nil => simp [Sheet.erase, Sheet.find]
  | cons e rest ih =>
    obtain ⟨k, c⟩ := e
    simp only [Sheet.erase] at ih ⊢
    by_cases hk : k = p
    · subst hk
      simp only [List.filter, ne_eq, not_true_eq_false, decide_False, ih, Sheet.find]
      by_cases hq : q = k
      · simp [hq]
      · have : ¬ k = q := fun h => hq h.symm
        simp [hq, this]
    · simp only [List.filter, ne_eq, hk, not_false_eq_true, decide_True, Sheet.find, ih]
      by_cases hq : k = q
      · subst hq
        simp [hk]
      · simp [hq]

theorem find_assign (s : Sheet) (p q : Position) (c : Cell) :
    Sheet.find (Sheet.assign s p c) q = if p = q then some c else Sheet.find s q := by
  unfold Sheet.assign
  by_cases h : p = q
  · simp [Sheet.find, h]
  · have h2 : ¬ q = p := fun e => h e.symm
    simp [Sheet.find, h, find_erase, h2]

theorem find_modify (s : Sheet) (p q : Position) (f : Cell → Cell) :
    Sheet.find (Sheet.modify s p f) q =
      if q = p then (Sheet.find s q).map f else Sheet.find s q := by
  induction s with
  | nil => simp [Sheet.modify, Sheet.find]
  | cons e rest ih =>
    obtain ⟨k, c⟩ := e
    have hcons : Sheet.modify ((k, c) :: rest) p f =
        (if k = p then (k, f c) else (k, c)) :: Sheet.modify rest p f := rfl
    rw [hcons]
    by_cases hk : k = p
    · subst hk
      rw [if_pos rfl]
      by_cases hq : k = q
      · subst hq
        simp [Sheet.find]
      · have hq2 : ¬ q = k := fun e => hq e.symm
        simp only [Sheet.find, hq, if_false, ih, hq2]
    · rw [if_neg hk]
      by_cases hq : k = q
      · subst hq
        simp [Sheet.find, hk]
      · simp only [Sheet.find, hq, if_false, ih]

theorem setInsert_idem (p : Position) (l : List Position) :
    setInsert p (setInsert p l) = setInsert p l := by
  induction l with
  | nil => simp [setInsert]
  | cons q qs ih =>
    by_cases h1 : p = q
    · subst h1
      simp [setInsert]
    · cases h2 : p.lt q
      · simp [setInsert, h1, h2, ih]
      · simp [setInsert, h1, h2]

theorem setErase_idem (p : Position) (l : List Position) :
    setErase p (setErase p l) = setErase p l := by
  simp [setErase, List.filter_filter]

theorem RemoveOldLinks_find (pos : Position) :
    ∀ (l : List Position) (s : Sheet), ∃ l', l' ⊆ l ∧
      ((RemoveOldLinks pos s l).1 = Outcome.ok → l' = l) ∧
      ∀ q, Sheet.find (RemoveOldLinks pos s l).2 q = (Sheet.find s q).map (unlink pos l' q) := by
  intro l
  induction l with
  | nil =>
    intro s
    refine ⟨[], by simp, by simp, fun q => ?_⟩
    cases h : Sheet.find s q <;> simp [RemoveOldLinks, unlink, h]
  | cons r rest ih =>
    intro s
    unfold RemoveOldLinks
    cases h : Sheet.GetCell s r with
    | none =>
      refine ⟨[], by simp, by simp, fun q => ?_⟩
      cases h : Sheet.find s q <;> simp [unlink, h]
    | some oc =>
      cases oc with
      | none =>
        refine ⟨[], by simp, by simp, fun q => ?_⟩
        cases h : Sheet.find s q <;> simp [unlink, h]
      | some c =>
        simp only
        obtain ⟨l', hsub, hok, hfind⟩ := ih (Sheet.modify s r
          (fun c => { c with dependents_cells_ := setErase pos c.dependents_cells_ }))
        refine ⟨r :: l', List.cons_subset_cons r hsub, fun h => by rw [hok h], fun q => ?_⟩
        rw [hfind q, find_modify]
        by_cases hq : q = r
        · subst hq
          cases hf : Sheet.find s q with
          | none => simp
          | some c0 =>
            simp only [if_true, Option.map_some']
            by_cases hm : q ∈ l'
            · simp [unlink, hm, setErase_idem]
            · simp [unlink, hm]
        · rw [if_neg hq]
          cases hf : Sheet.find s q with
          | none => simp
          | some c0 =>
            simp only [Option.map_some', Option.some.injEq]
            unfold unlink
            simp [hq]

theorem SafeAddDependForRefCells_find (pos : Position) :
    ∀ (l : List Position) (s : Sheet) (q : Position),
      Sheet.find (SafeAddDependForRefCells pos s l) q = link pos l q (Sheet.find s q) := by
  intro l
  induction l with
  | nil => intro s q; simp [SafeAddDependForRefCells, link]
  | cons r rest ih =>
    intro s q
    unfold SafeAddDependForRefCells
    simp only
    rw [ih, find_modify]
    by_cases hq : q = r
    · subst hq
      have h1 : Sheet.find (if (Sheet.find s q).isNone = true then Sheet.assign s q Cell.new else s)
          q = some ((Sheet.find s q).getD Cell.new) := by
        cases hf : Sheet.find s q <;> simp [find_assign, hf]
      rw [if_pos rfl, h1]
      by_cases hm : q ∈ rest
      · simp [link, hm, Cell.AddDependency, setInsert_idem]
      · simp [link, hm]
    · have h1 : Sheet.find (if (Sheet.find s r).isNone = true then Sheet.assign s r Cell.new else s)
          q = Sheet.find s q := by
        have hr : ¬ r = q := fun e => hq e.symm
        cases hf : Sheet.find s r <;> simp [find_assign, hr]
      rw [if_neg hq, h1]
      simp [link, hq]

/-! ## Lemmas: the cycle check -/

theorem CycleLoop_cons (s : Sheet) (pos : Position) (fuel : Nat) (cur : Position)
    (rest checked : List Position) :
    CycleLoop s pos (fuel + 1) (cur :: rest) checked =
      if cur = pos then some true
      else if cur ∈ checked then CycleLoop s pos fuel rest checked
      else CycleLoop s pos fuel (rest ++ succs s cur) (setInsert cur checked) := by
  rw [CycleLoop]
  unfold succs
  by_cases h1 : cur = pos
  · simp [h1]
  · by_cases h2 : cur ∈ checked
    · simp [h1, h2]
    · simp only [h1, h2, if_false]
      cases (Sheet.GetCell s cur).getD none <;> simp

theorem CycleLoop_true (s : Sheet) (pos : Position) :
    ∀ (fuel : Nat) (queue checked : List Position),
      CycleLoop s pos fuel queue checked = some true →
      ∃ q ∈ queue, Relation.ReflTransGen (fun a b => b ∈ succs s a) q pos := by
  intro fuel
  induction fuel with
  | zero => intro queue checked h; simp [CycleLoop] at h
  | succ n ih =>
    intro queue checked h
    cases queue with
    | nil => simp [CycleLoop] at h
    | cons cur rest =>
      rw [CycleLoop_cons] at h
      by_cases h1 : cur = pos
      · exact ⟨cur, List.mem_cons_self _ _, h1 ▸ Relation.ReflTransGen.refl⟩
      · rw [if_neg h1] at h
        by_cases h2 : cur ∈ checked
        · rw [if_pos h2] at h
          obtain ⟨q, hq, hr⟩ := ih rest checked h
          exact ⟨q, List.mem_cons_of_mem _ hq, hr⟩
        · rw [if_neg h2] at h
          obtain ⟨q, hq, hr⟩ := ih _ _ h
          rcases List.mem_append.mp hq with hq | hq
          · exact ⟨q, List.mem_cons_of_mem _ hq, hr⟩
          · exact ⟨cur, List.mem_cons_self _ _, Relation.ReflTransGen.head hq hr⟩

theorem closed_no_path (s : Sheet) (pos : Position) (checked : List Position)
    (hclosed : ∀ c ∈ checked, c ≠ pos ∧ ∀ d ∈ succs s c, d ∈ checked) :
    ∀ a, a ∈ checked → ¬ Relation.ReflTransGen (fun a b => b ∈ succs s a) a pos := by
  intro a ha hr
  induction hr using Relation.ReflTransGen.head_induction_on with
  | refl => exact (hclosed _ ha).1 rfl
  | head hab _ ih => exact ih ((hclosed _ ha).2 _ hab)

theorem CycleLoop_false (s : Sheet) (pos : Position) :
    ∀ (fuel : Nat) (queue checked : List Position),
      CycleLoop s pos fuel queue checked = some false →
      (∀ c ∈ checked, c ≠ pos ∧ ∀ d ∈ succs s c, d ∈ queue ∨ d ∈ checked) →
      ∀ a, a ∈ queue ∨ a ∈ checked →
        ¬ Relation.ReflTransGen (fun a b => b ∈ succs s a) a pos := by
  intro fuel
  induction fuel with
  | zero => intro queue checked h; simp [CycleLoop] at h
  | succ n ih =>
    intro queue checked h hinv a ha
    cases queue with
    | nil =>
      refine closed_no_path s pos checked (fun c hc => ⟨(hinv c hc).1, fun d hd => ?_⟩) a ?_
      · rcases (hinv c hc).2 d hd with h' | h'
        · simp at h'
        · exact h'
      · rcases ha with h' | h'
        · simp at h'
        · exact h'
    | cons cur rest =>
      rw [CycleLoop_cons] at h
      by_cases h1 : cur = pos
      · simp [h1] at h
      · rw [if_neg h1] at h
        by_cases h2 : cur ∈ checked
        · rw [if_pos h2] at h
          refine ih rest checked h (fun c hc => ⟨(hinv c hc).1, fun d hd => ?_⟩) a ?_
          · rcases (hinv c hc).2 d hd with h' | h'
            · rcases List.mem_cons.mp h' with h' | h'
              · exact Or.inr (h' ▸ h2)
              · exact Or.inl h'
            · exact Or.inr h'
          · rcases ha with h' | h'
            · rcases List.mem_cons.mp h' with h' | h'
              · exact Or.inr (h' ▸ h2)
              · exact Or.inl h'
            · exact Or.inr h'
        · rw [if_neg h2] at h
          refine ih _ _ h (fun c hc => ?_) a ?_
          · rcases (mem_setInsert _ _ _).mp hc with hc | hc
            · subst hc
              exact ⟨h1, fun d hd => Or.inl (List.mem_append.mpr (Or.inr hd))⟩
            · refine ⟨(hinv c hc).1, fun d hd => ?_⟩
              rcases (hinv c hc).2 d hd with h' | h'
              · rcases List.mem_cons.mp h' with h' | h'
                · exact Or.inr ((mem_setInsert _ _ _).mpr (Or.inl h'))
                · exact Or.inl (List.mem_append.mpr (Or.inl h'))
              · exact Or.inr ((mem_setInsert _ _ _).mpr (Or.inr h'))
          · rcases ha with h' | h'
            · rcases List.mem_cons.mp h' with h' | h'
              · exact Or.inr ((mem_setInsert _ _ _).mpr (Or.inl h'))
              · exact Or.inl (List.mem_append.mpr (Or.inl h'))
            · exact Or.inr ((mem_setInsert _ _ _).mpr (Or.inr h'))

theorem pending_insert_le (s : Sheet) (cur : Position) (checked : List Position) :
    pending (setInsert cur checked) s ≤ pending checked s := by
  induction s with
  | nil => simp [pending]
  | cons e rest ih =>
    obtain ⟨k, c⟩ := e
    simp only [pending]
    by_cases hk : k ∈ checked
    · have : k ∈ setInsert cur checked := (mem_setInsert _ _ _).mpr (Or.inr hk)
      simp only [hk, this, if_true]
      omega
    · simp only [hk, if_false]
      split_ifs <;> omega

theorem pending_expand (s : Sheet) (cur : Position) (checked : List Position) (c : Cell)
    (hfind : Sheet.find s cur = some c) (hnot : cur ∉ checked) :
    pending (setInsert cur checked) s + c.GetReferencedCells.length ≤ pending checked s := by
  induction s with
  | nil => simp [Sheet.find] at hfind
  | cons e rest ih =>
    obtain ⟨k, c'⟩ := e
    simp only [pending]
    by_cases hk : k = cur
    · subst hk
      simp only [Sheet.find, if_true, Option.some.injEq] at hfind
      subst hfind
      have h1 : k ∈ setInsert k checked := (mem_setInsert _ _ _).mpr (Or.inl rfl)
      have h2 := pending_insert_le rest k checked
      simp only [h1, hnot, if_true, if_false]
      omega
    · simp only [Sheet.find, hk, if_false] at hfind
      have h2 := ih hfind
      by_cases hkc : k ∈ checked
      · have : k ∈ setInsert cur checked := (mem_setInsert _ _ _).mpr (Or.inr hkc)
        simp only [hkc, this, if_true]
        omega
      · simp only [hkc, if_false]
        split_ifs <;> omega

theorem succs_length_le (s : Sheet) (cur : Position) (checked : List Position)
    (hnot : cur ∉ checked) :
    pending (setInsert cur checked) s + (succs s cur).length ≤ pending checked s := by
  unfold succs Sheet.GetCell
  cases hv : cur.IsValid
  · simpa using pending_insert_le s cur checked
  · cases hf : Sheet.find s cur with
    | none => simpa [hf] using pending_insert_le s cur checked
    | some c => simpa [hf] using pending_expand s cur checked c hf hnot

theorem CycleLoop_isSome (s : Sheet) (pos : Position) :
    ∀ (fuel : Nat) (queue checked : List Position),
      queue.length + pending checked s < fuel →
      (CycleLoop s pos fuel queue checked).isSome = true := by
  intro fuel
  induction fuel with
  | zero => intro queue checked h; omega
  | succ n ih =>
    intro queue checked h
    cases queue with
    | nil => simp [CycleLoop]
    | cons cur rest =>
      rw [CycleLoop_cons]
      by_cases h1 : cur = pos
      · simp [h1]
      · rw [if_neg h1]
        simp only [List.length_cons] at h
        by_cases h2 : cur ∈ checked
        · rw [if_pos h2]
          exact ih _ _ (by omega)
        · rw [if_neg h2]
          have := succs_length_le s cur checked h2
          exact ih _ _ (by simp only [List.length_append]; omega)

theorem pending_nil (s : Sheet) :
    pending [] s = (s.map (fun e => e.2.GetReferencedCells.length)).sum := by
  induction s with
  | nil => rfl
  | cons e rest ih =>
    obtain ⟨k, c⟩ := e
    simp [pending, ih]

/-- The cycle check always reaches a verdict within `cycleFuel`, and the verdict is `true`
exactly when `pos` is reachable from one of the candidate's references along `succs`. -/
theorem CycleDependencyFound_spec (s : Sheet) (tmp_cell : Cell) (pos : Position) :
    CycleLoop s pos (cycleFuel s tmp_cell.GetReferencedCells) tmp_cell.GetReferencedCells [] =
        some (Sheet.CycleDependencyFound s tmp_cell pos) ∧
      (Sheet.CycleDependencyFound s tmp_cell pos = true ↔
        ∃ q ∈ tmp_cell.GetReferencedCells,
          Relation.ReflTransGen (fun a b => b ∈ succs s a) q pos) := by
  have hsome := CycleLoop_isSome s pos (cycleFuel s tmp_cell.GetReferencedCells)
    tmp_cell.GetReferencedCells [] (by rw [pending_nil]; unfold cycleFuel; omega)
  obtain ⟨b, hb⟩ := Option.isSome_iff_exists.mp hsome
  have hcd : Sheet.CycleDependencyFound s tmp_cell pos = b := by
    simp [Sheet.CycleDependencyFound, hb]
  refine ⟨by rw [hb, hcd], ?_⟩
  rw [hcd]
  constructor
  · intro hbt
    subst hbt
    exact CycleLoop_true s pos _ _ _ hb
  · rintro ⟨q, hq, hr⟩
    cases b with
    | true => rfl
    | false =>
      exact absurd hr (CycleLoop_false s pos _ _ _ hb (by simp) q (Or.inl hq))

theorem RemoveOldLinks_outcome (pos : Position) :
    ∀ (l : List Position) (s : Sheet),
      (RemoveOldLinks pos s l).1 = Outcome.ok ∨
      (RemoveOldLinks pos s l).1 = Outcome.invalidPosition ∨
      (RemoveOldLinks pos s l).1 = Outcome.nullDereference := by
  intro l
  induction l with
  | nil => intro s; simp [RemoveOldLinks]
  | cons r rest ih =>
    intro s
    unfold RemoveOldLinks
    cases h : Sheet.GetCell s r with
    | none => simp
    | some oc =>
      cases oc with
      | none => simp
      | some c => simpa using ih _

theorem SetCell_circular_iff (E : Env) (s : Sheet) (pos : Position) (t : String) (cand : Cell)
    (hpos : pos.IsValid = true) (hcand : Cell.create E t = some cand) :
    (Sheet.SetCell E s pos t).1 = Outcome.circularDependency ↔
      Sheet.CycleDependencyFound s cand pos = true := by
  unfold Sheet.SetCell
  simp only [hpos, hcand, Bool.not_true, Bool.false_eq_true, if_false]
  cases hcd : Sheet.CycleDependencyFound s cand pos
  · simp only [Bool.false_eq_true, if_false, iff_false]
    cases hf : Sheet.find s pos with
    | none => simp
    | some old =>
      simp only
      have ho := RemoveOldLinks_outcome pos old.referenced_cells_ s
      rcases hr : RemoveOldLinks pos s old.referenced_cells_ with ⟨o, s1⟩
      rw [hr] at ho
      cases o <;> simp at ho ⊢
  · simp

theorem succs_iff_RefEdge (s : Sheet) (hs : InvalidLeaves s) (a b : Position) :
    b ∈ succs s a ↔ RefEdge s a b := by
  unfold succs Sheet.GetCell RefEdge
  cases hv : a.IsValid
  · simp only [Bool.false_eq_true, if_false, Option.getD_none, List.not_mem_nil, false_iff]
    rintro ⟨c, hc, hb⟩
    rw [hs a c hc hv] at hb
    simp at hb
  · cases hf : Sheet.find s a <;> simp

theorem InvalidLeaves_nil : InvalidLeaves CreateSheet := by
  intro p c h
  simp [CreateSheet, Sheet.find] at h

/-- The ways `SetCell` can leave, with the sheet it leaves behind. -/
theorem SetCell_cases (E : Env) (s : Sheet) (pos : Position) (t : String) :
    Sheet.SetCell E s pos t = (Outcome.invalidPosition, s) ∨
      Sheet.SetCell E s pos t = (Outcome.formulaException, s) ∨
      Sheet.SetCell E s pos t = (Outcome.circularDependency, s) ∨
      (pos.IsValid = true ∧ ∃ cand, Cell.create E t = some cand ∧
        Sheet.CycleDependencyFound s cand pos = false ∧ Sheet.find s pos = none ∧
        Sheet.SetCell E s pos t = (Outcome.ok, installCell s pos cand)) ∨
      (pos.IsValid = true ∧ ∃ cand old o s1, Cell.create E t = some cand ∧
        Sheet.CycleDependencyFound s cand pos = false ∧ Sheet.find s pos = some old ∧
        RemoveOldLinks pos s old.referenced_cells_ = (o, s1) ∧
        ((o = Outcome.ok ∧ Sheet.SetCell E s pos t = (Outcome.ok, installCell s1 pos
            (cand.AddOldDependents ((Sheet.find s1 pos).getD old).dependents_cells_))) ∨
          (o ≠ Outcome.ok ∧ Sheet.SetCell E s pos t = (o, s1)))) := by
  unfold Sheet.SetCell
  cases hpos : pos.IsValid
  · simp
  · simp only [Bool.not_true, Bool.false_eq_true, if_false]
    cases hc : Cell.create E t with
    | none => simp
    | some cand =>
      simp only
      cases hcd : Sheet.CycleDependencyFound s cand pos
      · simp only [Bool.false_eq_true, if_false]
        cases hf : Sheet.find s pos with
        | none =>
          right; right; right; left
          exact ⟨trivial, cand, rfl, hcd, rfl, rfl⟩
        | some old =>
          right; right; right; right
          rcases hr : RemoveOldLinks pos s old.referenced_cells_ with ⟨o, s1⟩
          refine ⟨trivial, cand, old, o, s1, rfl, hcd, rfl, hr, ?_⟩
          simp only
          rw [hr]
          cases o <;> simp
      · simp

theorem find_installCell_self (s : Sheet) (pos : Position) (c : Cell) :
    Sheet.find (installCell s pos c) pos = some c.UpdateReferencedCells := by
  simp [installCell, find_assign]

theorem Cell_create_impl (E : Env) (t : String) (cand : Cell)
    (h : Cell.create E t = some cand) :
    (t.data.head? ≠ some FORMULA_SIGN → cand.impl_.GetText E = t) ∧
      (t.data.head? = some FORMULA_SIGN → ∃ ast, E.ParseFormulaAST (substr1 t) = some ast ∧
        cand.impl_ = Impl.formula ast) := by
  unfold Cell.create Cell.Set Impl.DefineImplType at h
  cases hd : t.data with
  | nil =>
    simp only [hd] at h
    simp only [Option.some.injEq] at h
    subst h
    have : t = "" := by
      cases t
      simp_all
    subst this
    simp [Impl.GetText, Cell.new]
  | cons c rest =>
    simp only [hd] at h
    by_cases hc : c = FORMULA_SIGN
    · simp only [hc, if_true] at h
      cases hp : E.ParseFormulaAST (substr1 t) with
      | none => simp [hp] at h
      | some ast =>
        simp only [hp, Option.some.injEq] at h
        subst h
        simp [hc]
    · simp only [hc, if_false, Option.some.injEq] at h
      subst h
      simp [hc, Impl.GetText]

/-! ## Lemmas: sheets that differ in caches or lose dependents -/

theorem Shrinks_refl (s : Sheet) : Shrinks s s := by
  intro q
  cases h : Sheet.find s q with
  | none => exact Or.inl ⟨rfl, rfl⟩
  | some c => exact Or.inr ⟨c, c, rfl, rfl, rfl, rfl, fun _ hd => hd⟩

theorem Shrinks_trans {a b c : Sheet} (h1 : Shrinks a b) (h2 : Shrinks b c) : Shrinks a c := by
  intro q
  rcases h1 q with ⟨ha, hb⟩ | ⟨ca, cb, ha, hb, hi, hr, hd⟩
  · rcases h2 q with ⟨_, hc⟩ | ⟨cb', cc, hb', _⟩
    · exact Or.inl ⟨ha, hc⟩
    · rw [hb] at hb'; simp at hb'
  · rcases h2 q with ⟨hb', _⟩ | ⟨cb', cc, hb', hc, hi', hr', hd'⟩
    · rw [hb] at hb'; simp at hb'
    · rw [hb] at hb'
      simp only [Option.some.injEq] at hb'
      subst hb'
      exact Or.inr ⟨ca, cc, ha, hc, hi'.trans hi, hr'.trans hr, fun d h => hd d (hd' d h)⟩

theorem CacheOnly.refl (s : Sheet) : CacheOnly s s := by
  intro q
  cases h : Sheet.find s q with
  | none => exact Or.inl ⟨rfl, rfl⟩
  | some c => exact Or.inr ⟨c, c, rfl, rfl, rfl, rfl, rfl⟩

theorem CacheOnly.trans {a b c : Sheet} (h1 : CacheOnly a b) (h2 : CacheOnly b c) :
    CacheOnly a c := by
  intro q
  rcases h1 q with ⟨ha, hb⟩ | ⟨ca, cb, ha, hb, hi, hr, hd⟩
  · rcases h2 q with ⟨_, hc⟩ | ⟨cb', cc, hb', _⟩
    · exact Or.inl ⟨ha, hc⟩
    · rw [hb] at hb'; simp at hb'
  · rcases h2 q with ⟨hb', _⟩ | ⟨cb', cc, hb', hc, hi', hr', hd'⟩
    · rw [hb] at hb'; simp at hb'
    · rw [hb] at hb'
      simp only [Option.some.injEq] at hb'
      subst hb'
      exact Or.inr ⟨ca, cc, ha, hc, hi'.trans hi, hr'.trans hr, hd'.trans hd⟩

theorem CacheOnly.shrinks {s s1 : Sheet} (h : CacheOnly s s1) : Shrinks s s1 := by
  intro q
  rcases h q with h | ⟨c, c1, hc, hc1, hi, hr, hd⟩
  · exact Or.inl h
  · exact Or.inr ⟨c, c1, hc, hc1, hi, hr, fun d h => hd ▸ h⟩

theorem Shrinks.find_some {s s1 : Sheet} (h : Shrinks s s1) {q : Position} {c1 : Cell}
    (hq : Sheet.find s1 q = some c1) :
    ∃ c, Sheet.find s q = some c ∧ c1.impl_ = c.impl_ ∧
      c1.referenced_cells_ = c.referenced_cells_ ∧
      ∀ d, d ∈ c1.dependents_cells_ → d ∈ c.dependents_cells_ := by
  rcases h q with ⟨_, h1⟩ | ⟨c, c1', hc, hc1, hi, hr, hd⟩
  · rw [hq] at h1; simp at h1
  · rw [hq] at hc1
    simp only [Option.some.injEq] at hc1
    subst hc1
    exact ⟨c, hc, hi, hr, hd⟩

theorem Shrinks.find_some_rev {s s1 : Sheet} (h : Shrinks s s1) {q : Position} {c : Cell}
    (hq : Sheet.find s q = some c) :
    ∃ c1, Sheet.find s1 q = some c1 ∧ c1.impl_ = c.impl_ ∧
      c1.referenced_cells_ = c.referenced_cells_ := by
  rcases h q with ⟨h0, _⟩ | ⟨c', c1, hc, hc1, hi, hr, _⟩
  · rw [hq] at h0; simp at h0
  · rw [hq] at hc
    simp only [Option.some.injEq] at hc
    subst hc
    exact ⟨c1, hc1, hi, hr⟩

theorem Acyclic_of_subedges {s s1 : Sheet} (h : Acyclic s)
    (hsub : ∀ a b, RefSetEdge s1 a b → RefSetEdge s a b) : Acyclic s1 :=
  fun p hp => h p (Relation.TransGen.mono hsub hp)

theorem Shrinks.subedges {s s1 : Sheet} (h : Shrinks s s1) :
    ∀ a b, RefSetEdge s1 a b → RefSetEdge s a b := by
  rintro a b ⟨c1, hc1, hb⟩
  obtain ⟨c, hc, _, hr, _⟩ := h.find_some hc1
  exact ⟨c, hc, hr ▸ hb⟩

theorem Inv_of_Shrinks {s s1 : Sheet} (hinv : Inv s) (h : Shrinks s s1) : Inv s1 := by
  refine ⟨Acyclic_of_subedges hinv.acyclic h.subedges, ?_, ?_, ?_, ?_⟩
  · intro p c1 hc1 q
    obtain ⟨c, hc, hi, hr, _⟩ := h.find_some hc1
    have := hinv.refsAgree p c hc q
    simpa [Cell.GetReferencedCells, hi, hr] using this
  · intro p c1 hc1 hv
    obtain ⟨c, hc, hi, _, _⟩ := h.find_some hc1
    have := hinv.invalidLeaves p c hc hv
    simpa [Cell.GetReferencedCells, hi] using this
  · intro p c1 hc1 d hd
    obtain ⟨c, hc, _, _, hdeps⟩ := h.find_some hc1
    exact hinv.depsValid p c hc d (hdeps d hd)
  · intro p c1 hc1 d hd
    obtain ⟨c, hc, _, _, hdeps⟩ := h.find_some hc1
    obtain ⟨cd, hcd, hp⟩ := hinv.depsSound p c hc d (hdeps d hd)
    obtain ⟨cd1, hcd1, _, hr⟩ := h.find_some_rev hcd
    exact ⟨cd1, hcd1, hr ▸ hp⟩

theorem modify_cache_CacheOnly (s : Sheet) (p : Position) (v : Option Value) :
    CacheOnly s (Sheet.modify s p (fun c => { c with cache_value_ := v })) := by
  intro q
  rw [find_modify]
  cases h : Sheet.find s q with
  | none => left; simp
  | some c =>
    right
    by_cases hq : q = p
    · exact ⟨c, { c with cache_value_ := v }, rfl, by simp [hq], rfl, rfl, rfl⟩
    · exact ⟨c, c, rfl, by simp [hq], rfl, rfl, rfl⟩

theorem DepsValid_of_CacheOnly {s s1 : Sheet} (h : CacheOnly s s1) (hv : DepsValid s) :
    DepsValid s1 := by
  intro p c1 hc1 d hd
  obtain ⟨c, hc, _, _, hdeps⟩ := h.shrinks.find_some hc1
  exact hv p c hc d (hdeps d hd)

theorem forEachDependent_post (rec : Sheet → List Position → Option (Outcome × Sheet))
    (hrec : ∀ s l o s1, rec s l = some (o, s1) → ResetPost s l o s1) :
    ∀ (l : List Position) (s : Sheet) (o : Outcome) (s1 : Sheet),
      forEachDependent rec s l = some (o, s1) → ResetPost s l o s1 := by
  intro l
  induction l with
  | nil =>
    intro s o s1 h
    simp only [forEachDependent, Option.some.injEq, Prod.mk.injEq] at h
    obtain ⟨rfl, rfl⟩ := h
    exact ⟨CacheOnly.refl _, Or.inl rfl⟩
  | cons d rest ih =>
    intro s o s1 h
    unfold forEachDependent at h
    cases hg : Sheet.GetCell s d with
    | none =>
      simp only [hg, Option.some.injEq, Prod.mk.injEq] at h
      obtain ⟨rfl, rfl⟩ := h
      refine ⟨CacheOnly.refl _, Or.inr (Or.inr ⟨rfl, fun hv => ?_⟩)⟩
      have := hv.2 d (List.mem_cons_self _ _)
      simp [Sheet.GetCell, this] at hg
    | some oc =>
      cases oc with
      | none =>
        simp only [hg, Option.some.injEq, Prod.mk.injEq] at h
        obtain ⟨rfl, rfl⟩ := h
        exact ⟨CacheOnly.refl _, Or.inr (Or.inl rfl)⟩
      | some c =>
        simp only [hg] at h
        have hfind : Sheet.find s d = some c := by
          unfold Sheet.GetCell at hg
          split at hg <;> simp_all
        have hm := modify_cache_CacheOnly s d none
        cases hr : rec (Sheet.modify s d (fun c => { c with cache_value_ := none }))
            c.dependents_cells_ with
        | none => simp [hr] at h
        | some r =>
          obtain ⟨o1, s2⟩ := r
          obtain ⟨hc1, ho1⟩ := hrec _ _ _ _ hr
          have hinner : o1 = Outcome.ok ∨ o1 = Outcome.nullDereference ∨
              (o1 = Outcome.invalidPosition ∧
                ¬ (DepsValid s ∧ ∀ d' ∈ d :: rest, d'.IsValid = true)) := by
            rcases ho1 with h1 | h1 | ⟨h1, h2⟩
            · exact Or.inl h1
            · exact Or.inr (Or.inl h1)
            · refine Or.inr (Or.inr ⟨h1, fun hv => h2 ⟨DepsValid_of_CacheOnly hm hv.1, ?_⟩⟩)
              exact fun d' hd' => hv.1 d c hfind d' hd'
          rw [hr] at h
          by_cases hok : o1 = Outcome.ok
          · subst hok
            simp only at h
            obtain ⟨hc2, ho2⟩ := ih _ _ _ h
            refine ⟨(hm.trans hc1).trans hc2, ?_⟩
            rcases ho2 with h1 | h1 | ⟨h1, h2⟩
            · exact Or.inl h1
            · exact Or.inr (Or.inl h1)
            · refine Or.inr (Or.inr ⟨h1, fun hv => h2 ⟨?_, ?_⟩⟩)
              · exact DepsValid_of_CacheOnly (hm.trans hc1) hv.1
              · exact fun d' hd' => hv.2 d' (List.mem_cons_of_mem _ hd')
          · have h' : some (o1, s2) = some (o, s1) := by
              cases o1 <;> simp_all
            simp only [Option.some.injEq, Prod.mk.injEq] at h'
            obtain ⟨rfl, rfl⟩ := h'
            exact ⟨hm.trans hc1, hinner⟩

theorem ResetCacheDependentsCells_post :
    ∀ (fuel : Nat) (s : Sheet) (l : List Position) (o : Outcome) (s1 : Sheet),
      ResetCacheDependentsCells fuel s l = some (o, s1) → ResetPost s l o s1 := by
  intro fuel
  induction fuel with
  | zero =>
    intro s l o s1 h
    cases l with
    | nil =>
      simp only [ResetCacheDependentsCells, Option.some.injEq, Prod.mk.injEq] at h
      obtain ⟨rfl, rfl⟩ := h
      exact ⟨CacheOnly.refl _, Or.inl rfl⟩
    | cons d ds => simp [ResetCacheDependentsCells] at h
  | succ n ih =>
    intro s l o s1 h
    cases l with
    | nil =>
      simp only [ResetCacheDependentsCells, Option.some.injEq, Prod.mk.injEq] at h
      obtain ⟨rfl, rfl⟩ := h
      exact ⟨CacheOnly.refl _, Or.inl rfl⟩
    | cons d ds =>
      simp only [ResetCacheDependentsCells] at h
      exact forEachDependent_post _ (ih) _ _ _ _ h

theorem Execute_CacheOnly
    (lookup : Sheet → Position → Option (Except Thrown Double × Sheet))
    (hl : ∀ s p r s1, lookup s p = some (r, s1) → CacheOnly s s1) :
    ∀ (e : Expr) (s : Sheet) (r : Except Thrown Double) (s1 : Sheet),
      Expr.Execute lookup e s = some (r, s1) → CacheOnly s s1 := by
  intro e
  induction e with
  | num d =>
    intro s r s1 h
    simp only [Expr.Execute, Option.some.injEq, Prod.mk.injEq] at h
    exact h.2 ▸ CacheOnly.refl _
  | cell p =>
    intro s r s1 h
    exact hl s p r s1 h
  | neg e ih =>
    intro s r s1 h
    simp only [Expr.Execute] at h
    split at h
    · next d s2 heq =>
      simp only [Option.some.injEq, Prod.mk.injEq] at h
      exact h.2 ▸ ih _ _ _ heq
    · exact ih _ _ _ h
  | bin op l r ihl ihr =>
    intro s res s1 h
    simp only [Expr.Execute] at h
    split at h
    · next a s2 heq =>
      have h1 := ihl _ _ _ heq
      split at h
      · next b s3 heq2 =>
        have h2 := ihr _ _ _ heq2
        have h3 : s3 = s1 := by
          cases op
          · simp only [Option.some.injEq, Prod.mk.injEq] at h; exact h.2
          · simp only [Option.some.injEq, Prod.mk.injEq] at h; exact h.2
          · simp only [Option.some.injEq, Prod.mk.injEq] at h; exact h.2
          · simp only at h
            split at h <;>
            · simp only [Option.some.injEq, Prod.mk.injEq] at h; exact h.2
        exact h3 ▸ h1.trans h2
      · exact h1.trans (ihr _ _ _ h)
    · exact ihl _ _ _ h

theorem interpret_function_CacheOnly (E : Env)
    (getValue : Sheet → Position → Option (Except Thrown Value × Sheet))
    (hg : ∀ s p r s1, getValue s p = some (r, s1) → CacheOnly s s1) :
    ∀ s p r s1, interpret_function E getValue s p = some (r, s1) → CacheOnly s s1 := by
  intro s p r s1 h
  unfold interpret_function at h
  split at h
  · simp only [Option.some.injEq, Prod.mk.injEq] at h
    exact h.2 ▸ CacheOnly.refl _
  · simp only [Option.some.injEq, Prod.mk.injEq] at h
    exact h.2 ▸ CacheOnly.refl _
  · split at h
    · simp at h
    · next heq =>
      simp only [Option.some.injEq, Prod.mk.injEq] at h
      exact h.2 ▸ hg _ _ _ _ heq
    · next heq =>
      simp only [Option.some.injEq, Prod.mk.injEq] at h
      exact h.2 ▸ hg _ _ _ _ heq
    · next heq =>
      have hc := hg _ _ _ _ heq
      simp only at h
      split at h
      · simp only [Option.some.injEq, Prod.mk.injEq] at h
        exact h.2 ▸ hc
      · split at h
        · simp only [Option.some.injEq, Prod.mk.injEq] at h
          exact h.2 ▸ hc
        · split at h <;>
          · simp only [Option.some.injEq, Prod.mk.injEq] at h
            exact h.2 ▸ hc
    · next heq =>
      simp only [Option.some.injEq, Prod.mk.injEq] at h
      exact h.2 ▸ hg _ _ _ _ heq

theorem GetValue_CacheOnly (E : Env) :
    ∀ (fuel : Nat) (s : Sheet) (p : Position) (r : Except Thrown Value) (s1 : Sheet),
      GetValue E fuel s p = some (r, s1) → CacheOnly s s1 := by
  intro fuel
  induction fuel with
  | zero => intro s p r s1 h; simp [GetValue] at h
  | succ n ih =>
    intro s p r s1 h
    unfold GetValue at h
    split at h
    · simp only [Option.some.injEq, Prod.mk.injEq] at h
      exact h.2 ▸ CacheOnly.refl _
    · split at h
      · simp only [Option.some.injEq, Prod.mk.injEq] at h
        exact h.2 ▸ CacheOnly.refl _
      · split at h
        · simp only [Option.some.injEq, Prod.mk.injEq] at h
          exact h.2 ▸ modify_cache_CacheOnly _ _ _
        · simp only [Option.some.injEq, Prod.mk.injEq] at h
          exact h.2 ▸ modify_cache_CacheOnly _ _ _
        · have hex := Execute_CacheOnly _ (interpret_function_CacheOnly E _ ih)
          split at h
          · simp at h
          · next heq =>
            simp only [Option.some.injEq, Prod.mk.injEq] at h
            exact h.2 ▸ (hex _ _ _ _ heq).trans (modify_cache_CacheOnly _ _ _)
          · next heq =>
            simp only [Option.some.injEq, Prod.mk.injEq] at h
            exact h.2 ▸ (hex _ _ _ _ heq).trans (modify_cache_CacheOnly _ _ _)
          · next heq =>
            simp only [Option.some.injEq, Prod.mk.injEq] at h
            exact h.2 ▸ hex _ _ _ _ heq

/-! ## Lemmas: replacing the out-edges of one vertex keeps a graph acyclic -/

theorem reach_old_or_pos {α : Type} (old new : α → α → Prop) (pos : α)
    (hother : ∀ a b, a ≠ pos → new a b → old a b) {a b : α}
    (h : Relation.ReflTransGen new a b) :
    Relation.ReflTransGen old a b ∨ Relation.ReflTransGen old a pos := by
  induction h using Relation.ReflTransGen.head_induction_on with
  | refl => exact Or.inl Relation.ReflTransGen.refl
  | @head a' c hac _ ih =>
    by_cases ha : a' = pos
    · exact Or.inr (ha ▸ Relation.ReflTransGen.refl)
    · rcases ih with h1 | h1
      · exact Or.inl (Relation.ReflTransGen.head (hother _ _ ha hac) h1)
      · exact Or.inr (Relation.ReflTransGen.head (hother _ _ ha hac) h1)

theorem cycle_old_or_through_pos {α : Type} (old new : α → α → Prop) (pos : α) (R : α → Prop)
    (hpos : ∀ b, new pos b → R b) (hother : ∀ a b, a ≠ pos → new a b → old a b) {a b : α}
    (h : Relation.TransGen new a b) :
    Relation.TransGen old a b ∨
      (Relation.ReflTransGen old a pos ∧ ∃ q, R q ∧ Relation.ReflTransGen new q b) := by
  induction h using Relation.TransGen.head_induction_on with
  | @base a' hab =>
    by_cases ha : a' = pos
    · subst ha
      exact Or.inr ⟨Relation.ReflTransGen.refl, _, hpos _ hab, Relation.ReflTransGen.refl⟩
    · exact Or.inl (Relation.TransGen.single (hother _ _ ha hab))
  | @ih a' c hac hcb ih =>
    by_cases ha : a' = pos
    · subst ha
      exact Or.inr ⟨Relation.ReflTransGen.refl, _, hpos _ hac, hcb.to_reflTransGen⟩
    · rcases ih with h1 | ⟨h1, q, hq, h2⟩
      · exact Or.inl (Relation.TransGen.head (hother _ _ ha hac) h1)
      · exact Or.inr ⟨Relation.ReflTransGen.head (hother _ _ ha hac) h1, q, hq, h2⟩

theorem acyclic_update {α : Type} (old new : α → α → Prop) (pos : α) (R : α → Prop)
    (hold : ∀ p, ¬ Relation.TransGen old p p)
    (hpos : ∀ b, new pos b → R b) (hother : ∀ a b, a ≠ pos → new a b → old a b)
    (hcheck : ∀ q, R q → ¬ Relation.ReflTransGen old q pos) :
    ∀ p, ¬ Relation.TransGen new p p := by
  intro p hp
  rcases cycle_old_or_through_pos old new pos R hpos hother hp with h | ⟨h1, q, hq, h2⟩
  · exact hold p h
  · rcases reach_old_or_pos old new pos hother h2 with h3 | h3
    · exact hcheck q hq (h3.trans h1)
    · exact hcheck q hq h3

theorem RefSetEdge_succs (s : Sheet) (hr : RefsAgree s) (hl : InvalidLeaves s) (a b : Position)
    (h : RefSetEdge s a b) : b ∈ succs s a := by
  obtain ⟨c, hc, hb⟩ := h
  have hb' := (hr a c hc b).mp hb
  unfold succs Sheet.GetCell
  cases hv : a.IsValid
  · rw [hl a c hc hv] at hb'
    simp at hb'
  · simpa [hc] using hb'

/-! ## Lemmas: `SetCell` keeps the invariants -/

theorem find_installCell (s1 : Sheet) (pos : Position) (c : Cell) (q : Position) :
    Sheet.find (installCell s1 pos c) q =
      if pos = q then some c.UpdateReferencedCells
      else link pos c.GetReferencedCells q (Sheet.find s1 q) := by
  unfold installCell
  simp only [find_assign, SafeAddDependForRefCells_find]
  rfl

theorem link_unlink_some (pos q : Position) (R L : List Position) (oc : Option Cell) (c' : Cell)
    (h : link pos R q (oc.map (unlink pos L q)) = some c') :
    ∃ base, (oc = some base ∨ (oc = none ∧ base = Cell.new)) ∧ c'.impl_ = base.impl_ ∧
      c'.referenced_cells_ = base.referenced_cells_ ∧
      ∀ d, d ∈ c'.dependents_cells_ →
        (d = pos ∧ q ∈ R) ∨ (d ∈ base.dependents_cells_ ∧ ¬ (d = pos ∧ q ∈ L)) := by
  have hun : ∀ c : Cell, (unlink pos L q c).impl_ = c.impl_ ∧
      (unlink pos L q c).referenced_cells_ = c.referenced_cells_ ∧
      ∀ d, d ∈ (unlink pos L q c).dependents_cells_ →
        d ∈ c.dependents_cells_ ∧ ¬ (d = pos ∧ q ∈ L) := by
    intro c
    unfold unlink
    by_cases hq : q ∈ L
    · simp only [hq, if_true, true_and]
      intro d hd
      rw [mem_setErase] at hd
      exact ⟨hd.1, fun h => hd.2 h.1⟩
    · simp only [hq, if_false, true_and]
      exact fun d hd => ⟨hd, fun h => h.2⟩
  unfold link at h
  by_cases hq : q ∈ R
  · simp only [hq, if_true, Option.some.injEq] at h
    subst h
    cases oc with
    | none =>
      refine ⟨Cell.new, Or.inr ⟨rfl, rfl⟩, rfl, rfl, fun d hd => ?_⟩
      simp only [Option.map_none', Option.getD_none, Cell.AddDependency, Cell.new,
        mem_setInsert, List.not_mem_nil, or_false] at hd
      exact Or.inl ⟨hd, hq⟩
    | some c =>
      obtain ⟨h1, h2, h3⟩ := hun c
      refine ⟨c, Or.inl rfl, h1, h2, fun d hd => ?_⟩
      simp only [Option.map_some', Option.getD_some, Cell.AddDependency, mem_setInsert] at hd
      rcases hd with hd | hd
      · exact Or.inl ⟨hd, hq⟩
      · exact Or.inr (h3 d hd)
  · simp only [hq, if_false] at h
    cases oc with
    | none => simp at h
    | some c =>
      simp only [Option.map_some', Option.some.injEq] at h
      subst h
      obtain ⟨h1, h2, h3⟩ := hun c
      exact ⟨c, Or.inl rfl, h1, h2, fun d hd => Or.inr (h3 d hd)⟩

theorem link_unlink_of_some (pos q : Position) (R L : List Position) (c : Cell) :
    ∃ c', link pos R q ((some c).map (unlink pos L q)) = some c' ∧
      c'.referenced_cells_ = c.referenced_cells_ ∧ c'.impl_ = c.impl_ := by
  unfold link unlink
  by_cases hq : q ∈ R <;> by_cases hl : q ∈ L <;> simp [hq, hl, Cell.AddDependency]

/-- The sheet that lines 39-51 of `SetCell` build keeps the invariants: `s1` is `s` after
`RemoveOldLinks` went through the old references `L` of `pos`, `D` are the dependents taken
over from the old cell, and the cycle check has passed. -/
theorem installCell_Inv (s s1 : Sheet) (pos : Position) (cand : Cell) (L D : List Position)
    (hinv : Inv s) (hpos : pos.IsValid = true)
    (hs1 : ∀ q, Sheet.find s1 q = (Sheet.find s q).map (unlink pos L q))
    (hL : ∀ q, q ∈ L ↔ RefSetEdge s pos q)
    (hD : ∀ d, d ∈ D → ∃ old, Sheet.find s pos = some old ∧ d ∈ old.dependents_cells_)
    (hcheck : ∀ q ∈ cand.GetReferencedCells,
      ¬ Relation.ReflTransGen (fun a b => b ∈ succs s a) q pos) :
    Inv (installCell s1 pos (cand.AddOldDependents D)) := by
  have hself : Sheet.find (installCell s1 pos (cand.AddOldDependents D)) pos =
      some (cand.AddOldDependents D).UpdateReferencedCells := by
    rw [find_installCell, if_pos rfl]
  have hother : ∀ q c', q ≠ pos →
      Sheet.find (installCell s1 pos (cand.AddOldDependents D)) q = some c' →
      ∃ base, (Sheet.find s q = some base ∨ (Sheet.find s q = none ∧ base = Cell.new)) ∧
        c'.impl_ = base.impl_ ∧ c'.referenced_cells_ = base.referenced_cells_ ∧
        ∀ d, d ∈ c'.dependents_cells_ →
          (d = pos ∧ q ∈ cand.GetReferencedCells) ∨
            (d ∈ base.dependents_cells_ ∧ ¬ (d = pos ∧ q ∈ L)) := by
    intro q c' hq h
    rw [find_installCell, if_neg (fun e => hq e.symm), hs1] at h
    exact link_unlink_some pos q _ L _ c' h
  have hkeep : ∀ q c, q ≠ pos → Sheet.find s q = some c →
      ∃ c', Sheet.find (installCell s1 pos (cand.AddOldDependents D)) q = some c' ∧
        c'.referenced_cells_ = c.referenced_cells_ := by
    intro q c hq h
    rw [find_installCell, if_neg (fun e => hq e.symm), hs1, h]
    obtain ⟨c', h1, h2, _⟩ := link_unlink_of_some pos q
      (cand.AddOldDependents D).GetReferencedCells L c
    exact ⟨c', h1, h2⟩
  have hnewrefs : ∀ b, b ∈ (cand.AddOldDependents D).UpdateReferencedCells.referenced_cells_ ↔
      b ∈ cand.GetReferencedCells := by
    intro b
    simp [Cell.UpdateReferencedCells, Cell.AddOldDependents, mem_setOfList,
      Cell.GetReferencedCells]
  have hnoself : ∀ old, Sheet.find s pos = some old → pos ∉ old.dependents_cells_ := by
    intro old hold hmem
    obtain ⟨c', hc', hp⟩ := hinv.depsSound pos old hold pos hmem
    exact hinv.acyclic pos (Relation.TransGen.single ⟨c', hc', hp⟩)
  refine ⟨?_, ?_, ?_, ?_, ?_⟩
  · -- acyclic
    refine acyclic_update (RefSetEdge s) _ pos (fun q => q ∈ cand.GetReferencedCells)
      hinv.acyclic ?_ ?_ ?_
    · rintro b ⟨c', hc', hb⟩
      rw [hself] at hc'
      simp only [Option.some.injEq] at hc'
      subst hc'
      exact (hnewrefs b).mp hb
    · rintro a b ha ⟨c', hc', hb⟩
      obtain ⟨base, hbase, _, hr, _⟩ := hother a c' ha hc'
      rcases hbase with hbase | ⟨_, hbase⟩
      · exact ⟨base, hbase, hr ▸ hb⟩
      · subst hbase
        rw [hr] at hb
        simp [Cell.new] at hb
    · intro q hq hreach
      exact hcheck q hq (Relation.ReflTransGen.mono
        (RefSetEdge_succs s hinv.refsAgree hinv.invalidLeaves) hreach)
  · -- refsAgree
    intro p c' hc' q
    by_cases hp : p = pos
    · subst hp
      rw [hself] at hc'
      simp only [Option.some.injEq] at hc'
      subst hc'
      exact hnewrefs q
    · obtain ⟨base, hbase, hi, hr, _⟩ := hother p c' hp hc'
      rcases hbase with hbase | ⟨_, hbase⟩
      · have := hinv.refsAgree p base hbase q
        simpa [Cell.GetReferencedCells, hi, hr] using this
      · subst hbase
        simp [Cell.GetReferencedCells, hi, hr, Cell.new, Impl.GetReferencedCells]
  · -- invalidLeaves
    intro p c' hc' hv
    have hp : p ≠ pos := by
      intro e
      rw [e, hpos] at hv
      simp at hv
    obtain ⟨base, hbase, hi, _, _⟩ := hother p c' hp hc'
    rcases hbase with hbase | ⟨_, hbase⟩
    · have := hinv.invalidLeaves p base hbase hv
      simpa [Cell.GetReferencedCells, hi] using this
    · subst hbase
      simp [Cell.GetReferencedCells, hi, Cell.new, Impl.GetReferencedCells]
  · -- depsValid
    intro p c' hc' d hd
    by_cases hp : p = pos
    · subst hp
      rw [hself] at hc'
      simp only [Option.some.injEq] at hc'
      subst hc'
      obtain ⟨old, hold, hmem⟩ := hD d hd
      exact hinv.depsValid p old hold d hmem
    · obtain ⟨base, hbase, _, _, hdeps⟩ := hother p c' hp hc'
      rcases hdeps d hd with ⟨hdp, _⟩ | ⟨hmem, _⟩
      · exact hdp ▸ hpos
      · rcases hbase with hbase | ⟨_, hbase⟩
        · exact hinv.depsValid p base hbase d hmem
        · subst hbase
          simp [Cell.new] at hmem
  · -- depsSound
    intro p c' hc' d hd
    by_cases hp : p = pos
    · subst hp
      rw [hself] at hc'
      simp only [Option.some.injEq] at hc'
      subst hc'
      obtain ⟨old, hold, hmem⟩ := hD d hd
      have hdne : d ≠ p := fun e => hnoself old hold (e ▸ hmem)
      obtain ⟨cd, hcd, hpin⟩ := hinv.depsSound p old hold d hmem
      obtain ⟨cd', hcd', hr⟩ := hkeep d cd hdne hcd
      exact ⟨cd', hcd', hr ▸ hpin⟩
    · obtain ⟨base, hbase, _, _, hdeps⟩ := hother p c' hp hc'
      rcases hdeps d hd with ⟨hdp, hpR⟩ | ⟨hmem, hnot⟩
      · subst hdp
        exact ⟨_, hself, (hnewrefs p).mpr hpR⟩
      · rcases hbase with hbase | ⟨_, hbase⟩
        · obtain ⟨cd, hcd, hpin⟩ := hinv.depsSound p base hbase d hmem
          by_cases hdp : d = pos
          · subst hdp
            exact absurd ⟨rfl, (hL p).mpr ⟨cd, hcd, hpin⟩⟩ hnot
          · obtain ⟨cd', hcd', hr⟩ := hkeep d cd hdp hcd
            exact ⟨cd', hcd', hr ▸ hpin⟩
        · subst hbase
          simp [Cell.new] at hmem

theorem Cell_Set_fields (E : Env) (c cand : Cell) (t : String) (h : Cell.Set E c t = some cand) :
    cand.dependents_cells_ = c.dependents_cells_ ∧
      cand.referenced_cells_ = c.referenced_cells_ := by
  unfold Cell.Set at h
  split at h
  · split at h
    · simp at h
    · simp only [Option.some.injEq] at h
      subst h
      exact ⟨rfl, rfl⟩
  · simp only [Option.some.injEq] at h
    subst h
    exact ⟨rfl, rfl⟩
  · simp only [Option.some.injEq] at h
    subst h
    exact ⟨rfl, rfl⟩

theorem Cell_Set_empty (E : Env) (c : Cell) :
    Cell.Set E c "" = some { c with impl_ := Impl.empty, cache_value_ := none } := by
  have : Impl.DefineImplType "" = ImplType.EMPTY := by decide
  simp [Cell.Set, this]

theorem unlink_fields (pos : Position) (l : List Position) (q : Position) (c : Cell) :
    (unlink pos l q c).impl_ = c.impl_ ∧
      (unlink pos l q c).referenced_cells_ = c.referenced_cells_ ∧
      (unlink pos l q c).cache_value_ = c.cache_value_ ∧
      ∀ d, d ∈ (unlink pos l q c).dependents_cells_ →
        d ∈ c.dependents_cells_ ∧ ¬ (d = pos ∧ q ∈ l) := by
  unfold unlink
  by_cases hq : q ∈ l
  · simp only [hq, if_true, true_and]
    intro d hd
    rw [mem_setErase] at hd
    exact ⟨hd.1, fun h => hd.2 h.1⟩
  · simp only [hq, if_false, true_and]
    exact fun d hd => ⟨hd, fun h => h.2⟩

theorem Shrinks_of_unlink (s s1 : Sheet) (pos : Position) (l : List Position)
    (h : ∀ q, Sheet.find s1 q = (Sheet.find s q).map (unlink pos l q)) : Shrinks s s1 := by
  intro q
  cases hq : Sheet.find s q with
  | none => exact Or.inl ⟨rfl, by rw [h, hq]; rfl⟩
  | some c =>
    obtain ⟨h1, h2, _, h4⟩ := unlink_fields pos l q c
    exact Or.inr ⟨c, unlink pos l q c, rfl, by rw [h, hq]; rfl, h1, h2, fun d hd => (h4 d hd).1⟩

theorem unlink_nil (pos q : Position) (c : Cell) : unlink pos [] q c = c := by
  simp [unlink]

/-- `SetCell` keeps the invariants, however it leaves. -/
theorem SetCell_Inv (E : Env) (s : Sheet) (pos : Position) (t : String) (hinv : Inv s) :
    Inv (Sheet.SetCell E s pos t).2 := by
  rcases SetCell_cases E s pos t with h | h | h | ⟨hpos, cand, hc, hcd, hf, h⟩ |
    ⟨hpos, cand, old, o, s1, hc, hcd, hf, hr, ⟨ho, h⟩ | ⟨ho, h⟩⟩
  · rw [h]; exact hinv
  · rw [h]; exact hinv
  · rw [h]; exact hinv
  · rw [h]
    have hcheck : ∀ q ∈ cand.GetReferencedCells,
        ¬ Relation.ReflTransGen (fun a b => b ∈ succs s a) q pos := by
      intro q hq hreach
      have := (CycleDependencyFound_spec s cand pos).2.mpr ⟨q, hq, hreach⟩
      rw [hcd] at this
      simp at this
    have hdeps : cand.dependents_cells_ = [] := (Cell_Set_fields E _ _ _ hc).1
    have := installCell_Inv s s pos cand [] cand.dependents_cells_ hinv hpos
      (fun q => by cases hq : Sheet.find s q <;> simp [unlink_nil])
      (fun q => by
        constructor
        · intro hq; simp at hq
        · rintro ⟨c, hc', _⟩
          rw [hf] at hc'
          simp at hc')
      (fun d hd => by rw [hdeps] at hd; simp at hd) hcheck
    exact this
  · rw [h]
    have hcheck : ∀ q ∈ cand.GetReferencedCells,
        ¬ Relation.ReflTransGen (fun a b => b ∈ succs s a) q pos := by
      intro q hq hreach
      have := (CycleDependencyFound_spec s cand pos).2.mpr ⟨q, hq, hreach⟩
      rw [hcd] at this
      simp at this
    obtain ⟨l', _, hok, hfind⟩ := RemoveOldLinks_find pos old.referenced_cells_ s
    rw [hr] at hok hfind
    have hl' : l' = old.referenced_cells_ := hok ho
    subst hl'
    refine installCell_Inv s s1 pos cand old.referenced_cells_ _ hinv hpos hfind ?_ ?_ hcheck
    · intro q
      constructor
      · intro hq
        exact ⟨old, hf, hq⟩
      · rintro ⟨c, hc', hq⟩
        rw [hf] at hc'
        simp only [Option.some.injEq] at hc'
        exact hc' ▸ hq
    · intro d hd
      have h1 := hfind pos
      simp only at h1
      rw [hf] at h1
      simp only [Option.map_some'] at h1
      rw [h1] at hd
      simp only [Option.getD_some] at hd
      exact ⟨old, hf, ((unlink_fields pos _ pos old).2.2.2 d hd).1⟩
  · rw [h]
    obtain ⟨l', _, _, hfind⟩ := RemoveOldLinks_find pos old.referenced_cells_ s
    rw [hr] at hfind
    exact Inv_of_Shrinks hinv (Shrinks_of_unlink s s1 pos l' hfind)

/-! ## Lemmas: `ClearCell` keeps the invariants -/

theorem erase_Inv (s s' : Sheet) (pos : Position) (L : List Position) (hinv : Inv s)
    (hL : ∀ q, RefSetEdge s pos q → q ∈ L)
    (hpos : Sheet.find s' pos = none)
    (hrel : ∀ q, q ≠ pos → (Sheet.find s q = none ∧ Sheet.find s' q = none) ∨
      ∃ c c', Sheet.find s q = some c ∧ Sheet.find s' q = some c' ∧ c'.impl_ = c.impl_ ∧
        c'.referenced_cells_ = c.referenced_cells_ ∧
        ∀ d, d ∈ c'.dependents_cells_ → d ∈ c.dependents_cells_ ∧ ¬ (d = pos ∧ q ∈ L)) :
    Inv s' := by
  have hsome : ∀ q c', Sheet.find s' q = some c' → q ≠ pos ∧
      ∃ c, Sheet.find s q = some c ∧ c'.impl_ = c.impl_ ∧
        c'.referenced_cells_ = c.referenced_cells_ ∧
        ∀ d, d ∈ c'.dependents_cells_ → d ∈ c.dependents_cells_ ∧ ¬ (d = pos ∧ q ∈ L) := by
    intro q c' hq
    have hne : q ≠ pos := by
      intro e
      rw [e, hpos] at hq
      simp at hq
    refine ⟨hne, ?_⟩
    rcases hrel q hne with ⟨_, h0⟩ | ⟨c, c1, hc, hc1, hi, hr, hd⟩
    · rw [hq] at h0; simp at h0
    · rw [hq] at hc1
      simp only [Option.some.injEq] at hc1
      subst hc1
      exact ⟨c, hc, hi, hr, hd⟩
  have hrev : ∀ q c, q ≠ pos → Sheet.find s q = some c →
      ∃ c', Sheet.find s' q = some c' ∧ c'.referenced_cells_ = c.referenced_cells_ := by
    intro q c hne hq
    rcases hrel q hne with ⟨h0, _⟩ | ⟨c0, c1, hc, hc1, _, hr, _⟩
    · rw [hq] at h0; simp at h0
    · rw [hq] at hc
      simp only [Option.some.injEq] at hc
      subst hc
      exact ⟨c1, hc1, hr⟩
  refine ⟨?_, ?_, ?_, ?_, ?_⟩
  · refine Acyclic_of_subedges hinv.acyclic ?_
    rintro a b ⟨c', hc', hb⟩
    obtain ⟨_, c, hc, _, hr, _⟩ := hsome a c' hc'
    exact ⟨c, hc, hr ▸ hb⟩
  · intro p c' hc' q
    obtain ⟨_, c, hc, hi, hr, _⟩ := hsome p c' hc'
    have := hinv.refsAgree p c hc q
    simpa [Cell.GetReferencedCells, hi, hr] using this
  · intro p c' hc' hv
    obtain ⟨_, c, hc, hi, _, _⟩ := hsome p c' hc'
    have := hinv.invalidLeaves p c hc hv
    simpa [Cell.GetReferencedCells, hi] using this
  · intro p c' hc' d hd
    obtain ⟨_, c, hc, _, _, hdeps⟩ := hsome p c' hc'
    exact hinv.depsValid p c hc d (hdeps d hd).1
  · intro p c' hc' d hd
    obtain ⟨_, c, hc, _, _, hdeps⟩ := hsome p c' hc'
    obtain ⟨hmem, hnot⟩ := hdeps d hd
    obtain ⟨cd, hcd, hpin⟩ := hinv.depsSound p c hc d hmem
    by_cases hdp : d = pos
    · subst hdp
      exact absurd ⟨rfl, hL p ⟨cd, hcd, hpin⟩⟩ hnot
    · obtain ⟨cd', hcd', hr⟩ := hrev d cd hdp hcd
      exact ⟨cd', hcd', hr ▸ hpin⟩

/-- `ClearCell` keeps the reference graph acyclic however it leaves, and keeps all the
invariants unless it leaves by a null pointer. -/
theorem ClearCell_post (E : Env) (fuel : Nat) (s : Sheet) (pos : Position) (o : Outcome)
    (s' : Sheet) (hinv : Inv s) (h : Sheet.ClearCell E fuel s pos = some (o, s')) :
    Acyclic s' ∧ (o ≠ Outcome.nullDereference → Inv s') := by
  unfold Sheet.ClearCell at h
  cases hpos : pos.IsValid
  · simp only [hpos, Bool.not_false, if_true, Option.some.injEq, Prod.mk.injEq] at h
    exact h.2 ▸ ⟨hinv.acyclic, fun _ => hinv⟩
  · simp only [hpos, Bool.not_true, Bool.false_eq_true, if_false] at h
    cases hf : Sheet.find s pos with
    | none =>
      simp only [hf, Option.some.injEq, Prod.mk.injEq] at h
      exact h.2 ▸ ⟨hinv.acyclic, fun _ => hinv⟩
    | some cell =>
      simp only [hf] at h
      obtain ⟨l', _, hok, hfind⟩ := RemoveOldLinks_find pos cell.referenced_cells_ s
      rcases hr : RemoveOldLinks pos s cell.referenced_cells_ with ⟨o1, s1⟩
      rw [hr] at hok hfind h
      simp only at hok hfind
      have hshr : Shrinks s s1 := Shrinks_of_unlink s s1 pos l' hfind
      have hinv1 : Inv s1 := Inv_of_Shrinks hinv hshr
      by_cases ho1 : o1 = Outcome.ok
      · subst ho1
        have hl' : l' = cell.referenced_cells_ := hok rfl
        subst hl'
        simp only [Cell_Set_empty] at h
        have hc0 : Sheet.find s1 pos = some (unlink pos cell.referenced_cells_ pos cell) := by
          rw [hfind, hf]; rfl
        rw [hc0] at h
        simp only [Option.getD_some] at h
        obtain ⟨hu1, hu2, _, hu4⟩ := unlink_fields pos cell.referenced_cells_ pos cell
        generalize hc0def : unlink pos cell.referenced_cells_ pos cell = c0 at h hc0 hu1 hu2 hu4
        -- the sheet after `Set("")` on the cell at `pos`
        have hs2 : ∀ q, Sheet.find (Sheet.modify s1 pos
              (fun _ => { c0 with impl_ := Impl.empty, cache_value_ := none })) q =
            if q = pos then some { c0 with impl_ := Impl.empty, cache_value_ := none }
            else Sheet.find s1 q := by
          intro q
          rw [find_modify]
          by_cases hq : q = pos
          · simp [hq, hc0]
          · simp [hq]
        have hdv2 : DepsValid (Sheet.modify s1 pos
            (fun _ => { c0 with impl_ := Impl.empty, cache_value_ := none })) := by
          intro p c hc d hd
          rw [hs2] at hc
          by_cases hp : p = pos
          · simp only [hp, if_true, Option.some.injEq] at hc
            subst hc
            exact hinv1.depsValid pos c0 hc0 d hd
          · simp only [hp, if_false] at hc
            exact hinv1.depsValid p c hc d hd
        cases hreset : ResetCacheDependentsCells fuel (Sheet.modify s1 pos
            (fun _ => { c0 with impl_ := Impl.empty, cache_value_ := none }))
            c0.dependents_cells_ with
        | none => simp [hreset] at h
        | some r =>
          obtain ⟨o_r, s3⟩ := r
          obtain ⟨hco, hout⟩ := ResetCacheDependentsCells_post _ _ _ _ _ hreset
          rw [hreset] at h
          -- references in `s3` are references in `s`
          have hsub : ∀ a b, RefSetEdge s3 a b → RefSetEdge s a b := by
            rintro a b ⟨c3, hc3, hb⟩
            obtain ⟨c2, hc2, _, hr2, _⟩ := hco.shrinks.find_some hc3
            rw [hs2] at hc2
            by_cases ha : a = pos
            · simp only [ha, if_true, Option.some.injEq] at hc2
              subst hc2
              subst ha
              refine ⟨cell, hf, ?_⟩
              rw [← hu2]
              exact hr2 ▸ hb
            · simp only [ha, if_false] at hc2
              exact hshr.subedges a b ⟨c2, hc2, hr2 ▸ hb⟩
          rcases hout with hout | hout | ⟨_, hbad⟩
          · subst hout
            simp only [Option.some.injEq, Prod.mk.injEq] at h
            obtain ⟨rfl, rfl⟩ := h
            have hinv' : Inv (Sheet.erase (Sheet.modify s3 pos
                (fun c => { c with referenced_cells_ := [] })) pos) := by
              refine erase_Inv s _ pos cell.referenced_cells_ hinv ?_ ?_ ?_
              · rintro q ⟨c, hc, hq⟩
                rw [hf] at hc
                simp only [Option.some.injEq] at hc
                exact hc ▸ hq
              · simp [find_erase]
              · intro q hq
                rw [find_erase, if_neg hq, find_modify, if_neg hq]
                rcases hco q with ⟨h2, h3⟩ | ⟨c2, c3, h2, h3, hi, hr3, hd3⟩
                · rw [hs2, if_neg hq, hfind] at h2
                  left
                  refine ⟨?_, h3⟩
                  cases hsq : Sheet.find s q with
                  | none => rfl
                  | some c => rw [hsq] at h2; simp at h2
                · rw [hs2, if_neg hq, hfind] at h2
                  cases hsq : Sheet.find s q with
                  | none => rw [hsq] at h2; simp at h2
                  | some c =>
                    rw [hsq] at h2
                    simp only [Option.map_some', Option.some.injEq] at h2
                    subst h2
                    obtain ⟨g1, g2, _, g4⟩ := unlink_fields pos cell.referenced_cells_ q c
                    right
                    exact ⟨c, c3, rfl, h3, hi.trans g1, hr3.trans g2,
                      fun d hd => g4 d (hd3 ▸ hd)⟩
            exact ⟨hinv'.acyclic, fun _ => hinv'⟩
          · subst hout
            simp only [Option.some.injEq, Prod.mk.injEq] at h
            obtain ⟨rfl, rfl⟩ := h
            exact ⟨Acyclic_of_subedges hinv.acyclic hsub, fun hne => absurd rfl hne⟩
          · exact absurd ⟨hdv2, fun d hd => hinv1.depsValid pos c0 hc0 d hd⟩ hbad
      · have h' : some (o1, s1) = some (o, s') := by
          cases o1 <;> simp_all
        simp only [Option.some.injEq, Prod.mk.injEq] at h'
        obtain ⟨rfl, rfl⟩ := h'
        exact ⟨hinv1.acyclic, fun _ => hinv1⟩

/-! ## Lemmas: sequences of calls -/

theorem Inv_CreateSheet : Inv CreateSheet := by
  refine ⟨?_, ?_, InvalidLeaves_nil, ?_, ?_⟩
  · intro p hp
    obtain ⟨b, hb, _⟩ := Relation.TransGen.head'_iff.mp hp
    obtain ⟨c, hc, _⟩ := hb
    simp [CreateSheet, Sheet.find] at hc
  · intro p c h
    simp [CreateSheet, Sheet.find] at h
  · intro p c h
    simp [CreateSheet, Sheet.find] at h
  · intro p c h
    simp [CreateSheet, Sheet.find] at h

/-- A call keeps the reference graph acyclic however it leaves, and keeps all the invariants
unless it leaves by a null pointer. -/
theorem step_post (E : Env) (fuel : Nat) (s : Sheet) (op : Op) (o : Outcome) (s' : Sheet)
    (hinv : Inv s) (h : step E fuel s op = some (o, s')) :
    Acyclic s' ∧ (o ≠ Outcome.nullDereference → Inv s') := by
  cases op with
  | SetCell pos text =>
    simp only [step, Option.some.injEq] at h
    have := SetCell_Inv E s pos text hinv
    rw [h] at this
    exact ⟨this.acyclic, fun _ => this⟩
  | ClearCell pos => exact ClearCell_post E fuel s pos o s' hinv h
  | GetValue pos =>
    have key : ∀ r s1, GetValue E fuel s pos = some (r, s1) → Inv s1 :=
      fun r s1 hg => Inv_of_Shrinks hinv (GetValue_CacheOnly E fuel s pos r s1 hg).shrinks
    simp only [step] at h
    split at h
    · simp only [Option.some.injEq, Prod.mk.injEq] at h
      exact h.2 ▸ ⟨hinv.acyclic, fun _ => hinv⟩
    · simp only [Option.some.injEq, Prod.mk.injEq] at h
      exact h.2 ▸ ⟨hinv.acyclic, fun _ => hinv⟩
    · split at h
      · simp at h
      · next heq =>
        simp only [Option.some.injEq, Prod.mk.injEq] at h
        exact h.2 ▸ ⟨(key _ _ heq).acyclic, fun _ => key _ _ heq⟩
      · next heq =>
        simp only [Option.some.injEq, Prod.mk.injEq] at h
        exact h.2 ▸ ⟨(key _ _ heq).acyclic, fun _ => key _ _ heq⟩
      · next heq =>
        simp only [Option.some.injEq, Prod.mk.injEq] at h
        exact h.2 ▸ ⟨(key _ _ heq).acyclic, fun _ => key _ _ heq⟩

theorem runOps_post (E : Env) (fuel : Nat) :
    ∀ (ops : List Op) (s : Sheet) (o : Outcome) (s' : Sheet), Inv s →
      runOps E fuel s ops = some (o, s') →
      Acyclic s' ∧ (o ≠ Outcome.nullDereference → Inv s') := by
  intro ops
  induction ops with
  | nil =>
    intro s o s' hinv h
    simp only [runOps, Option.some.injEq, Prod.mk.injEq] at h
    exact h.2 ▸ ⟨hinv.acyclic, fun _ => hinv⟩
  | cons op ops ih =>
    intro s o s' hinv h
    unfold runOps at h
    cases hs : step E fuel s op with
    | none => simp [hs] at h
    | some r =>
      obtain ⟨o1, s1⟩ := r
      have hp := step_post E fuel s op o1 s1 hinv hs
      rw [hs] at h
      by_cases ho1 : o1 = Outcome.nullDereference
      · subst ho1
        simp only [Option.some.injEq, Prod.mk.injEq] at h
        obtain ⟨rfl, rfl⟩ := h
        exact hp
      · have hinv1 := hp.2 ho1
        cases ops with
        | nil =>
          have h' : some (o1, s1) = some (o, s') := by
            cases o1 <;> simp_all
          simp only [Option.some.injEq, Prod.mk.injEq] at h'
          obtain ⟨rfl, rfl⟩ := h'
          exact hp
        | cons op2 ops2 =>
          have h' : runOps E fuel s1 (op2 :: ops2) = some (o, s') := by
            cases o1 <;> simp_all
          exact ih s1 o s' hinv1 h'

/-! ## Lemmas: a larger recursion budget gives the same result -/

theorem forEachDependent_mono (rec rec' : Sheet → List Position → Option (Outcome × Sheet))
    (hrec : ∀ s l r, rec s l = some r → rec' s l = some r) :
    ∀ (l : List Position) (s : Sheet) (r : Outcome × Sheet),
      forEachDependent rec s l = some r → forEachDependent rec' s l = some r := by
  intro l
  induction l with
  | nil => intro s r h; simpa [forEachDependent] using h
  | cons d rest ih =>
    intro s r h
    unfold forEachDependent at h ⊢
    cases hg : Sheet.GetCell s d with
    | none => simpa [hg] using h
    | some oc =>
      cases oc with
      | none => simpa [hg] using h
      | some c =>
        simp only [hg] at h ⊢
        cases hr : rec (Sheet.modify s d (fun c => { c with cache_value_ := none }))
            c.dependents_cells_ with
        | none => simp [hr] at h
        | some x =>
          rw [hrec _ _ _ hr]
          rw [hr] at h
          obtain ⟨o1, s1⟩ := x
          cases o1
          · exact ih _ _ h
          all_goals exact h

theorem ResetCacheDependentsCells_succ :
    ∀ (fuel : Nat) (s : Sheet) (l : List Position) (r : Outcome × Sheet),
      ResetCacheDependentsCells fuel s l = some r →
      ResetCacheDependentsCells (fuel + 1) s l = some r := by
  intro fuel
  induction fuel with
  | zero =>
    intro s l r h
    cases l with
    | nil => simpa [ResetCacheDependentsCells] using h
    | cons d ds => simp [ResetCacheDependentsCells] at h
  | succ n ih =>
    intro s l r h
    cases l with
    | nil => simpa [ResetCacheDependentsCells] using h
    | cons d ds =>
      simp only [ResetCacheDependentsCells] at h ⊢
      exact forEachDependent_mono _ _ (ih) _ _ _ h

theorem ResetCacheDependentsCells_mono (s : Sheet) (l : List Position) (r : Outcome × Sheet)
    (fuel fuel' : Nat) (hle : fuel ≤ fuel')
    (h : ResetCacheDependentsCells fuel s l = some r) :
    ResetCacheDependentsCells fuel' s l = some r := by
  induction hle with
  | refl => exact h
  | step _ ih => exact ResetCacheDependentsCells_succ _ _ _ _ ih

theorem Execute_mono (lookup lookup' : Sheet → Position → Option (Except Thrown Double × Sheet))
    (hl : ∀ s p r, lookup s p = some r → lookup' s p = some r) :
    ∀ (e : Expr) (s : Sheet) (r : Except Thrown Double × Sheet),
      Expr.Execute lookup e s = some r → Expr.Execute lookup' e s = some r := by
  intro e
  induction e with
  | num d => intro s r h; simpa [Expr.Execute] using h
  | cell p => intro s r h; exact hl s p r h
  | neg e ih =>
    intro s r h
    simp only [Expr.Execute] at h ⊢
    cases hx : Expr.Execute lookup e s with
    | none => simp [hx] at h
    | some x =>
      rw [ih _ _ hx]
      rw [hx] at h
      exact h
  | bin op l r ihl ihr =>
    intro s res h
    simp only [Expr.Execute] at h ⊢
    cases hx : Expr.Execute lookup l s with
    | none => simp [hx] at h
    | some x =>
      rw [ihl _ _ hx]
      rw [hx] at h
      obtain ⟨ra, s1⟩ := x
      cases ra with
      | error t => exact h
      | ok a =>
        simp only at h ⊢
        cases hy : Expr.Execute lookup r s1 with
        | none => simp [hy] at h
        | some y =>
          rw [ihr _ _ hy]
          rw [hy] at h
          exact h

theorem interpret_function_mono (E : Env)
    (g g' : Sheet → Position → Option (Except Thrown Value × Sheet))
    (hg : ∀ s p r, g s p = some r → g' s p = some r) :
    ∀ s p r, interpret_function E g s p = some r → interpret_function E g' s p = some r := by
  intro s p r h
  unfold interpret_function at h ⊢
  cases hc : Sheet.GetCell s p with
  | none => simpa [hc] using h
  | some oc =>
    cases oc with
    | none => simpa [hc] using h
    | some cell =>
      simp only [hc] at h ⊢
      cases hx : g s p with
      | none => simp [hx] at h
      | some x =>
        rw [hg _ _ _ hx]
        rw [hx] at h
        exact h

theorem GetValue_succ (E : Env) :
    ∀ (fuel : Nat) (s : Sheet) (p : Position) (r : Except Thrown Value × Sheet),
      GetValue E fuel s p = some r → GetValue E (fuel + 1) s p = some r := by
  intro fuel
  induction fuel with
  | zero => intro s p r h; simp [GetValue] at h
  | succ n ih =>
    intro s p r h
    rw [GetValue] at h ⊢
    cases hf : Sheet.find s p with
    | none => simpa [hf] using h
    | some c =>
      simp only [hf] at h ⊢
      cases hcache : c.cache_value_ with
      | some v => simpa [hcache] using h
      | none =>
        simp only [hcache] at h ⊢
        cases himpl : c.impl_ with
        | empty => simpa [himpl] using h
        | text v => simpa [himpl] using h
        | formula ast =>
          simp only [himpl] at h ⊢
          cases hx : Expr.Execute (interpret_function E (GetValue E n)) ast s with
          | none => simp [hx] at h
          | some x =>
            rw [Execute_mono _ _ (interpret_function_mono E _ _ ih) _ _ _ hx]
            rw [hx] at h
            exact h

theorem GetValue_mono (E : Env) (s : Sheet) (p : Position) (r : Except Thrown Value × Sheet)
    (fuel fuel' : Nat) (hle : fuel ≤ fuel') (h : GetValue E fuel s p = some r) :
    GetValue E fuel' s p = some r := by
  induction hle with
  | refl => exact h
  | step _ ih => exact GetValue_succ E _ _ _ _ ih

theorem ClearCell_mono (E : Env) (s : Sheet) (pos : Position) (r : Outcome × Sheet)
    (fuel fuel' : Nat) (hle : fuel ≤ fuel') (h : Sheet.ClearCell E fuel s pos = some r) :
    Sheet.ClearCell E fuel' s pos = some r := by
  unfold Sheet.ClearCell at h ⊢
  cases hpos : pos.IsValid
  · simpa [hpos] using h
  · simp only [hpos, Bool.not_true, Bool.false_eq_true, if_false] at h ⊢
    cases hf : Sheet.find s pos with
    | none => simpa [hf] using h
    | some cell =>
      simp only [hf] at h ⊢
      rcases hr : RemoveOldLinks pos s cell.referenced_cells_ with ⟨o1, s1⟩
      rw [hr] at h
      cases o1
      · simp only at h ⊢
        cases hset : Cell.Set E ((Sheet.find s1 pos).getD cell) "" with
        | none => simpa [hset] using h
        | some c1 =>
          simp only [hset] at h ⊢
          cases hx : ResetCacheDependentsCells fuel (Sheet.modify s1 pos (fun _ => c1))
              c1.dependents_cells_ with
          | none => simp [hx] at h
          | some x =>
            rw [ResetCacheDependentsCells_mono _ _ _ _ _ hle hx]
            rw [hx] at h
            exact h
      all_goals exact h

theorem step_mono (E : Env) (s : Sheet) (op : Op) (r : Outcome × Sheet) (fuel fuel' : Nat)
    (hle : fuel ≤ fuel') (h : step E fuel s op = some r) : step E fuel' s op = some r := by
  cases op with
  | SetCell pos text => simpa [step] using h
  | ClearCell pos => exact ClearCell_mono E s pos r fuel fuel' hle h
  | GetValue pos =>
    simp only [step] at h ⊢
    cases hc : Sheet.GetCell s pos with
    | none => simpa [hc] using h
    | some oc =>
      cases oc with
      | none => simpa [hc] using h
      | some cell =>
        simp only [hc] at h ⊢
        cases hx : GetValue E fuel s pos with
        | none => simp [hx] at h
        | some x =>
          rw [GetValue_mono E _ _ _ _ _ hle hx]
          rw [hx] at h
          exact h

/-! ## Lemmas: the recursions end on the sheets the interface produces -/

theorem exists_rank {α : Type} [DecidableEq α] (r : α → α → Prop) (V : Finset α)
    (hV : ∀ a b, r a b → b ∈ V) (hac : ∀ a, ¬ Relation.TransGen r a a) :
    ∃ μ : α → ℕ, (∀ a, μ a ≤ V.card) ∧ ∀ a b, r a b → μ b < μ a := by
  classical
  refine ⟨fun a => (V.filter (fun x => Relation.TransGen r a x)).card,
    fun a => Finset.card_filter_le _ _, fun a b hab => ?_⟩
  apply Finset.card_lt_card
  refine ⟨fun x hx => ?_, fun hsub => ?_⟩
  · simp only [Finset.mem_filter] at hx ⊢
    exact ⟨hx.1, Relation.TransGen.head hab hx.2⟩
  · have hb : b ∈ V.filter (fun x => Relation.TransGen r a x) := by
      simp only [Finset.mem_filter]
      exact ⟨hV a b hab, Relation.TransGen.single hab⟩
    have := hsub hb
    simp only [Finset.mem_filter] at this
    exact hac b this.2

theorem find_some_mem_keys (s : Sheet) (q : Position) (c : Cell) (h : Sheet.find s q = some c) :
    q ∈ (s.map Prod.fst).toFinset := by
  induction s with
  | nil => simp [Sheet.find] at h
  | cons e rest ih =>
    obtain ⟨k, c'⟩ := e
    by_cases hk : k = q
    · simp [hk]
    · simp only [Sheet.find, hk, if_false] at h
      have := ih h
      simp only [List.map_cons, List.toFinset_cons, Finset.mem_insert]
      exact Or.inr this

theorem forEachDependent_isSome (rec : Sheet → List Position → Option (Outcome × Sheet))
    (s : Sheet)
    (hpost : ∀ s l o s1, rec s l = some (o, s1) → CacheOnly s s1) :
    ∀ (l : List Position),
      (∀ d c s1, d ∈ l → Sheet.find s d = some c → CacheOnly s s1 →
        (rec s1 c.dependents_cells_).isSome = true) →
      ∀ s1, CacheOnly s s1 → (forEachDependent rec s1 l).isSome = true := by
  intro l
  induction l with
  | nil => intro _ s1 _; simp [forEachDependent]
  | cons d rest ih =>
    intro hrec s1 hco
    unfold forEachDependent
    cases hg : Sheet.GetCell s1 d with
    | none => simp
    | some oc =>
      cases oc with
      | none => simp
      | some c1 =>
        simp only
        have hfind1 : Sheet.find s1 d = some c1 := by
          unfold Sheet.GetCell at hg
          split at hg <;> simp_all
        obtain ⟨c, hc, _, _, hdeps⟩ : ∃ c, Sheet.find s d = some c ∧ c1.impl_ = c.impl_ ∧
            c1.referenced_cells_ = c.referenced_cells_ ∧
            c1.dependents_cells_ = c.dependents_cells_ := by
          rcases hco d with ⟨_, h0⟩ | ⟨c, c1', hc, hc1, hi, hr, hd⟩
          · rw [hfind1] at h0; simp at h0
          · rw [hfind1] at hc1
            simp only [Option.some.injEq] at hc1
            subst hc1
            exact ⟨c, hc, hi, hr, hd⟩
        have hco1 := hco.trans (modify_cache_CacheOnly s1 d none)
        have hsome := hrec d c _ (List.mem_cons_self _ _) hc hco1
        rw [← hdeps] at hsome
        obtain ⟨x, hx⟩ := Option.isSome_iff_exists.mp hsome
        obtain ⟨o1, s2⟩ := x
        rw [hx]
        have hco2 := hco1.trans (hpost _ _ _ _ hx)
        cases o1
        · exact ih (fun d' c' s' hd' => hrec d' c' s' (List.mem_cons_of_mem _ hd')) s2 hco2
        all_goals simp

theorem ResetCacheDependentsCells_isSome (s : Sheet) (μ : Position → ℕ)
    (hμ : ∀ a b, DepEdge s a b → μ b < μ a) :
    ∀ (n : Nat) (l : List Position) (s1 : Sheet), CacheOnly s s1 →
      (∀ d c, d ∈ l → Sheet.find s d = some c → μ d < n) →
      (ResetCacheDependentsCells (n + 1) s1 l).isSome = true := by
  intro n
  induction n with
  | zero =>
    intro l s1 hco hl
    cases l with
    | nil => simp [ResetCacheDependentsCells]
    | cons d ds =>
      simp only [ResetCacheDependentsCells]
      refine forEachDependent_isSome _ s
        (fun s l o s1 h => (ResetCacheDependentsCells_post _ _ _ _ _ h).1) _ ?_ s1 hco
      intro d' c _ hd' hc _
      exact absurd (hl d' c hd' hc) (by omega)
  | succ m ih =>
    intro l s1 hco hl
    cases l with
    | nil => simp [ResetCacheDependentsCells]
    | cons d ds =>
      simp only [ResetCacheDependentsCells]
      refine forEachDependent_isSome _ s
        (fun s l o s1 h => (ResetCacheDependentsCells_post _ _ _ _ _ h).1) _ ?_ s1 hco
      intro d' c s1' hd' hc hco'
      refine ih c.dependents_cells_ s1' hco' ?_
      intro e _ he _
      have h1 := hμ d' e ⟨c, hc, he⟩
      have h2 := hl d' c hd' hc
      omega

theorem DepEdge_acyclic (s : Sheet) (hinv : Inv s) :
    ∀ a, ¬ Relation.TransGen (DepEdge s) a a := by
  intro a ha
  have hswap : Relation.TransGen (Function.swap (RefSetEdge s)) a a := by
    refine Relation.TransGen.mono ?_ ha
    rintro x y ⟨c, hc, hy⟩
    obtain ⟨c', hc', hx⟩ := hinv.depsSound x c hc y hy
    exact ⟨c', hc', hx⟩
  exact hinv.acyclic a (Relation.transGen_swap.mp hswap)

theorem DepEdge_rank (s : Sheet) (hinv : Inv s) :
    ∃ μ : Position → ℕ, (∀ a, μ a ≤ s.length) ∧ ∀ a b, DepEdge s a b → μ b < μ a := by
  obtain ⟨μ, h1, h2⟩ := exists_rank (DepEdge s) (s.map Prod.fst).toFinset
    (fun a b hab => by
      obtain ⟨c, hc, hb⟩ := hab
      obtain ⟨c', hc', _⟩ := hinv.depsSound a c hc b hb
      exact find_some_mem_keys s b c' hc')
    (DepEdge_acyclic s hinv)
  refine ⟨μ, fun a => (h1 a).trans ?_, h2⟩
  calc (s.map Prod.fst).toFinset.card ≤ (s.map Prod.fst).length := List.toFinset_card_le _
    _ = s.length := List.length_map _ _

theorem ClearCell_isSome (E : Env) (s : Sheet) (pos : Position) (hinv : Inv s) (fuel : Nat)
    (hfuel : s.length + 2 ≤ fuel) : (Sheet.ClearCell E fuel s pos).isSome = true := by
  obtain ⟨μ, hbound, hμ⟩ := DepEdge_rank s hinv
  unfold Sheet.ClearCell
  cases hpos : pos.IsValid
  · simp
  · simp only [Bool.not_true, Bool.false_eq_true, if_false]
    cases hf : Sheet.find s pos with
    | none => simp
    | some cell =>
      simp only
      obtain ⟨l', _, _, hfind⟩ := RemoveOldLinks_find pos cell.referenced_cells_ s
      rcases hr : RemoveOldLinks pos s cell.referenced_cells_ with ⟨o1, s1⟩
      rw [hr] at hfind
      simp only at hfind
      cases o1
      · simp only [Cell_Set_empty]
        have hc0 : Sheet.find s1 pos = some (unlink pos l' pos cell) := by
          rw [hfind, hf]; rfl
        rw [hc0]
        simp only [Option.getD_some]
        obtain ⟨_, _, _, hu4⟩ := unlink_fields pos l' pos cell
        generalize unlink pos l' pos cell = c0 at hc0 hu4
        have hμ2 : ∀ a b, DepEdge (Sheet.modify s1 pos
            (fun _ => { c0 with impl_ := Impl.empty, cache_value_ := none })) a b →
            μ b < μ a := by
          rintro a b ⟨c2, hc2, hb⟩
          refine hμ a b ?_
          rw [find_modify] at hc2
          by_cases ha : a = pos
          · subst ha
            simp only [if_true, hc0, Option.map_some', Option.some.injEq] at hc2
            subst hc2
            exact ⟨cell, hf, (hu4 b hb).1⟩
          · simp only [ha, if_false] at hc2
            rw [hfind] at hc2
            cases hsa : Sheet.find s a with
            | none => rw [hsa] at hc2; simp at hc2
            | some c =>
              rw [hsa] at hc2
              simp only [Option.map_some', Option.some.injEq] at hc2
              subst hc2
              exact ⟨c, hsa, ((unlink_fields pos l' a c).2.2.2 b hb).1⟩
        have hsome := ResetCacheDependentsCells_isSome _ μ hμ2 (s.length + 1)
          c0.dependents_cells_ _ (CacheOnly.refl _)
          (fun d _ _ _ => Nat.lt_succ_of_le (hbound d))
        obtain ⟨x, hx⟩ := Option.isSome_iff_exists.mp hsome
        rw [ResetCacheDependentsCells_mono _ _ _ _ _ hfuel hx]
        obtain ⟨o_r, s3⟩ := x
        cases o_r <;> simp
      all_goals simp

theorem Execute_isSome (lookup : Sheet → Position → Option (Except Thrown Double × Sheet))
    (s : Sheet) (cells : List Position)
    (hpost : ∀ s p r s1, lookup s p = some (r, s1) → CacheOnly s s1)
    (hsome : ∀ q s2, q ∈ cells → CacheOnly s s2 → (lookup s2 q).isSome = true) :
    ∀ (e : Expr), (∀ q ∈ e.GetCells, q ∈ cells) → ∀ s2, CacheOnly s s2 →
      (Expr.Execute lookup e s2).isSome = true := by
  intro e
  induction e with
  | num d => intro _ s2 _; simp [Expr.Execute]
  | cell p =>
    intro hsub s2 hco
    exact hsome p s2 (hsub p (by simp [Expr.GetCells])) hco
  | neg e ih =>
    intro hsub s2 hco
    simp only [Expr.Execute]
    obtain ⟨x, hx⟩ := Option.isSome_iff_exists.mp (ih hsub s2 hco)
    rw [hx]
    obtain ⟨ra, s3⟩ := x
    cases ra <;> simp
  | bin op l r ihl ihr =>
    intro hsub s2 hco
    simp only [Expr.Execute]
    have hsubl : ∀ q ∈ l.GetCells, q ∈ cells :=
      fun q hq => hsub q (by simp [Expr.GetCells, hq])
    have hsubr : ∀ q ∈ r.GetCells, q ∈ cells :=
      fun q hq => hsub q (by simp [Expr.GetCells, hq])
    obtain ⟨x, hx⟩ := Option.isSome_iff_exists.mp (ihl hsubl s2 hco)
    rw [hx]
    obtain ⟨ra, s3⟩ := x
    cases ra with
    | error t => simp
    | ok a =>
      simp only
      have hco3 := hco.trans (Execute_CacheOnly lookup hpost _ _ _ _ hx)
      obtain ⟨y, hy⟩ := Option.isSome_iff_exists.mp (ihr hsubr s3 hco3)
      rw [hy]
      obtain ⟨rb, s4⟩ := y
      cases rb with
      | error t => simp
      | ok b =>
        cases op
        · simp
        · simp
        · simp
        · simp only
          split <;> simp

theorem interpret_function_isSome (E : Env)
    (g : Sheet → Position → Option (Except Thrown Value × Sheet)) (s2 : Sheet) (q : Position)
    (hg : ∀ cell, Sheet.find s2 q = some cell → (g s2 q).isSome = true) :
    (interpret_function E g s2 q).isSome = true := by
  unfold interpret_function
  cases hc : Sheet.GetCell s2 q with
  | none => simp
  | some oc =>
    cases oc with
    | none => simp
    | some cell =>
      simp only
      have hfind : Sheet.find s2 q = some cell := by
        unfold Sheet.GetCell at hc
        split at hc <;> simp_all
      obtain ⟨x, hx⟩ := Option.isSome_iff_exists.mp (hg cell hfind)
      rw [hx]
      obtain ⟨rv, s3⟩ := x
      cases rv with
      | error t => simp
      | ok v =>
        cases v with
        | num d => simp
        | err e => simp
        | str str =>
          simp only
          split
          · simp
          · split
            · simp
            · split <;> simp

theorem GetValue_isSome (E : Env) (s : Sheet) (μ : Position → ℕ)
    (hμ : ∀ a c b cb, Sheet.find s a = some c → b ∈ c.GetReferencedCells →
      Sheet.find s b = some cb → μ b < μ a) :
    ∀ (n : Nat) (p : Position) (s1 : Sheet), CacheOnly s s1 →
      (∀ c, Sheet.find s p = some c → μ p < n) →
      (GetValue E (n + 1) s1 p).isSome = true := by
  intro n
  induction n with
  | zero =>
    intro p s1 hco hp
    rw [GetValue]
    cases hf : Sheet.find s1 p with
    | none => simp
    | some c1 =>
      obtain ⟨c, hc, _⟩ := hco.shrinks.find_some hf
      exact absurd (hp c hc) (by omega)
  | succ m ih =>
    intro p s1 hco hp
    rw [GetValue]
    cases hf : Sheet.find s1 p with
    | none => simp
    | some c1 =>
      simp only
      obtain ⟨c, hc, hi, _⟩ := hco.shrinks.find_some hf
      cases hcache : c1.cache_value_ with
      | some v => simp
      | none =>
        simp only
        cases himpl : c1.impl_ with
        | empty => simp
        | text v => simp
        | formula ast =>
          simp only
          have hex := Execute_isSome (interpret_function E (GetValue E (m + 1))) s ast.GetCells
            (interpret_function_CacheOnly E _ (GetValue_CacheOnly E (m + 1)))
            (fun q s2 hq hco2 => interpret_function_isSome E _ s2 q (fun cell hcell => by
              obtain ⟨cq, hcq, _⟩ := hco2.shrinks.find_some hcell
              refine ih q s2 hco2 (fun cq' _ => ?_)
              have hq' : q ∈ c.GetReferencedCells := by
                simp only [Cell.GetReferencedCells, ← hi, himpl, Impl.GetReferencedCells,
                  Formula.GetReferencedCells, mem_setOfList]
                exact hq
              have h1 := hμ p c q cq hc hq' hcq
              have h2 := hp c hc
              omega))
            ast (fun q hq => hq) s1 hco
          obtain ⟨x, hx⟩ := Option.isSome_iff_exists.mp hex
          rw [hx]
          obtain ⟨rv, s3⟩ := x
          cases rv with
          | ok d => simp
          | error t => cases t <;> simp

theorem RefEdge_rank (s : Sheet) (hinv : Inv s) :
    ∃ μ : Position → ℕ, (∀ a, μ a ≤ s.length) ∧
      ∀ a c b cb, Sheet.find s a = some c → b ∈ c.GetReferencedCells →
        Sheet.find s b = some cb → μ b < μ a := by
  obtain ⟨μ, h1, h2⟩ := exists_rank
    (fun a b => RefSetEdge s a b ∧ (Sheet.find s b).isSome = true) (s.map Prod.fst).toFinset
    (fun a b hab => by
      obtain ⟨cb, hcb⟩ := Option.isSome_iff_exists.mp hab.2
      exact find_some_mem_keys s b cb hcb)
    (fun a ha => hinv.acyclic a (Relation.TransGen.mono (fun _ _ h => h.1) ha))
  refine ⟨μ, fun a => (h1 a).trans ?_, fun a c b cb hc hb hcb => h2 a b ⟨⟨c, hc, ?_⟩, ?_⟩⟩
  · calc (s.map Prod.fst).toFinset.card ≤ (s.map Prod.fst).length := List.toFinset_card_le _
      _ = s.length := List.length_map _ _
  · exact (hinv.refsAgree a c hc b).mpr hb
  · simp [hcb]

theorem step_isSome (E : Env) (s : Sheet) (op : Op) (hinv : Inv s) (fuel : Nat)
    (hfuel : s.length + 2 ≤ fuel) : (step E fuel s op).isSome = true := by
  cases op with
  | SetCell pos text => simp [step]
  | ClearCell pos => exact ClearCell_isSome E s pos hinv fuel hfuel
  | GetValue pos =>
    simp only [step]
    cases hc : Sheet.GetCell s pos with
    | none => simp
    | some oc =>
      cases oc with
      | none => simp
      | some cell =>
        simp only
        obtain ⟨μ, hbound, hμ⟩ := RefEdge_rank s hinv
        have hsome := GetValue_isSome E s μ hμ (s.length + 1) pos s (CacheOnly.refl _)
          (fun _ _ => Nat.lt_succ_of_le (hbound pos))
        obtain ⟨x, hx⟩ := Option.isSome_iff_exists.mp hsome
        rw [GetValue_mono E _ _ _ _ _ hfuel hx]
        obtain ⟨rv, s3⟩ := x
        cases rv with
        | ok v => simp
        | error t => cases t <;> simp

/-- Every sequence of calls from a sheet with the invariants returns once the recursion budget
is large enough. -/
theorem runOps_isSome (E : Env) :
    ∀ (ops : List Op) (s : Sheet), Inv s →
      ∃ N, ∀ fuel, N ≤ fuel → (runOps E fuel s ops).isSome = true := by
  intro ops
  induction ops with
  | nil => intro s _; exact ⟨0, fun fuel _ => by simp [runOps]⟩
  | cons op ops ih =>
    intro s hinv
    obtain ⟨x, hx⟩ := Option.isSome_iff_exists.mp
      (step_isSome E s op hinv (s.length + 2) (Nat.le_refl _))
    obtain ⟨o1, s1⟩ := x
    by_cases ho1 : o1 = Outcome.nullDereference
    · subst ho1
      refine ⟨s.length + 2, fun fuel hfuel => ?_⟩
      unfold runOps
      rw [step_mono E s op _ _ _ hfuel hx]
      rfl
    · have hinv1 := (step_post E _ s op o1 s1 hinv hx).2 ho1
      obtain ⟨N2, hN2⟩ := ih s1 hinv1
      refine ⟨max (s.length + 2) N2, fun fuel hfuel => ?_⟩
      unfold runOps
      rw [step_mono E s op _ _ _ (le_trans (le_max_left _ _) hfuel) hx]
      cases ops with
      | nil => cases o1 <;> simp
      | cons op2 ops2 =>
        have := hN2 fuel (le_trans (le_max_right _ _) hfuel)
        cases o1 <;> simp_all

/-! ## Lemmas: what a completed `ClearCell` invalidates -/

theorem Cleared_refl (s : Sheet) : Cleared s s :=
  ⟨CacheOnly.refl s, fun q c c1 h h1 => by
    rw [h] at h1
    simp only [Option.some.injEq] at h1
    exact Or.inr (h1 ▸ rfl)⟩

theorem Cleared_trans {a b c : Sheet} (h1 : Cleared a b) (h2 : Cleared b c) : Cleared a c := by
  refine ⟨h1.1.trans h2.1, fun q ca cc hca hcc => ?_⟩
  obtain ⟨cb, hcb, _⟩ := h2.1.shrinks.find_some hcc
  rcases h2.2 q cb cc hcb hcc with h | h
  · exact Or.inl h
  · rcases h1.2 q ca cb hca hcb with h' | h'
    · exact Or.inl (h.trans h')
    · exact Or.inr (h.trans h')

theorem Cleared_modify (s : Sheet) (p : Position) :
    Cleared s (Sheet.modify s p (fun c => { c with cache_value_ := none })) := by
  refine ⟨modify_cache_CacheOnly s p none, fun q c c1 hc hc1 => ?_⟩
  rw [find_modify, hc] at hc1
  by_cases hq : q = p
  · simp only [hq, if_true, Option.map_some', Option.some.injEq] at hc1
    exact Or.inl (hc1 ▸ rfl)
  · simp only [hq, if_false, Option.some.injEq] at hc1
    exact Or.inr (hc1 ▸ rfl)

theorem Cleared_none {s s1 : Sheet} (h : Cleared s s1) {q : Position} {c c1 : Cell}
    (hc : Sheet.find s q = some c) (hc1 : Sheet.find s1 q = some c1)
    (hnone : c.cache_value_ = none) : c1.cache_value_ = none := by
  rcases h.2 q c c1 hc hc1 with h' | h'
  · exact h'
  · exact h'.trans hnone

theorem DepEdge_CacheOnly {s s1 : Sheet} (h : CacheOnly s s1) (a b : Position) :
    DepEdge s a b ↔ DepEdge s1 a b := by
  constructor
  · rintro ⟨c, hc, hb⟩
    rcases h a with ⟨h0, _⟩ | ⟨c', c1, hc', hc1, _, _, hd⟩
    · rw [hc] at h0; simp at h0
    · rw [hc] at hc'
      simp only [Option.some.injEq] at hc'
      subst hc'
      exact ⟨c1, hc1, hd ▸ hb⟩
  · rintro ⟨c1, hc1, hb⟩
    rcases h a with ⟨_, h0⟩ | ⟨c, c1', hc, hc1', _, _, hd⟩
    · rw [hc1] at h0; simp at h0
    · rw [hc1] at hc1'
      simp only [Option.some.injEq] at hc1'
      subst hc1'
      exact ⟨c, hc, hd ▸ hb⟩

/-- What a run of the cache reset that returns normally has done: caches were only emptied,
and every cell reachable through dependents from an entry of the list has an empty cache. -/
theorem forEachDependent_clears (rec : Sheet → List Position → Option (Outcome × Sheet))
    (hrec : ∀ s l s1, rec s l = some (Outcome.ok, s1) → Cleared s s1 ∧
      ∀ d ∈ l, ∀ q, Relation.ReflTransGen (DepEdge s) d q → ∀ c1, Sheet.find s1 q = some c1 →
        c1.cache_value_ = none) :
    ∀ (l : List Position) (s s1 : Sheet),
      forEachDependent rec s l = some (Outcome.ok, s1) → Cleared s s1 ∧
      ∀ d ∈ l, ∀ q, Relation.ReflTransGen (DepEdge s) d q → ∀ c1, Sheet.find s1 q = some c1 →
        c1.cache_value_ = none := by
  intro l
  induction l with
  | nil =>
    intro s s1 h
    simp only [forEachDependent, Option.some.injEq, Prod.mk.injEq, true_and] at h
    subst h
    exact ⟨Cleared_refl _, fun d hd => by simp at hd⟩
  | cons d rest ih =>
    intro s s' h
    unfold forEachDependent at h
    cases hg : Sheet.GetCell s d with
    | none => simp [hg] at h
    | some oc =>
      cases oc with
      | none => simp [hg] at h
      | some c =>
        simp only [hg] at h
        have hfind : Sheet.find s d = some c := by
          unfold Sheet.GetCell at hg
          split at hg <;> simp_all
        cases hr : rec (Sheet.modify s d (fun c => { c with cache_value_ := none }))
            c.dependents_cells_ with
        | none => simp [hr] at h
        | some x =>
          obtain ⟨o1, s2⟩ := x
          rw [hr] at h
          cases o1
          case ok =>
            simp only at h
            have hm := Cleared_modify s d
            obtain ⟨hcl1, hreach1⟩ := hrec _ _ _ hr
            obtain ⟨hcl2, hreach2⟩ := ih _ _ h
            have hcl02 := Cleared_trans hm hcl1
            refine ⟨Cleared_trans hcl02 hcl2, fun d' hd' q hq c' hc' => ?_⟩
            obtain ⟨c2, hc2, _⟩ := hcl2.1.shrinks.find_some hc'
            rcases List.mem_cons.mp hd' with hd' | hd'
            · subst hd'
              rcases Relation.ReflTransGen.cases_head hq with hq | ⟨e, hde, heq⟩
              · subst hq
                obtain ⟨cm, hcm, _⟩ := hcl1.1.shrinks.find_some hc2
                have hcmnone : cm.cache_value_ = none := by
                  rw [find_modify, hfind] at hcm
                  simp only [if_true, Option.map_some', Option.some.injEq] at hcm
                  exact hcm ▸ rfl
                exact Cleared_none hcl2 hc2 hc' (Cleared_none hcl1 hcm hc2 hcmnone)
              · obtain ⟨cd, hcd, he⟩ := hde
                rw [hfind] at hcd
                simp only [Option.some.injEq] at hcd
                subst hcd
                have heq' : Relation.ReflTransGen (DepEdge (Sheet.modify s d'
                    (fun c => { c with cache_value_ := none }))) e q :=
                  Relation.ReflTransGen.mono (fun a b hab => (DepEdge_CacheOnly hm.1 a b).mp hab)
                    heq
                exact Cleared_none hcl2 hc2 hc' (hreach1 e he q heq' c2 hc2)
            · have hq' : Relation.ReflTransGen (DepEdge s2) d' q :=
                Relation.ReflTransGen.mono
                  (fun a b hab => (DepEdge_CacheOnly hcl02.1 a b).mp hab) hq
              exact hreach2 d' hd' q hq' c' hc'
          all_goals simp at h

theorem ResetCacheDependentsCells_clears :
    ∀ (fuel : Nat) (s : Sheet) (l : List Position) (s1 : Sheet),
      ResetCacheDependentsCells fuel s l = some (Outcome.ok, s1) → Cleared s s1 ∧
      ∀ d ∈ l, ∀ q, Relation.ReflTransGen (DepEdge s) d q → ∀ c1, Sheet.find s1 q = some c1 →
        c1.cache_value_ = none := by
  intro fuel
  induction fuel with
  | zero =>
    intro s l s1 h
    cases l with
    | nil =>
      simp only [ResetCacheDependentsCells, Option.some.injEq, Prod.mk.injEq, true_and] at h
      subst h
      exact ⟨Cleared_refl _, fun d hd => by simp at hd⟩
    | cons d ds => simp [ResetCacheDependentsCells] at h
  | succ n ih =>
    intro s l s1 h
    cases l with
    | nil =>
      simp only [ResetCacheDependentsCells, Option.some.injEq, Prod.mk.injEq, true_and] at h
      subst h
      exact ⟨Cleared_refl _, fun d hd => by simp at hd⟩
    | cons d ds =>
      simp only [ResetCacheDependentsCells] at h
      exact forEachDependent_clears _ ih _ _ _ h

/-- When `ClearCell(pos)` on a cell returns normally from a sheet with the invariants, the cell
at `pos` is gone and every cell that was reachable from `pos` through the dependents sets, as
they stood before the call, has an empty cache. -/
theorem ClearCell_ok_invalidates (E : Env) (fuel : Nat) (s : Sheet) (pos : Position)
    (s' : Sheet) (hinv : Inv s) (h : Sheet.ClearCell E fuel s pos = some (Outcome.ok, s'))
    (hcell : (Sheet.find s pos).isSome = true) :
    Sheet.find s' pos = none ∧
      ∀ q, Relation.TransGen (DepEdge s) pos q → ∀ c', Sheet.find s' q = some c' →
        c'.cache_value_ = none := by
  unfold Sheet.ClearCell at h
  cases hpos : pos.IsValid
  · simp only [hpos, Bool.not_false, if_true, Option.some.injEq, Prod.mk.injEq] at h
    simp at h
  · simp only [hpos, Bool.not_true, Bool.false_eq_true, if_false] at h
    obtain ⟨cell, hf⟩ := Option.isSome_iff_exists.mp hcell
    simp only [hf] at h
    obtain ⟨l', _, hok, hfind⟩ := RemoveOldLinks_find pos cell.referenced_cells_ s
    rcases hr : RemoveOldLinks pos s cell.referenced_cells_ with ⟨o1, s1⟩
    rw [hr] at hok hfind h
    simp only at hok hfind
    cases o1
    case ok =>
      simp only [Cell_Set_empty] at h
      have hc0 : Sheet.find s1 pos = some (unlink pos l' pos cell) := by
        rw [hfind, hf]; rfl
      rw [hc0] at h
      simp only [Option.getD_some] at h
      have hc0deps : ∀ d, d ∈ cell.dependents_cells_ → d ≠ pos →
          d ∈ (unlink pos l' pos cell).dependents_cells_ := by
        intro d hd hne
        unfold unlink
        split
        · exact (mem_setErase _ _ _).mpr ⟨hd, hne⟩
        · exact hd
      generalize unlink pos l' pos cell = c0 at h hc0 hc0deps
      cases hreset : ResetCacheDependentsCells fuel (Sheet.modify s1 pos
          (fun _ => { c0 with impl_ := Impl.empty, cache_value_ := none }))
          c0.dependents_cells_ with
      | none => simp [hreset] at h
      | some r =>
        obtain ⟨o_r, s3⟩ := r
        rw [hreset] at h
        cases o_r
        case ok =>
          simp only [Option.some.injEq, Prod.mk.injEq, true_and] at h
          subst h
          refine ⟨by simp [find_erase], fun q hq c' hc' => ?_⟩
          have hacyc := DepEdge_acyclic s hinv
          have hqne : q ≠ pos := fun e => hacyc pos (e ▸ hq)
          rw [find_erase, if_neg hqne, find_modify, if_neg hqne] at hc'
          -- edges on a path that starts below `pos` survive `RemoveOldLinks`
          have hpath : ∀ a, Relation.TransGen (DepEdge s) pos a →
              Relation.ReflTransGen (DepEdge s) a q →
              Relation.ReflTransGen (DepEdge (Sheet.modify s1 pos
                (fun _ => { c0 with impl_ := Impl.empty, cache_value_ := none }))) a q := by
            intro a ha haq
            induction haq using Relation.ReflTransGen.head_induction_on with
            | refl => exact Relation.ReflTransGen.refl
            | @head a a' haa' _ ih =>
              have hane : a ≠ pos := fun e => hacyc pos (e ▸ ha)
              have ha'ne : a' ≠ pos := fun e => hacyc pos (e ▸ ha.tail haa')
              refine Relation.ReflTransGen.head ?_ (ih (ha.tail haa'))
              obtain ⟨c, hc, hmem⟩ := haa'
              refine ⟨unlink pos l' a c, ?_, ?_⟩
              · rw [find_modify, if_neg hane, hfind, hc]
                rfl
              · unfold unlink
                split
                · exact (mem_setErase _ _ _).mpr ⟨hmem, ha'ne⟩
                · exact hmem
          obtain ⟨d, hd, hdq⟩ := Relation.TransGen.head'_iff.mp hq
          obtain ⟨cp, hcp, hdmem⟩ := hd
          rw [hf] at hcp
          simp only [Option.some.injEq] at hcp
          subst hcp
          have hdne : d ≠ pos := fun e =>
            hacyc pos (Relation.TransGen.single ⟨cell, hf, e ▸ hdmem⟩)
          exact (ResetCacheDependentsCells_clears _ _ _ _ hreset).2 d (hc0deps d hdmem hdne) q
            (hpath d (Relation.TransGen.single ⟨cell, hf, hdmem⟩) hdq) c' hc'
        all_goals simp at h
    all_goals simp at h

/-! ## Lemmas: what `SetCell` leaves untouched -/

theorem link_unlink_cache (pos q : Position) (R L : List Position) (c : Cell) :
    ∃ c', link pos R q ((some c).map (unlink pos L q)) = some c' ∧
      c'.cache_value_ = c.cache_value_ := by
  unfold link unlink
  by_cases hq : q ∈ R <;> by_cases hl : q ∈ L <;> simp [hq, hl, Cell.AddDependency]

/-- `SetCell(pos, ..)` never touches the cached value of a cell installed at another position,
whatever its dependents relation to `pos`. -/
theorem SetCell_keeps_caches (E : Env) (s : Sheet) (pos : Position) (t : String) (q : Position)
    (c : Cell) (hq : q ≠ pos) (hc : Sheet.find s q = some c) :
    ∃ c', Sheet.find (Sheet.SetCell E s pos t).2 q = some c' ∧
      c'.cache_value_ = c.cache_value_ := by
  have key : ∀ (s1 : Sheet) (cand : Cell) (L : List Position),
      (∀ q, Sheet.find s1 q = (Sheet.find s q).map (unlink pos L q)) →
      ∃ c', Sheet.find (installCell s1 pos cand) q = some c' ∧
        c'.cache_value_ = c.cache_value_ := by
    intro s1 cand L hs1
    rw [find_installCell, if_neg (fun e => hq e.symm), hs1, hc]
    exact link_unlink_cache pos q _ L c
  rcases SetCell_cases E s pos t with h | h | h | ⟨_, cand, _, _, _, h⟩ |
    ⟨_, cand, old, o, s1, _, _, _, hr, ⟨_, h⟩ | ⟨_, h⟩⟩
  · rw [h]; exact ⟨c, hc, rfl⟩
  · rw [h]; exact ⟨c, hc, rfl⟩
  · rw [h]; exact ⟨c, hc, rfl⟩
  · rw [h]
    exact key s cand [] (fun q => by cases hq : Sheet.find s q <;> simp [unlink_nil])
  · rw [h]
    obtain ⟨l', _, _, hfind⟩ := RemoveOldLinks_find pos old.referenced_cells_ s
    rw [hr] at hfind
    exact key s1 _ l' hfind
  · rw [h]
    obtain ⟨l', _, _, hfind⟩ := RemoveOldLinks_find pos old.referenced_cells_ s
    rw [hr] at hfind
    refine ⟨unlink pos l' q c, by rw [hfind, hc]; rfl, (unlink_fields pos l' q c).2.2.1⟩

/-- The sheets that sequences of calls produce satisfy the invariants, as long as no call used
a null pointer. -/
theorem runOps_Inv (E : Env) (fuel : Nat) (ops : List Op) (o : Outcome) (s : Sheet)
    (h : runOps E fuel CreateSheet ops = some (o, s)) (ho : o ≠ Outcome.nullDereference) :
    Inv s :=
  (runOps_post E fuel ops CreateSheet o s Inv_CreateSheet h).2 ho

/-! ## C1 -/

/-- C1: for every sheet state in which no cell at an invalid position carries references (such
cells are never installed by the interface), every valid `pos` and every text `t` that builds
a candidate cell, `SetCell(pos, t)` throws `CircularDependencyException` if and only if `pos`
is reachable from one of the candidate's referenced positions by following the
`GetReferencedCells` lists of the installed cells zero or more times; a candidate that
references `pos` itself is rejected, and one without references is not. -/
theorem C1_SetCell_circular_iff_reachable (E : Env) (s : Sheet) (pos : Position) (t : String)
    (cand : Cell) (hs : InvalidLeaves s) (hpos : pos.IsValid = true)
    (hcand : Cell.create E t = some cand) :
    ((Sheet.SetCell E s pos t).1 = Outcome.circularDependency ↔
        ∃ q ∈ cand.GetReferencedCells, Relation.ReflTransGen (RefEdge s) q pos) ∧
      (pos ∈ cand.GetReferencedCells →
        (Sheet.SetCell E s pos t).1 = Outcome.circularDependency) ∧
      (cand.GetReferencedCells = [] →
        (Sheet.SetCell E s pos t).1 ≠ Outcome.circularDependency) := by
  have hrel : (fun a b => b ∈ succs s a) = RefEdge s := by
    funext a b
    exact propext (succs_iff_RefEdge s hs a b)
  have main : (Sheet.SetCell E s pos t).1 = Outcome.circularDependency ↔
      ∃ q ∈ cand.GetReferencedCells, Relation.ReflTransGen (RefEdge s) q pos := by
    rw [SetCell_circular_iff E s pos t cand hpos hcand, (CycleDependencyFound_spec s cand pos).2,
      hrel]
  refine ⟨main, fun hself => main.mpr ⟨pos, hself, Relation.ReflTransGen.refl⟩, fun hnil => ?_⟩
  intro hthrow
  obtain ⟨q, hq, _⟩ := main.mp hthrow
  rw [hnil] at hq
  simp at hq

/-- C1 at a concrete input: on the fresh sheet, `SetCell(A1, "=A1")` is rejected. -/
theorem C1_SetCell_circular_iff_reachable_witness :
    InvalidLeaves CreateSheet ∧ A1.IsValid = true ∧
      Cell.create sampleEnv "=A1" = some
        { impl_ := Impl.formula (Expr.cell A1), dependents_cells_ := [], referenced_cells_ := [],
          cache_value_ := none } ∧
      (Sheet.SetCell sampleEnv CreateSheet A1 "=A1").1 = Outcome.circularDependency :=
  ⟨InvalidLeaves_nil, by decide, by decide,
    (C1_SetCell_circular_iff_reachable sampleEnv CreateSheet A1 "=A1"
      { impl_ := Impl.formula (Expr.cell A1), dependents_cells_ := [], referenced_cells_ := [],
        cache_value_ := none } InvalidLeaves_nil (by decide) (by decide)).2.1 (by decide)⟩

/-! ## C2 -/

/-- C2: every sequence of `SetCell` and `ClearCell` calls (reads included, failed calls
included) on the sheet made by `CreateSheet` returns, and the graph with an edge `p → q`
whenever `q` is in the `referenced_cells_` of the cell installed at `p` has no directed cycle
in the sheet it leaves. -/
theorem C2_reference_graph_acyclic (E : Env) (ops : List Op) :
    (∃ N, ∀ fuel, N ≤ fuel → (runOps E fuel CreateSheet ops).isSome = true) ∧
      ∀ fuel o s, runOps E fuel CreateSheet ops = some (o, s) → Acyclic s :=
  ⟨runOps_isSome E ops CreateSheet Inv_CreateSheet,
    fun fuel o s h => (runOps_post E fuel ops CreateSheet o s Inv_CreateSheet h).1⟩

/-- C2 at a concrete input: the sheet after `SetCell(A2, "=A1")`, `ClearCell(A1)`,
`SetCell(A1, "5")` has no cycle of references. -/
theorem C2_reference_graph_acyclic_witness :
    ∃ o s, runOps sampleEnv 4 CreateSheet scenarioClearThenSet = some (o, s) ∧ Acyclic s := by
  have hsome : (runOps sampleEnv 4 CreateSheet scenarioClearThenSet).isSome = true := by decide
  obtain ⟨⟨o, s⟩, h⟩ := Option.isSome_iff_exists.mp hsome
  exact ⟨o, s, h, (C2_reference_graph_acyclic sampleEnv scenarioClearThenSet).2 4 o s h⟩

/-! ## C3 -/

/-- C3 (the code departs from it): in scenario S3 the second `SetCell(A1, "10")` succeeds, `A3`
is a dependent of `A1`, and the cached value `8` of `A3` is still there after the call, so
`GetValue(A3)` returns `8`, not `16`. -/
theorem C3_SetCell_leaves_dependents_cached :
    (runOps sampleEnv 4 CreateSheet scenarioS3).map (fun r =>
        (r.1, (Sheet.find r.2 A1).map (fun c => c.dependents_cells_),
          (Sheet.find r.2 A3).map (fun c => c.cache_value_))) =
        some (Outcome.ok, some [A3], some (some (Value.num 8))) ∧
      valueOf ((runOps sampleEnv 4 CreateSheet scenarioS3).bind
        (fun r => GetValue sampleEnv 4 r.2 A3)) = some (Value.num 8) := by
  decide!

/-! ## C4 -/

/-- C4: if `SetCell(pos, t)` throws `CircularDependencyException`, the sheet after the call is
the sheet before it: the same installed positions and, for every cell, the same text,
referenced set, dependents set and cached value. -/
theorem C4_SetCell_circular_unchanged (E : Env) (s : Sheet) (pos : Position) (t : String)
    (h : (Sheet.SetCell E s pos t).1 = Outcome.circularDependency) :
    (Sheet.SetCell E s pos t).2 = s := by
  unfold Sheet.SetCell at h ⊢
  cases hpos : pos.IsValid
  · simp [hpos] at h
  · simp only [hpos, Bool.not_true, Bool.false_eq_true, if_false] at h ⊢
    cases hc : Cell.create E t with
    | none => simp
    | some cand =>
      simp only [hc] at h ⊢
      cases hcd : Sheet.CycleDependencyFound s cand pos
      · simp only [hcd, Bool.false_eq_true, if_false] at h
        exfalso
        cases hf : Sheet.find s pos with
        | none => simp [hf] at h
        | some old =>
          simp only [hf] at h
          have ho := RemoveOldLinks_outcome pos old.referenced_cells_ s
          rcases hr : RemoveOldLinks pos s old.referenced_cells_ with ⟨o, s1⟩
          rw [hr] at ho h
          cases o <;> simp at ho h
      · simp

/-- C4 at a concrete input: the rejected `SetCell(A1, "=A1")` leaves the fresh sheet as it was. -/
theorem C4_SetCell_circular_unchanged_witness :
    (Sheet.SetCell sampleEnv CreateSheet A1 "=A1").1 = Outcome.circularDependency ∧
      (Sheet.SetCell sampleEnv CreateSheet A1 "=A1").2 = CreateSheet :=
  ⟨by decide, C4_SetCell_circular_unchanged sampleEnv CreateSheet A1 "=A1" (by decide)⟩

/-! ## C5 -/

/-- C5 (the code departs from it): after `SetCell(A2, "=A1")`, `ClearCell(A1)`,
`SetCell(A1, "5")`, all successful, the cell at `A2` has `A1` in its referenced set, a cell is
installed at `A1`, and its dependents set is empty. -/
theorem C5_dependents_lost_after_clear :
    (runOps sampleEnv 4 CreateSheet scenarioClearThenSet).map (fun r =>
        (r.1, (Sheet.find r.2 A2).map (fun c => c.referenced_cells_),
          (Sheet.find r.2 A1).map (fun c => c.dependents_cells_))) =
      some (Outcome.ok, some [A1], some []) := by
  decide

/-! ## C6 -/

/-- C6: every sequence of `SetCell` and `ClearCell` calls (reads included) on a fresh sheet
returns, and when no call of it used a null pointer, every entry `q` of the dependents set of
an installed cell at `p` names an installed cell whose referenced set contains `p`. -/
theorem C6_dependents_entries_sound (E : Env) (ops : List Op) :
    (∃ N, ∀ fuel, N ≤ fuel → (runOps E fuel CreateSheet ops).isSome = true) ∧
      ∀ fuel o s, runOps E fuel CreateSheet ops = some (o, s) →
        o ≠ Outcome.nullDereference → DepsSound s :=
  ⟨runOps_isSome E ops CreateSheet Inv_CreateSheet,
    fun fuel o s h ho => ((runOps_post E fuel ops CreateSheet o s Inv_CreateSheet h).2 ho).depsSound⟩

/-- C6 at a concrete input: the sheet after `SetCell(A1, "5")`, `SetCell(A2, "=A1")`,
`SetCell(A3, "=A2")`, `ClearCell(A3)`. -/
theorem C6_dependents_entries_sound_witness :
    ∃ s, runOps sampleEnv 4 CreateSheet
        [Op.SetCell A1 "5", Op.SetCell A2 "=A1", Op.SetCell A3 "=A2", Op.ClearCell A3] =
          some (Outcome.ok, s) ∧ DepsSound s := by
  have hsome : (runOps sampleEnv 4 CreateSheet
      [Op.SetCell A1 "5", Op.SetCell A2 "=A1", Op.SetCell A3 "=A2", Op.ClearCell A3]).isSome =
      true := by decide
  have hok : (runOps sampleEnv 4 CreateSheet
      [Op.SetCell A1 "5", Op.SetCell A2 "=A1", Op.SetCell A3 "=A2", Op.ClearCell A3]).map
      (fun r => r.1) = some Outcome.ok := by decide
  obtain ⟨⟨o, s⟩, h⟩ := Option.isSome_iff_exists.mp hsome
  rw [h] at hok
  simp only [Option.map_some', Option.some.injEq] at hok
  subst hok
  exact ⟨s, h, (C6_dependents_entries_sound sampleEnv _).2 4 Outcome.ok s h (by decide)⟩

/-! ## C7 -/

/-- C7 (the code departs from it): when `A2` references the cleared `A1` and `A3` has cached a
value of `A2`, `ClearCell(A2)` uses the null result of `GetCell(A1)` in `RemoveOldLinks`; the
cache of `A3` is not cleared and `A2` is not removed. In scenario S8, where the referenced cells
are installed, `ClearCell(A1)` clears the cache of `A2` and removes `A1`, and `GetValue(A2)`
goes from `5` to `0`. -/
theorem C7_ClearCell_null_before_invalidation :
    (runOps sampleEnv 4 CreateSheet scenarioClearAfterReferenceCleared).map (fun r =>
        (r.1, (Sheet.find r.2 A3).map (fun c => c.cache_value_), (Sheet.find r.2 A2).isSome)) =
        some (Outcome.nullDereference, some (some (Value.num 0)), true) ∧
      (runOps sampleEnv 4 CreateSheet scenarioS8.dropLast).map (fun r =>
        (r.1, (Sheet.find r.2 A2).map (fun c => c.cache_value_))) =
        some (Outcome.ok, some (some (Value.num 5))) ∧
      (runOps sampleEnv 4 CreateSheet scenarioS8).map (fun r =>
        (r.1, (Sheet.find r.2 A2).map (fun c => c.cache_value_), (Sheet.find r.2 A1).isSome)) =
        some (Outcome.ok, some none, false) ∧
      valueOf ((runOps sampleEnv 4 CreateSheet scenarioS8).bind
        (fun r => GetValue sampleEnv 4 r.2 A2)) = some (Value.num 0) := by
  decide!

/-! ## C8 -/

/-- C8 (the code departs from it): `DefineImplType("=")` is `FORMULA`, not `TEXT`, so
`SetCell(A1, "=")` hands the empty expression to the formula parser; with a parser that
rejects the empty expression the call throws `FormulaException` and installs nothing. -/
theorem C8_lone_formula_sign_is_formula :
    Impl.DefineImplType "=" = ImplType.FORMULA ∧
      substr1 "=" = "" ∧
      sampleEnv.ParseFormulaAST "" = none ∧
      Sheet.SetCell sampleEnv CreateSheet A1 "=" = (Outcome.formulaException, CreateSheet) := by
  decide

/-! ## C9 -/

/-- C9 as stated fails: `SetCell(A2, "=(A1)")` succeeds and `GetText` of the cell at `A2` is
`"=A1"`, the expression printed back without the extra brackets, not the text that was set. -/
theorem C9_formula_text_counterexample :
    (Sheet.SetCell sampleEnv CreateSheet A2 "=(A1)").1 = Outcome.ok ∧
      (Sheet.find (Sheet.SetCell sampleEnv CreateSheet A2 "=(A1)").2 A2).map
        (Cell.GetText sampleEnv) = some "=A1" ∧
      "=A1" ≠ "=(A1)" := by
  decide

/-- C9, amended: for every text `t` other than `"="`, if `SetCell(p, t)` succeeds then a cell is
installed at `p` and its `GetText` is `t` itself when `t` does not begin with `=` (the empty
text for `t == ""`), and `=` followed by the expression printed from the parsed formula when
`t` begins with `=`. -/
theorem C9_SetCell_GetText (E : Env) (s : Sheet) (p : Position) (t : String) (_hne : t ≠ "=")
    (hok : (Sheet.SetCell E s p t).1 = Outcome.ok) :
    ∃ c, Sheet.find (Sheet.SetCell E s p t).2 p = some c ∧
      (t.data.head? ≠ some FORMULA_SIGN → c.GetText E = t) ∧
      (t.data.head? = some FORMULA_SIGN → ∃ ast, E.ParseFormulaAST (substr1 t) = some ast ∧
        c.GetText E = String.mk [FORMULA_SIGN] ++ E.PrintFormula ast) := by
  have key : ∀ (s1 : Sheet) (cand : Cell) (deps : List Position),
      Cell.create E t = some cand →
      ∃ c, Sheet.find (installCell s1 p (cand.AddOldDependents deps)) p = some c ∧
        (t.data.head? ≠ some FORMULA_SIGN → c.GetText E = t) ∧
        (t.data.head? = some FORMULA_SIGN → ∃ ast, E.ParseFormulaAST (substr1 t) = some ast ∧
          c.GetText E = String.mk [FORMULA_SIGN] ++ E.PrintFormula ast) := by
    intro s1 cand deps hc
    refine ⟨_, find_installCell_self _ _ _, ?_, ?_⟩
    · intro h
      exact (Cell_create_impl E t cand hc).1 h
    · intro h
      obtain ⟨ast, hp, hi⟩ := (Cell_create_impl E t cand hc).2 h
      exact ⟨ast, hp, by simp [Cell.GetText, Cell.UpdateReferencedCells, Cell.AddOldDependents,
        hi, Impl.GetText]⟩
  rcases SetCell_cases E s p t with h | h | h | ⟨_, cand, hc, _, _, h⟩ |
    ⟨_, cand, old, o, s1, hc, _, _, _, ⟨_, h⟩ | ⟨ho, h⟩⟩
  · rw [h] at hok; simp at hok
  · rw [h] at hok; simp at hok
  · rw [h] at hok; simp at hok
  · rw [h]
    exact key s cand cand.dependents_cells_ hc
  · rw [h]
    exact key s1 cand _ hc
  · rw [h] at hok
    exact absurd hok ho

/-- C9, amended, at a concrete input: `SetCell(A1, "'=hello")` on the fresh sheet. -/
theorem C9_SetCell_GetText_witness :
    "'=hello" ≠ "=" ∧ (Sheet.SetCell sampleEnv CreateSheet A1 "'=hello").1 = Outcome.ok ∧
      ∃ c, Sheet.find (Sheet.SetCell sampleEnv CreateSheet A1 "'=hello").2 A1 = some c ∧
        c.GetText sampleEnv = "'=hello" := by
  obtain ⟨c, hc, h1, _⟩ :=
    C9_SetCell_GetText sampleEnv CreateSheet A1 "'=hello" (by decide) (by decide)
  exact ⟨by decide, by decide, c, hc, h1 (by decide)⟩

/-! ## C10 -/

/-- C10: for every sheet state, valid `pos` and text `t` that begins with `=` and whose
remainder the formula parser rejects, `SetCell(pos, t)` throws `FormulaException` and the
sheet after the call is the sheet before it. -/
theorem C10_SetCell_parse_failure_unchanged (E : Env) (s : Sheet) (pos : Position) (t : String)
    (hpos : pos.IsValid = true) (ht : t.data.head? = some FORMULA_SIGN)
    (hparse : E.ParseFormulaAST (substr1 t) = none) :
    Sheet.SetCell E s pos t = (Outcome.formulaException, s) := by
  have hcreate : Cell.create E t = none := by
    unfold Cell.create Cell.Set Impl.DefineImplType
    cases hd : t.data with
    | nil => simp [hd] at ht
    | cons c rest =>
      simp only [hd, List.head?_cons, Option.some.injEq] at ht
      simp [ht, hparse]
  unfold Sheet.SetCell
  simp [hpos, hcreate]

/-- C10 at a concrete input: `SetCell(A1, "=A1+")` on the fresh sheet. -/
theorem C10_SetCell_parse_failure_unchanged_witness :
    A1.IsValid = true ∧ "=A1+".data.head? = some FORMULA_SIGN ∧
      sampleEnv.ParseFormulaAST (substr1 "=A1+") = none ∧
      Sheet.SetCell sampleEnv CreateSheet A1 "=A1+" = (Outcome.formulaException, CreateSheet) :=
  ⟨by decide, by decide, by decide,
    C10_SetCell_parse_failure_unchanged sampleEnv CreateSheet A1 "=A1+" (by decide) (by decide)
      (by decide)⟩

/-! ## Lemmas: the order of `std::set<Position>` -/

theorem Position_lt_trans (a b c : Position) (h1 : a.lt b = true) (h2 : b.lt c = true) :
    a.lt c = true := by
  simp only [Position.lt, Bool.or_eq_true, decide_eq_true_eq, Bool.and_eq_true] at h1 h2 ⊢
  omega

theorem Position_lt_of_not (a b : Position) (hne : a ≠ b) (h : a.lt b = false) :
    b.lt a = true := by
  have hrc : a.row ≠ b.row ∨ a.col ≠ b.col := by
    by_contra hcon
    push_neg at hcon
    apply hne
    cases a
    cases b
    simp_all
  cases hlt : b.lt a
  · simp only [Position.lt, Bool.or_eq_false_iff, decide_eq_false_iff_not,
      Bool.and_eq_false_imp, decide_eq_true_eq] at h hlt
    omega
  · rfl

theorem setInsert_sorted (p : Position) (l : List Position)
    (h : l.Pairwise (fun a b => a.lt b = true)) :
    (setInsert p l).Pairwise (fun a b => a.lt b = true) := by
  induction l with
  | nil => simp [setInsert]
  | cons q qs ih =>
    rw [List.pairwise_cons] at h
    unfold setInsert
    by_cases h1 : p = q
    · simp only [h1, if_true]
      exact List.pairwise_cons.mpr h
    · simp only [h1, if_false]
      cases h2 : p.lt q
      · simp only [Bool.false_eq_true, if_false]
        refine List.pairwise_cons.mpr ⟨fun y hy => ?_, ih h.2⟩
        rcases (mem_setInsert y p qs).mp hy with hy | hy
        · rw [hy]
          exact Position_lt_of_not p q h1 h2
        · exact h.1 y hy
      · simp only [if_true]
        refine List.pairwise_cons.mpr ⟨fun y hy => ?_, List.pairwise_cons.mpr h⟩
        rcases List.mem_cons.mp hy with hy | hy
        · rw [hy]; exact h2
        · exact Position_lt_trans p q y h2 (h.1 y hy)

theorem setOfList_sorted (l : List Position) :
    (setOfList l).Pairwise (fun a b => a.lt b = true) := by
  induction l with
  | nil => simp [setOfList]
  | cons q qs ih =>
    have : setOfList (q :: qs) = setInsert q (setOfList qs) := rfl
    rw [this]
    exact setInsert_sorted q _ ih

/-! ## C12 -/

/-- C12: for every cell, `GetReferencedCells` is strictly increasing in the lexicographic
`(row, col)` order (sorted, no duplicates); for a Formula cell its elements are exactly the
positions the AST reports, whatever their order and multiplicity there; for a Text or Empty
cell it is empty. -/
theorem C12_GetReferencedCells_sorted_unique (c : Cell) :
    c.GetReferencedCells.Pairwise (fun a b => a.lt b = true) ∧
      c.GetReferencedCells.Nodup ∧
      (∀ ast, c.impl_ = Impl.formula ast →
        ∀ p, p ∈ c.GetReferencedCells ↔ p ∈ ast.GetCells) ∧
      (∀ value_, c.impl_ = Impl.text value_ → c.GetReferencedCells = []) ∧
      (c.impl_ = Impl.empty → c.GetReferencedCells = []) := by
  have hsorted : c.GetReferencedCells.Pairwise (fun a b => a.lt b = true) := by
    unfold Cell.GetReferencedCells
    cases c.impl_ with
    | empty => simp [Impl.GetReferencedCells]
    | text v => simp [Impl.GetReferencedCells]
    | formula ast => exact setOfList_sorted _
  refine ⟨hsorted, ?_, ?_, ?_, ?_⟩
  · refine List.Pairwise.imp ?_ hsorted
    intro a b hlt hab
    subst hab
    simp [Position.lt] at hlt
  · intro ast hast p
    simp [Cell.GetReferencedCells, hast, Impl.GetReferencedCells, Formula.GetReferencedCells,
      mem_setOfList]
  · intro v hv
    simp [Cell.GetReferencedCells, hv, Impl.GetReferencedCells]
  · intro hv
    simp [Cell.GetReferencedCells, hv, Impl.GetReferencedCells]

/-! ## C14 -/

/-- C14: after every successful `SetCell(pos, t)`, every position `q` in the referenced list
of the new cell at `pos` has a cell installed whose dependents set contains `pos`; when no
cell was installed at `q` before the call, the cell now at `q` is the Empty cell (no text, no
references, no cached value) whose dependents set is exactly `{pos}`. -/
theorem C14_SetCell_materializes_references (E : Env) (s : Sheet) (pos : Position) (t : String)
    (hok : (Sheet.SetCell E s pos t).1 = Outcome.ok) :
    ∃ c', Sheet.find (Sheet.SetCell E s pos t).2 pos = some c' ∧
      ∀ q, q ∈ c'.GetReferencedCells →
        (∃ cq, Sheet.find (Sheet.SetCell E s pos t).2 q = some cq ∧
          pos ∈ cq.dependents_cells_) ∧
        (Sheet.find s q = none →
          Sheet.find (Sheet.SetCell E s pos t).2 q =
            some { impl_ := Impl.empty, dependents_cells_ := [pos], referenced_cells_ := [],
                   cache_value_ := none }) := by
  have key : ∀ (s1 : Sheet) (cand : Cell) (D L : List Position),
      (∀ q, Sheet.find s1 q = (Sheet.find s q).map (unlink pos L q)) →
      Sheet.CycleDependencyFound s cand pos = false →
      ∃ c', Sheet.find (installCell s1 pos (cand.AddOldDependents D)) pos = some c' ∧
        ∀ q, q ∈ c'.GetReferencedCells →
          (∃ cq, Sheet.find (installCell s1 pos (cand.AddOldDependents D)) q = some cq ∧
            pos ∈ cq.dependents_cells_) ∧
          (Sheet.find s q = none →
            Sheet.find (installCell s1 pos (cand.AddOldDependents D)) q =
              some { impl_ := Impl.empty, dependents_cells_ := [pos], referenced_cells_ := [],
                     cache_value_ := none }) := by
    intro s1 cand D L hs1 hcd
    refine ⟨_, find_installCell_self _ _ _, fun q hq => ?_⟩
    have hq' : q ∈ cand.GetReferencedCells := hq
    have hne : ¬ pos = q := by
      intro e
      have := (CycleDependencyFound_spec s cand pos).2.mpr
        ⟨q, hq', e ▸ Relation.ReflTransGen.refl⟩
      rw [hcd] at this
      simp at this
    have hfind : Sheet.find (installCell s1 pos (cand.AddOldDependents D)) q =
        some (((Sheet.find s1 q).getD Cell.new).AddDependency pos) := by
      rw [find_installCell, if_neg hne]
      have : q ∈ (cand.AddOldDependents D).GetReferencedCells := hq'
      simp [link, this]
    refine ⟨⟨_, hfind, ?_⟩, fun hnone => ?_⟩
    · simp [Cell.AddDependency, mem_setInsert]
    · rw [hfind, hs1, hnone]
      rfl
  rcases SetCell_cases E s pos t with h | h | h | ⟨_, cand, _, hcd, _, h⟩ |
    ⟨_, cand, old, o, s1, _, hcd, _, hr, ⟨ho, h⟩ | ⟨ho, h⟩⟩
  · rw [h] at hok; simp at hok
  · rw [h] at hok; simp at hok
  · rw [h] at hok; simp at hok
  · rw [h]
    exact key s cand cand.dependents_cells_ []
      (fun q => by cases hq : Sheet.find s q <;> simp [unlink_nil]) hcd
  · rw [h]
    obtain ⟨l', _, _, hfind⟩ := RemoveOldLinks_find pos old.referenced_cells_ s
    rw [hr] at hfind
    exact key s1 cand _ l' hfind hcd
  · rw [h] at hok
    exact absurd hok ho

/-- C14 at a concrete input: `SetCell(A2, "=A1")` on the fresh sheet installs the placeholder
`A1` with dependents `{A2}`. -/
theorem C14_SetCell_materializes_references_witness :
    (Sheet.SetCell sampleEnv CreateSheet A2 "=A1").1 = Outcome.ok ∧
      ∃ c', Sheet.find (Sheet.SetCell sampleEnv CreateSheet A2 "=A1").2 A2 = some c' ∧
        A1 ∈ c'.GetReferencedCells ∧
        Sheet.find (Sheet.SetCell sampleEnv CreateSheet A2 "=A1").2 A1 =
          some { impl_ := Impl.empty, dependents_cells_ := [A2], referenced_cells_ := [],
                 cache_value_ := none } := by
  obtain ⟨c', hc', h⟩ :=
    C14_SetCell_materializes_references sampleEnv CreateSheet A2 "=A1" (by decide)
  have hmem : A1 ∈ c'.GetReferencedCells := by
    have h2 : Sheet.find (Sheet.SetCell sampleEnv CreateSheet A2 "=A1").2 A2 =
        some { impl_ := Impl.formula (Expr.cell A1), dependents_cells_ := [],
               referenced_cells_ := [A1], cache_value_ := none } := by decide
    rw [h2] at hc'
    simp only [Option.some.injEq] at hc'
    rw [← hc']
    decide
  exact ⟨by decide, c', hc', hmem, (h A1 hmem).2 (by decide)⟩

/-! ## C16 -/

theorem IsValid_iff (p : Position) :
    p.IsValid = true ↔ 0 ≤ p.row ∧ p.row < 16384 ∧ 0 ≤ p.col ∧ p.col < 16384 := by
  simp [Position.IsValid, and_assoc]

theorem find_isSome_iff (s : Sheet) (p : Position) :
    (Sheet.find s p).isSome = true ↔ ∃ e ∈ s, e.1 = p := by
  induction s with
  | nil => simp [Sheet.find]
  | cons e rest ih =>
    obtain ⟨k, c⟩ := e
    by_cases hk : k = p
    · simp [Sheet.find, hk]
    · simp [Sheet.find, hk, ih]

theorem foldl_max_spec (s : Sheet) :
    ∀ (m : Int × Int),
      let r := s.foldl
        (fun (m : Int × Int) e =>
          (if m.1 ≥ e.1.row then m.1 else e.1.row, if m.2 ≥ e.1.col then m.2 else e.1.col)) m
      (m.1 ≤ r.1 ∧ (∀ e ∈ s, e.1.row ≤ r.1) ∧ (r.1 = m.1 ∨ ∃ e ∈ s, r.1 = e.1.row)) ∧
      (m.2 ≤ r.2 ∧ (∀ e ∈ s, e.1.col ≤ r.2) ∧ (r.2 = m.2 ∨ ∃ e ∈ s, r.2 = e.1.col)) := by
  induction s with
  | nil => intro m; simp
  | cons e rest ih =>
    intro m
    simp only [List.foldl_cons]
    have ha : m.1 ≤ (if m.1 ≥ e.1.row then m.1 else e.1.row) ∧
        e.1.row ≤ (if m.1 ≥ e.1.row then m.1 else e.1.row) ∧
        ((if m.1 ≥ e.1.row then m.1 else e.1.row) = m.1 ∨
          (if m.1 ≥ e.1.row then m.1 else e.1.row) = e.1.row) := by
      split_ifs <;> omega
    have hb : m.2 ≤ (if m.2 ≥ e.1.col then m.2 else e.1.col) ∧
        e.1.col ≤ (if m.2 ≥ e.1.col then m.2 else e.1.col) ∧
        ((if m.2 ≥ e.1.col then m.2 else e.1.col) = m.2 ∨
          (if m.2 ≥ e.1.col then m.2 else e.1.col) = e.1.col) := by
      split_ifs <;> omega
    generalize (if m.1 ≥ e.1.row then m.1 else e.1.row) = a' at ha ⊢
    generalize (if m.2 ≥ e.1.col then m.2 else e.1.col) = b' at hb ⊢
    obtain ⟨⟨h1, h2, h3⟩, ⟨g1, g2, g3⟩⟩ := ih (a', b')
    simp only at h1 h2 h3 g1 g2 g3 ⊢
    refine ⟨⟨by omega, ?_, ?_⟩, ⟨by omega, ?_, ?_⟩⟩
    · intro e' he'
      rcases List.mem_cons.mp he' with he' | he'
      · subst he'
        omega
      · exact h2 e' he'
    · rcases h3 with h3 | ⟨e', he', h3⟩
      · rcases ha.2.2 with h4 | h4
        · exact Or.inl (h3.trans h4)
        · exact Or.inr ⟨e, List.mem_cons_self _ _, h3.trans h4⟩
      · exact Or.inr ⟨e', List.mem_cons_of_mem _ he', h3⟩
    · intro e' he'
      rcases List.mem_cons.mp he' with he' | he'
      · subst he'
        omega
      · exact g2 e' he'
    · rcases g3 with g3 | ⟨e', he', g3⟩
      · rcases hb.2.2 with g4 | g4
        · exact Or.inl (g3.trans g4)
        · exact Or.inr ⟨e, List.mem_cons_self _ _, g3.trans g4⟩
      · exact Or.inr ⟨e', List.mem_cons_of_mem _ he', g3⟩

/-- C16: for every sheet whose installed positions are all valid, `GetPrintableSize` is `(0, 0)`
when no cell is installed, and otherwise `(max_row + 1, max_col + 1)` over all installed cells,
Empty placeholders included: it covers every installed position, each component is attained by
an installed position plus one, and no smaller size covers them all. -/
theorem C16_GetPrintableSize_bounding (s : Sheet)
    (hvalid : ∀ p, (Sheet.find s p).isSome = true → p.IsValid = true) :
    ((∀ p, Sheet.find s p = none) → Sheet.GetPrintableSize s = { rows := 0, cols := 0 }) ∧
      ((∃ p, (Sheet.find s p).isSome = true) →
        (∀ p, (Sheet.find s p).isSome = true →
          p.row < (Sheet.GetPrintableSize s).rows ∧ p.col < (Sheet.GetPrintableSize s).cols) ∧
        (∃ p, (Sheet.find s p).isSome = true ∧ (Sheet.GetPrintableSize s).rows = p.row + 1) ∧
        (∃ p, (Sheet.find s p).isSome = true ∧ (Sheet.GetPrintableSize s).cols = p.col + 1) ∧
        (∀ sz : Size,
          (∀ p, (Sheet.find s p).isSome = true → p.row < sz.rows ∧ p.col < sz.cols) →
          (Sheet.GetPrintableSize s).rows ≤ sz.rows ∧
            (Sheet.GetPrintableSize s).cols ≤ sz.cols)) := by
  have hkey : ∀ e ∈ s, (Sheet.find s e.1).isSome = true :=
    fun e he => (find_isSome_iff s e.1).mpr ⟨e, he, rfl⟩
  constructor
  · intro hnone
    cases s with
    | nil => rfl
    | cons e rest =>
      have := hkey e (List.mem_cons_self _ _)
      rw [hnone e.1] at this
      simp at this
  · rintro ⟨p0, hp0⟩
    cases s with
    | nil => simp [Sheet.find] at hp0
    | cons e0 rest =>
      obtain ⟨⟨_, h2, h3⟩, ⟨_, g2, g3⟩⟩ := foldl_max_spec (e0 :: rest) (0, 0)
      simp only at h2 h3 g2 g3
      have hsize : Sheet.GetPrintableSize (e0 :: rest) =
          { rows := ((e0 :: rest).foldl
              (fun (m : Int × Int) e =>
                (if m.1 ≥ e.1.row then m.1 else e.1.row,
                  if m.2 ≥ e.1.col then m.2 else e.1.col)) (0, 0)).1 + 1,
            cols := ((e0 :: rest).foldl
              (fun (m : Int × Int) e =>
                (if m.1 ≥ e.1.row then m.1 else e.1.row,
                  if m.2 ≥ e.1.col then m.2 else e.1.col)) (0, 0)).2 + 1 } := rfl
      rw [hsize]
      generalize ((e0 :: rest).foldl
        (fun (m : Int × Int) e =>
          (if m.1 ≥ e.1.row then m.1 else e.1.row,
            if m.2 ≥ e.1.col then m.2 else e.1.col)) (0, 0)) = r at h2 h3 g2 g3
      simp only
      have hmemvalid : ∀ e ∈ e0 :: rest, 0 ≤ e.1.row ∧ 0 ≤ e.1.col := by
        intro e he
        have := (IsValid_iff e.1).mp (hvalid e.1 (hkey e he))
        omega
      have hrow : ∃ e ∈ e0 :: rest, r.1 = e.1.row := by
        rcases h3 with h3 | h3
        · refine ⟨e0, List.mem_cons_self _ _, ?_⟩
          have a := h2 e0 (List.mem_cons_self _ _)
          have b := (hmemvalid e0 (List.mem_cons_self _ _)).1
          omega
        · exact h3
      have hcol : ∃ e ∈ e0 :: rest, r.2 = e.1.col := by
        rcases g3 with g3 | g3
        · refine ⟨e0, List.mem_cons_self _ _, ?_⟩
          have a := g2 e0 (List.mem_cons_self _ _)
          have b := (hmemvalid e0 (List.mem_cons_self _ _)).2
          omega
        · exact g3
      refine ⟨fun p hp => ?_, ?_, ?_, fun sz hsz => ?_⟩
      · obtain ⟨e, he, hep⟩ := (find_isSome_iff _ p).mp hp
        have a := h2 e he
        have b := g2 e he
        rw [hep] at a b
        omega
      · obtain ⟨e, he, hr⟩ := hrow
        exact ⟨e.1, hkey e he, by omega⟩
      · obtain ⟨e, he, hc⟩ := hcol
        exact ⟨e.1, hkey e he, by omega⟩
      · obtain ⟨e, he, hr⟩ := hrow
        obtain ⟨e', he', hc⟩ := hcol
        have a := (hsz e.1 (hkey e he)).1
        have b := (hsz e'.1 (hkey e' he')).2
        omega

/-- C16 at a concrete input: after `SetCell(A2, "=A3")` on the fresh sheet the cells `A2` and the
placeholder `A3` are installed and the printable size is `(3, 1)`. -/
theorem C16_GetPrintableSize_bounding_witness :
    (∀ p, (Sheet.find (Sheet.SetCell sampleEnv CreateSheet A2 "=A3").2 p).isSome = true →
        p.IsValid = true) ∧
      Sheet.GetPrintableSize (Sheet.SetCell sampleEnv CreateSheet A2 "=A3").2 =
        { rows := 3, cols := 1 } ∧
      ∀ sz : Size,
        (∀ p, (Sheet.find (Sheet.SetCell sampleEnv CreateSheet A2 "=A3").2 p).isSome = true →
          p.row < sz.rows ∧ p.col < sz.cols) →
        (Sheet.GetPrintableSize (Sheet.SetCell sampleEnv CreateSheet A2 "=A3").2).rows ≤ sz.rows ∧
          (Sheet.GetPrintableSize (Sheet.SetCell sampleEnv CreateSheet A2 "=A3").2).cols ≤
            sz.cols := by
  have hstate : (Sheet.SetCell sampleEnv CreateSheet A2 "=A3").2 =
      [(A2, { impl_ := Impl.formula (Expr.cell A3), dependents_cells_ := [],
              referenced_cells_ := [A3], cache_value_ := none }),
       (A3, { impl_ := Impl.empty, dependents_cells_ := [A2], referenced_cells_ := [],
              cache_value_ := none })] := by decide
  have hvalid : ∀ p, (Sheet.find (Sheet.SetCell sampleEnv CreateSheet A2 "=A3").2 p).isSome = true →
      p.IsValid = true := by
    intro p hp
    rw [hstate] at hp
    obtain ⟨e, he, hep⟩ := (find_isSome_iff _ p).mp hp
    simp only [List.mem_cons, List.mem_singleton, List.not_mem_nil, or_false] at he
    rcases he with he | he <;> (subst he; subst hep; decide)
  exact ⟨hvalid, by decide,
    ((C16_GetPrintableSize_bounding _ hvalid).2 ⟨A2, by decide⟩).2.2.2⟩

/-! ## C17 -/

/-- C17 (the code departs from it): `GetPrintableSize` counts every installed cell, whatever
its text. After `SetCell(A3, "")` on the fresh sheet the only cell has empty text and the size
is `(3, 1)`, not `(0, 0)`; after `SetCell(A1, "=A3")` the only cell with non-empty text is `A1`
and the size is `(3, 1)`, not `(1, 1)`, because of the Empty placeholder at `A3`. -/
theorem C17_GetPrintableSize_counts_empty_cells :
    (Sheet.SetCell sampleEnv CreateSheet A3 "").1 = Outcome.ok ∧
      (Sheet.SetCell sampleEnv CreateSheet A3 "").2.map
        (fun e => (e.1, e.2.GetText sampleEnv)) = [(A3, "")] ∧
      Sheet.GetPrintableSize (Sheet.SetCell sampleEnv CreateSheet A3 "").2 =
        { rows := 3, cols := 1 } ∧
      (Sheet.SetCell sampleEnv CreateSheet A1 "=A3").1 = Outcome.ok ∧
      (Sheet.SetCell sampleEnv CreateSheet A1 "=A3").2.map
        (fun e => (e.1, e.2.GetText sampleEnv)) = [(A1, "=A3"), (A3, "")] ∧
      Sheet.GetPrintableSize (Sheet.SetCell sampleEnv CreateSheet A1 "=A3").2 =
        { rows := 3, cols := 1 } := by
  decide

/-! ## C18 -/

/-- C18 (the code departs from it): in scenario S4 the rejected `SetCell(A3, "=A1")` leaves the
sheet with the Empty placeholder that `SetCell(A2, "=A3")` installed at `A3`, and `GetCell(A3)`
returns that cell, not `nullptr`; after `SetCell(A1, "")` on the fresh sheet `GetCell(A1)`
returns an Empty cell, not `nullptr`. -/
theorem C18_GetCell_returns_empty_cells :
    (runOps sampleEnv 4 CreateSheet scenarioS4).map (fun r => (r.1, Sheet.GetCell r.2 A3)) =
        some (Outcome.circularDependency,
          some (some { impl_ := Impl.empty, dependents_cells_ := [A2], referenced_cells_ := [],
                       cache_value_ := none })) ∧
      Sheet.GetCell (Sheet.SetCell sampleEnv CreateSheet A1 "").2 A1 =
        some (some { impl_ := Impl.empty, dependents_cells_ := [], referenced_cells_ := [],
                     cache_value_ := none }) := by
  decide

/-! ## C19 -/

/-- C19: for every non-empty text that does not begin with `=`, the cell built from it is a
Text cell whose `GetText` is the text unchanged and whose `GetValue` is the text without its
first character when it begins with an apostrophe and the text itself otherwise. -/
theorem C19_text_cell_text_and_value (E : Env) (text : String) (hne : text ≠ "")
    (hf : text.data.head? ≠ some FORMULA_SIGN) :
    ∃ c, Cell.create E text = some c ∧ c.impl_ = Impl.text text ∧ c.GetText E = text ∧
      ∀ (s : Sheet) (p : Position) (n : Nat), Sheet.find s p = some c →
        valueOf (GetValue E (n + 1) s p) =
          some (if text.data.head? = some ESCAPE_SIGN then Value.str (substr1 text)
            else Value.str text) := by
  cases hd : text.data with
  | nil =>
    exfalso
    apply hne
    cases text
    simp_all
  | cons c0 rest =>
    have hc0 : c0 ≠ FORMULA_SIGN := by
      intro e
      rw [hd, e] at hf
      simp at hf
    refine ⟨{ impl_ := Impl.text text, dependents_cells_ := [], referenced_cells_ := [],
              cache_value_ := none }, ?_, rfl, rfl, ?_⟩
    · simp [Cell.create, Cell.Set, Impl.DefineImplType, hd, hc0, Cell.new]
    · intro s p n hfind
      rw [GetValue]
      simp only [hfind, valueOf, Option.bind_some, Except.toOption, Option.some.injEq,
        List.head?_cons]
      unfold TextImpl.GetValue substr1
      rw [hd]
      by_cases hesc : c0 = ESCAPE_SIGN
      · simp [hesc]
      · simp [hesc]

/-- C19 at a concrete input (scenario S1): the text `'=hello` has `GetText` `'=hello` and
`GetValue` `=hello`. -/
theorem C19_text_cell_text_and_value_witness :
    "'=hello" ≠ "" ∧ "'=hello".data.head? ≠ some FORMULA_SIGN ∧
      ∃ c, Cell.create sampleEnv "'=hello" = some c ∧ c.GetText sampleEnv = "'=hello" ∧
        valueOf (GetValue sampleEnv 1 [(A1, c)] A1) = some (Value.str "=hello") := by
  obtain ⟨c, hc, _, ht, hv⟩ :=
    C19_text_cell_text_and_value sampleEnv "'=hello" (by decide) (by decide)
  refine ⟨by decide, by decide, c, hc, ht, ?_⟩
  rw [hv [(A1, c)] A1 0 (by simp [Sheet.find])]
  decide

/-! ## Lemmas: cached values stay coherent with the cells' contents -/

theorem forEachDependent_Cleared (rec : Sheet → List Position → Option (Outcome × Sheet))
    (hrec : ∀ s l o s1, rec s l = some (o, s1) → Cleared s s1) :
    ∀ (l : List Position) (s : Sheet) (o : Outcome) (s1 : Sheet),
      forEachDependent rec s l = some (o, s1) → Cleared s s1 := by
  intro l
  induction l with
  | nil =>
    intro s o s1 h
    simp only [forEachDependent, Option.some.injEq, Prod.mk.injEq] at h
    exact h.2 ▸ Cleared_refl _
  | cons d rest ih =>
    intro s o s1 h
    unfold forEachDependent at h
    cases hg : Sheet.GetCell s d with
    | none =>
      simp only [hg, Option.some.injEq, Prod.mk.injEq] at h
      exact h.2 ▸ Cleared_refl _
    | some oc =>
      cases oc with
      | none =>
        simp only [hg, Option.some.injEq, Prod.mk.injEq] at h
        exact h.2 ▸ Cleared_refl _
      | some c =>
        simp only [hg] at h
        have hm := Cleared_modify s d
        cases hr : rec (Sheet.modify s d (fun c => { c with cache_value_ := none }))
            c.dependents_cells_ with
        | none => simp [hr] at h
        | some r =>
          obtain ⟨o1, s2⟩ := r
          have hc1 := hrec _ _ _ _ hr
          rw [hr] at h
          by_cases hok : o1 = Outcome.ok
          · subst hok
            simp only at h
            exact Cleared_trans (Cleared_trans hm hc1) (ih _ _ _ h)
          · have h' : some (o1, s2) = some (o, s1) := by
              cases o1 <;> simp_all
            simp only [Option.some.injEq, Prod.mk.injEq] at h'
            exact h'.2 ▸ Cleared_trans hm hc1

theorem ResetCacheDependentsCells_Cleared :
    ∀ (fuel : Nat) (s : Sheet) (l : List Position) (o : Outcome) (s1 : Sheet),
      ResetCacheDependentsCells fuel s l = some (o, s1) → Cleared s s1 := by
  intro fuel
  induction fuel with
  | zero =>
    intro s l o s1 h
    cases l with
    | nil =>
      simp only [ResetCacheDependentsCells, Option.some.injEq, Prod.mk.injEq] at h
      exact h.2 ▸ Cleared_refl _
    | cons d ds => simp [ResetCacheDependentsCells] at h
  | succ n ih =>
    intro s l o s1 h
    cases l with
    | nil =>
      simp only [ResetCacheDependentsCells, Option.some.injEq, Prod.mk.injEq] at h
      exact h.2 ▸ Cleared_refl _
    | cons d ds =>
      simp only [ResetCacheDependentsCells] at h
      exact forEachDependent_Cleared _ ih _ _ _ _ h

theorem CacheCoherent_of_Cleared {s s1 : Sheet} (h : Cleared s s1) (hcoh : CacheCoherent s) :
    CacheCoherent s1 := by
  intro p c1 v hc1 hv
  obtain ⟨c, hc, hi, _⟩ := h.1.shrinks.find_some hc1
  rcases h.2 p c c1 hc hc1 with h0 | h0
  · rw [h0] at hv; simp at hv
  · rw [hi]
    exact hcoh p c v hc (h0 ▸ hv)

/-- A sheet whose cells are cells of `s` with the same content and cache, or cells without a
cached value, has coherent caches when `s` has. -/
theorem CacheCoherent_of_same (s s1 : Sheet) (hcoh : CacheCoherent s)
    (h : ∀ p c1, Sheet.find s1 p = some c1 → c1.cache_value_ = none ∨
      ∃ c, Sheet.find s p = some c ∧ c1.impl_ = c.impl_ ∧ c1.cache_value_ = c.cache_value_) :
    CacheCoherent s1 := by
  intro p c1 v hc1 hv
  rcases h p c1 hc1 with h0 | ⟨c, hc, hi, hcache⟩
  · rw [h0] at hv; simp at hv
  · rw [hi]
    exact hcoh p c v hc (hcache ▸ hv)

theorem CacheCoherent_of_unlink (s s1 : Sheet) (pos : Position) (l : List Position)
    (hcoh : CacheCoherent s)
    (h : ∀ q, Sheet.find s1 q = (Sheet.find s q).map (unlink pos l q)) : CacheCoherent s1 := by
  refine CacheCoherent_of_same s s1 hcoh (fun p c1 hc1 => Or.inr ?_)
  rw [h] at hc1
  cases hc : Sheet.find s p with
  | none => rw [hc] at hc1; simp at hc1
  | some c =>
    rw [hc] at hc1
    simp only [Option.map_some', Option.some.injEq] at hc1
    subst hc1
    obtain ⟨h1, _, h3, _⟩ := unlink_fields pos l p c
    exact ⟨c, rfl, h1, h3⟩

theorem link_unlink_content (pos q : Position) (R L : List Position) (oc : Option Cell)
    (c' : Cell) (h : link pos R q (oc.map (unlink pos L q)) = some c') :
    c'.cache_value_ = none ∨
      ∃ c, oc = some c ∧ c'.impl_ = c.impl_ ∧ c'.cache_value_ = c.cache_value_ := by
  cases oc with
  | none =>
    left
    unfold link at h
    by_cases hq : q ∈ R
    · simp only [hq, if_true, Option.map_none', Option.getD_none, Option.some.injEq] at h
      subst h
      rfl
    · simp [hq] at h
  | some c =>
    right
    obtain ⟨h1, _, h3, _⟩ := unlink_fields pos L q c
    refine ⟨c, rfl, ?_⟩
    unfold link at h
    by_cases hq : q ∈ R
    · simp only [hq, if_true, Option.map_some', Option.getD_some, Option.some.injEq] at h
      subst h
      exact ⟨h1, h3⟩
    · simp only [hq, if_false, Option.map_some', Option.some.injEq] at h
      subst h
      exact ⟨h1, h3⟩

theorem Cell_create_cache (E : Env) (t : String) (cand : Cell)
    (h : Cell.create E t = some cand) : cand.cache_value_ = none := by
  unfold Cell.create Cell.Set at h
  split at h
  · split at h
    · simp at h
    · simp only [Option.some.injEq] at h
      subst h
      rfl
  · simp only [Option.some.injEq] at h
    subst h
    rfl
  · simp only [Option.some.injEq] at h
    subst h
    rfl

theorem SetCell_CacheCoherent (E : Env) (s : Sheet) (pos : Position) (t : String)
    (hcoh : CacheCoherent s) : CacheCoherent (Sheet.SetCell E s pos t).2 := by
  have key : ∀ (s1 : Sheet) (cand : Cell) (D L : List Position),
      Cell.create E t = some cand →
      (∀ q, Sheet.find s1 q = (Sheet.find s q).map (unlink pos L q)) →
      CacheCoherent (installCell s1 pos (cand.AddOldDependents D)) := by
    intro s1 cand D L hc hs1
    refine CacheCoherent_of_same s _ hcoh (fun p c1 hc1 => ?_)
    rw [find_installCell] at hc1
    by_cases hp : pos = p
    · simp only [hp, if_true, Option.some.injEq] at hc1
      subst hc1
      exact Or.inl (Cell_create_cache E t cand hc)
    · rw [if_neg hp, hs1] at hc1
      rcases link_unlink_content pos p _ L _ c1 hc1 with h0 | h0
      · exact Or.inl h0
      · exact Or.inr h0
  rcases SetCell_cases E s pos t with h | h | h | ⟨_, cand, hc, _, _, h⟩ |
    ⟨_, cand, old, o, s1, hc, _, _, hr, ⟨_, h⟩ | ⟨_, h⟩⟩
  · rw [h]; exact hcoh
  · rw [h]; exact hcoh
  · rw [h]; exact hcoh
  · rw [h]
    exact key s cand cand.dependents_cells_ [] hc
      (fun q => by cases hq : Sheet.find s q <;> simp [unlink_nil])
  · rw [h]
    obtain ⟨l', _, _, hfind⟩ := RemoveOldLinks_find pos old.referenced_cells_ s
    rw [hr] at hfind
    exact key s1 cand _ l' hc hfind
  · rw [h]
    obtain ⟨l', _, _, hfind⟩ := RemoveOldLinks_find pos old.referenced_cells_ s
    rw [hr] at hfind
    exact CacheCoherent_of_unlink s s1 pos l' hcoh hfind

theorem ClearCell_CacheCoherent (E : Env) (fuel : Nat) (s : Sheet) (pos : Position)
    (o : Outcome) (s' : Sheet) (hcoh : CacheCoherent s)
    (h : Sheet.ClearCell E fuel s pos = some (o, s')) : CacheCoherent s' := by
  unfold Sheet.ClearCell at h
  cases hpos : pos.IsValid
  · simp only [hpos, Bool.not_false, if_true, Option.some.injEq, Prod.mk.injEq] at h
    exact h.2 ▸ hcoh
  · simp only [hpos, Bool.not_true, Bool.false_eq_true, if_false] at h
    cases hf : Sheet.find s pos with
    | none =>
      simp only [hf, Option.some.injEq, Prod.mk.injEq] at h
      exact h.2 ▸ hcoh
    | some cell =>
      simp only [hf] at h
      obtain ⟨l', _, _, hfind⟩ := RemoveOldLinks_find pos cell.referenced_cells_ s
      rcases hr : RemoveOldLinks pos s cell.referenced_cells_ with ⟨o1, s1⟩
      rw [hr] at hfind h
      simp only at hfind
      have hcoh1 : CacheCoherent s1 := CacheCoherent_of_unlink s s1 pos l' hcoh hfind
      by_cases ho1 : o1 = Outcome.ok
      · subst ho1
        simp only [Cell_Set_empty] at h
        generalize (Sheet.find s1 pos).getD cell = c0 at h
        have hcoh2 : CacheCoherent (Sheet.modify s1 pos
            (fun _ => { c0 with impl_ := Impl.empty, cache_value_ := none })) := by
          refine CacheCoherent_of_same s1 _ hcoh1 (fun p c2 hc2 => ?_)
          rw [find_modify] at hc2
          by_cases hp : p = pos
          · simp only [hp, if_true] at hc2
            cases hs1p : Sheet.find s1 pos with
            | none => rw [hs1p] at hc2; simp at hc2
            | some c =>
              rw [hs1p] at hc2
              simp only [Option.map_some', Option.some.injEq] at hc2
              subst hc2
              exact Or.inl rfl
          · simp only [hp, if_false] at hc2
            exact Or.inr ⟨c2, hc2, rfl, rfl⟩
        cases hreset : ResetCacheDependentsCells fuel (Sheet.modify s1 pos
            (fun _ => { c0 with impl_ := Impl.empty, cache_value_ := none }))
            c0.dependents_cells_ with
        | none => simp [hreset] at h
        | some r =>
          obtain ⟨o_r, s3⟩ := r
          have hcoh3 : CacheCoherent s3 :=
            CacheCoherent_of_Cleared (ResetCacheDependentsCells_Cleared _ _ _ _ _ hreset) hcoh2
          rw [hreset] at h
          by_cases hor : o_r = Outcome.ok
          · subst hor
            simp only [Option.some.injEq, Prod.mk.injEq] at h
            rw [← h.2]
            refine CacheCoherent_of_same s3 _ hcoh3 (fun p c' hc' => ?_)
            rw [find_erase] at hc'
            by_cases hp : p = pos
            · simp [hp] at hc'
            · rw [if_neg hp, find_modify, if_neg hp] at hc'
              exact Or.inr ⟨c', hc', rfl, rfl⟩
          · have h' : some (o_r, s3) = some (o, s') := by
              cases o_r <;> simp_all
            simp only [Option.some.injEq, Prod.mk.injEq] at h'
            exact h'.2 ▸ hcoh3
      · have h' : some (o1, s1) = some (o, s') := by
          cases o1 <;> simp_all
        simp only [Option.some.injEq, Prod.mk.injEq] at h'
        exact h'.2 ▸ hcoh1

theorem Execute_preserves (Q : Sheet → Prop)
    (lookup : Sheet → Position → Option (Except Thrown Double × Sheet))
    (hl : ∀ s p r s1, lookup s p = some (r, s1) → Q s → Q s1) :
    ∀ (e : Expr) (s : Sheet) (r : Except Thrown Double) (s1 : Sheet),
      Expr.Execute lookup e s = some (r, s1) → Q s → Q s1 := by
  intro e
  induction e with
  | num d =>
    intro s r s1 h hq
    simp only [Expr.Execute, Option.some.injEq, Prod.mk.injEq] at h
    exact h.2 ▸ hq
  | cell p =>
    intro s r s1 h hq
    exact hl s p r s1 h hq
  | neg e ih =>
    intro s r s1 h hq
    simp only [Expr.Execute] at h
    split at h
    · next d s2 heq =>
      simp only [Option.some.injEq, Prod.mk.injEq] at h
      exact h.2 ▸ ih _ _ _ heq hq
    · exact ih _ _ _ h hq
  | bin op l r ihl ihr =>
    intro s res s1 h hq
    simp only [Expr.Execute] at h
    split at h
    · next a s2 heq =>
      have h1 := ihl _ _ _ heq hq
      split at h
      · next b s3 heq2 =>
        have h2 := ihr _ _ _ heq2 h1
        have h3 : s3 = s1 := by
          cases op
          · simp only [Option.some.injEq, Prod.mk.injEq] at h; exact h.2
          · simp only [Option.some.injEq, Prod.mk.injEq] at h; exact h.2
          · simp only [Option.some.injEq, Prod.mk.injEq] at h; exact h.2
          · simp only at h
            split at h <;>
            · simp only [Option.some.injEq, Prod.mk.injEq] at h; exact h.2
        exact h3 ▸ h2
      · exact ihr _ _ _ h h1
    · exact ihl _ _ _ h hq

theorem interpret_function_preserves (Q : Sheet → Prop) (E : Env)
    (getValue : Sheet → Position → Option (Except Thrown Value × Sheet))
    (hg : ∀ s p r s1, getValue s p = some (r, s1) → Q s → Q s1) :
    ∀ s p r s1, interpret_function E getValue s p = some (r, s1) → Q s → Q s1 := by
  intro s p r s1 h hq
  unfold interpret_function at h
  split at h
  · simp only [Option.some.injEq, Prod.mk.injEq] at h
    exact h.2 ▸ hq
  · simp only [Option.some.injEq, Prod.mk.injEq] at h
    exact h.2 ▸ hq
  · split at h
    · simp at h
    · next heq =>
      simp only [Option.some.injEq, Prod.mk.injEq] at h
      exact h.2 ▸ hg _ _ _ _ heq hq
    · next heq =>
      simp only [Option.some.injEq, Prod.mk.injEq] at h
      exact h.2 ▸ hg _ _ _ _ heq hq
    · next heq =>
      have hc := hg _ _ _ _ heq hq
      simp only at h
      split at h
      · simp only [Option.some.injEq, Prod.mk.injEq] at h
        exact h.2 ▸ hc
      · split at h
        · simp only [Option.some.injEq, Prod.mk.injEq] at h
          exact h.2 ▸ hc
        · split at h <;>
          · simp only [Option.some.injEq, Prod.mk.injEq] at h
            exact h.2 ▸ hc
    · next heq =>
      simp only [Option.some.injEq, Prod.mk.injEq] at h
      exact h.2 ▸ hg _ _ _ _ heq hq

theorem CacheCoherent_modify (s : Sheet) (pos : Position) (c : Cell) (v : Value)
    (hcoh : CacheCoherent s) (hc : Sheet.find s pos = some c)
    (hv : match c.impl_ with
      | Impl.empty => v = Value.str ""
      | Impl.text value_ => v = TextImpl.GetValue value_
      | Impl.formula _ => ∀ str, v ≠ Value.str str) :
    CacheCoherent (Sheet.modify s pos (fun c => { c with cache_value_ := some v })) := by
  intro p c1 v1 hc1 hv1
  rw [find_modify] at hc1
  by_cases hp : p = pos
  · subst hp
    rw [if_pos rfl, hc] at hc1
    simp only [Option.map_some', Option.some.injEq] at hc1
    subst hc1
    simp only [Option.some.injEq] at hv1
    subst hv1
    exact hv
  · rw [if_neg hp] at hc1
    exact hcoh p c1 v1 hc1 hv1

theorem GetValue_CacheCoherent (E : Env) :
    ∀ (fuel : Nat) (s : Sheet) (p : Position) (r : Except Thrown Value) (s1 : Sheet),
      GetValue E fuel s p = some (r, s1) → CacheCoherent s → CacheCoherent s1 := by
  intro fuel
  induction fuel with
  | zero => intro s p r s1 h; simp [GetValue] at h
  | succ n ih =>
    intro s p r s1 h hcoh
    rw [GetValue] at h
    cases hf : Sheet.find s p with
    | none =>
      simp only [hf, Option.some.injEq, Prod.mk.injEq] at h
      exact h.2 ▸ hcoh
    | some c =>
      simp only [hf] at h
      cases hcache : c.cache_value_ with
      | some v =>
        simp only [hcache, Option.some.injEq, Prod.mk.injEq] at h
        exact h.2 ▸ hcoh
      | none =>
        simp only [hcache] at h
        cases himpl : c.impl_ with
        | empty =>
          simp only [himpl, Option.some.injEq, Prod.mk.injEq] at h
          rw [← h.2]
          exact CacheCoherent_modify s p c _ hcoh hf (by rw [himpl])
        | text value_ =>
          simp only [himpl, Option.some.injEq, Prod.mk.injEq] at h
          rw [← h.2]
          exact CacheCoherent_modify s p c _ hcoh hf (by rw [himpl])
        | formula ast =>
          simp only [himpl] at h
          have hexq := Execute_preserves CacheCoherent _
            (interpret_function_preserves CacheCoherent E _ ih)
          have hexc := Execute_CacheOnly _
            (interpret_function_CacheOnly E _ (GetValue_CacheOnly E n))
          split at h
          · simp at h
          · next d s2 heq =>
            simp only [Option.some.injEq, Prod.mk.injEq] at h
            rw [← h.2]
            obtain ⟨c2, hc2, hi2, _⟩ := (hexc _ _ _ _ heq).shrinks.find_some_rev hf
            refine CacheCoherent_modify s2 p c2 _ (hexq _ _ _ _ heq hcoh) hc2 ?_
            rw [hi2, himpl]
            intro str hstr
            cases hstr
          · next e s2 heq =>
            simp only [Option.some.injEq, Prod.mk.injEq] at h
            rw [← h.2]
            obtain ⟨c2, hc2, hi2, _⟩ := (hexc _ _ _ _ heq).shrinks.find_some_rev hf
            refine CacheCoherent_modify s2 p c2 _ (hexq _ _ _ _ heq hcoh) hc2 ?_
            rw [hi2, himpl]
            intro str hstr
            cases hstr
          · next heq =>
            simp only [Option.some.injEq, Prod.mk.injEq] at h
            exact h.2 ▸ hexq _ _ _ _ heq hcoh

theorem step_CacheCoherent (E : Env) (fuel : Nat) (s : Sheet) (op : Op) (o : Outcome)
    (s' : Sheet) (hcoh : CacheCoherent s) (h : step E fuel s op = some (o, s')) :
    CacheCoherent s' := by
  cases op with
  | SetCell pos text =>
    simp only [step, Option.some.injEq] at h
    have := SetCell_CacheCoherent E s pos text hcoh
    rw [h] at this
    exact this
  | ClearCell pos => exact ClearCell_CacheCoherent E fuel s pos o s' hcoh h
  | GetValue pos =>
    have key : ∀ r s1, GetValue E fuel s pos = some (r, s1) → CacheCoherent s1 :=
      fun r s1 hg => GetValue_CacheCoherent E fuel s pos r s1 hg hcoh
    simp only [step] at h
    split at h
    · simp only [Option.some.injEq, Prod.mk.injEq] at h
      exact h.2 ▸ hcoh
    · simp only [Option.some.injEq, Prod.mk.injEq] at h
      exact h.2 ▸ hcoh
    · split at h
      · simp at h
      · next heq =>
        simp only [Option.some.injEq, Prod.mk.injEq] at h
        exact h.2 ▸ key _ _ heq
      · next heq =>
        simp only [Option.some.injEq, Prod.mk.injEq] at h
        exact h.2 ▸ key _ _ heq
      · next heq =>
        simp only [Option.some.injEq, Prod.mk.injEq] at h
        exact h.2 ▸ key _ _ heq

/-- The sheets that sequences of calls produce have cached values coherent with the cells'
contents. -/
theorem runOps_CacheCoherent (E : Env) (fuel : Nat) :
    ∀ (ops : List Op) (s : Sheet) (o : Outcome) (s' : Sheet), CacheCoherent s →
      runOps E fuel s ops = some (o, s') → CacheCoherent s' := by
  intro ops
  induction ops with
  | nil =>
    intro s o s' hcoh h
    simp only [runOps, Option.some.injEq, Prod.mk.injEq] at h
    exact h.2 ▸ hcoh
  | cons op ops ih =>
    intro s o s' hcoh h
    unfold runOps at h
    cases hs : step E fuel s op with
    | none => simp [hs] at h
    | some r =>
      obtain ⟨o1, s1⟩ := r
      have hcoh1 := step_CacheCoherent E fuel s op o1 s1 hcoh hs
      rw [hs] at h
      by_cases ho1 : o1 = Outcome.nullDereference
      · subst ho1
        simp only [Option.some.injEq, Prod.mk.injEq] at h
        exact h.2 ▸ hcoh1
      · cases ops with
        | nil =>
          have h' : some (o1, s1) = some (o, s') := by
            cases o1 <;> simp_all
          simp only [Option.some.injEq, Prod.mk.injEq] at h'
          exact h'.2 ▸ hcoh1
        | cons op2 ops2 =>
          have h' : runOps E fuel s1 (op2 :: ops2) = some (o, s') := by
            cases o1 <;> simp_all
          exact ih s1 o s' hcoh1 h'

theorem CacheCoherent_CreateSheet : CacheCoherent CreateSheet := by
  intro p c v h
  simp [CreateSheet, Sheet.find] at h

/-- `Cell::GetValue` of a Formula cell without a cached value is `Formula::Evaluate` of its
AST, stored in the cache when it returns a value. -/
theorem GetValue_formula (E : Env) (fuel : Nat) (s : Sheet) (p : Position) (c : Cell)
    (ast : Expr) (hc : Sheet.find s p = some c) (hcache : c.cache_value_ = none)
    (hi : c.impl_ = Impl.formula ast) :
    GetValue E (fuel + 1) s p =
      match Formula.Evaluate E (GetValue E fuel) ast s with
      | none => none
      | some (Except.ok v, s1) =>
        some (Except.ok v, Sheet.modify s1 p (fun c => { c with cache_value_ := some v }))
      | some (Except.error t, s1) => some (Except.error t, s1) := by
  rw [GetValue]
  simp only [hc, hcache, hi, Formula.Evaluate]
  cases Expr.Execute (interpret_function E (GetValue E fuel)) ast s with
  | none => rfl
  | some x =>
    obtain ⟨r, s1⟩ := x
    cases r with
    | ok d => rfl
    | error t => cases t <;> rfl

/-! ## C13 -/

theorem GetCell_valid (s : Sheet) (p : Position) (hp : p.IsValid = true) :
    Sheet.GetCell s p = some (Sheet.find s p) := by
  simp [Sheet.GetCell, hp]

/-- `Cell::GetValue` of an Empty cell, under cache coherence: the empty string. -/
theorem GetValue_empty (E : Env) (s : Sheet) (p : Position) (n : Nat) (c : Cell)
    (hcoh : CacheCoherent s) (hc : Sheet.find s p = some c) (hi : c.impl_ = Impl.empty) :
    ∃ s1, GetValue E (n + 1) s p = some (Except.ok (Value.str ""), s1) ∧
      ((Sheet.find s1 p).getD c).impl_ = Impl.empty := by
  rw [GetValue]
  simp only [hc]
  cases hcache : c.cache_value_ with
  | some v =>
    have := hcoh p c v hc hcache
    rw [hi] at this
    simp only at this
    subst this
    exact ⟨s, rfl, by simp [hc, hi]⟩
  | none =>
    simp only [hi]
    refine ⟨_, rfl, ?_⟩
    simp [find_modify, hc, hi]

/-- `Cell::GetValue` of a Text cell, under cache coherence: `TextImpl::GetValue` of its text. -/
theorem GetValue_text (E : Env) (s : Sheet) (p : Position) (n : Nat) (c : Cell)
    (value_ : String) (hcoh : CacheCoherent s) (hc : Sheet.find s p = some c)
    (hi : c.impl_ = Impl.text value_) :
    ∃ s1, GetValue E (n + 1) s p = some (Except.ok (TextImpl.GetValue value_), s1) ∧
      ((Sheet.find s1 p).getD c).impl_ = Impl.text value_ := by
  rw [GetValue]
  simp only [hc]
  cases hcache : c.cache_value_ with
  | some v =>
    have := hcoh p c v hc hcache
    rw [hi] at this
    simp only at this
    subst this
    exact ⟨s, rfl, by simp [hc, hi]⟩
  | none =>
    simp only [hi]
    refine ⟨_, rfl, ?_⟩
    simp [find_modify, hc, hi]

/-- C13: the lookup closure that `Formula::Evaluate` passes to the AST, at a referenced valid
position `p` of a sheet whose cached values are coherent with the cells' contents (as in every
sheet the interface produces): `0.0` when no cell is installed at `p` or the cell is Empty; `d`
when the cell's value is the double `d`; a raised `FormulaError e` when the cell's value is
`e`; a raised `FormulaError(Value)` when the cell is a Text cell whose raw text begins with the
apostrophe; and a `FormulaError` raised while the AST executes is the value `Evaluate`
returns. -/
theorem C13_lookup_coercion_rules (E : Env) (s : Sheet) (p : Position) (n : Nat)
    (hp : p.IsValid = true) (hcoh : CacheCoherent s) :
    (Sheet.find s p = none →
        ∀ g, interpret_function E g s p = some (Except.ok 0, s)) ∧
      (∀ c, Sheet.find s p = some c → c.impl_ = Impl.empty →
        ∃ s1, interpret_function E (GetValue E (n + 1)) s p = some (Except.ok 0, s1)) ∧
      (∀ g c d s1, Sheet.find s p = some c → g s p = some (Except.ok (Value.num d), s1) →
        interpret_function E g s p = some (Except.ok d, s1)) ∧
      (∀ g c e s1, Sheet.find s p = some c → g s p = some (Except.ok (Value.err e), s1) →
        interpret_function E g s p = some (Except.error (Thrown.formulaError e), s1)) ∧
      (∀ c value_ rest, Sheet.find s p = some c → c.impl_ = Impl.text value_ →
        value_.data = ESCAPE_SIGN :: rest →
        ∃ s1, interpret_function E (GetValue E (n + 1)) s p =
          some (Except.error (Thrown.formulaError FormulaError.Value), s1)) ∧
      (∀ g ast e s1,
        Expr.Execute (interpret_function E g) ast s =
          some (Except.error (Thrown.formulaError e), s1) →
        Formula.Evaluate E g ast s = some (Except.ok (Value.err e), s1)) := by
  refine ⟨?_, ?_, ?_, ?_, ?_, ?_⟩
  · intro hnone g
    simp [interpret_function, GetCell_valid s p hp, hnone]
  · intro c hc hi
    obtain ⟨s1, hv, himpl⟩ := GetValue_empty E s p n c hcoh hc hi
    refine ⟨s1, ?_⟩
    simp [interpret_function, GetCell_valid s p hp, hc, hv, Cell.GetText, himpl, Impl.GetText]
  · intro g c d s1 hc hg
    simp [interpret_function, GetCell_valid s p hp, hc, hg]
  · intro g c e s1 hc hg
    simp [interpret_function, GetCell_valid s p hp, hc, hg]
  · intro c value_ rest hc hi hdata
    obtain ⟨s1, hv, himpl⟩ := GetValue_text E s p n c value_ hcoh hc hi
    refine ⟨s1, ?_⟩
    have hval : TextImpl.GetValue value_ = Value.str (String.mk rest) := by
      simp [TextImpl.GetValue, hdata]
    rw [hval] at hv
    simp [interpret_function, GetCell_valid s p hp, hc, hv, Cell.GetText, himpl, Impl.GetText,
      hdata]
  · intro g ast e s1 hex
    simp [Formula.Evaluate, hex]

/-- C13 at a concrete input: after `SetCell(A1, "'abc")` the lookup of `A1` raises
`FormulaError(Value)`. -/
theorem C13_lookup_coercion_rules_witness :
    A1.IsValid = true ∧ CacheCoherent (Sheet.SetCell sampleEnv CreateSheet A1 "'abc").2 ∧
      ∃ s1, interpret_function sampleEnv (GetValue sampleEnv 1)
          (Sheet.SetCell sampleEnv CreateSheet A1 "'abc").2 A1 =
        some (Except.error (Thrown.formulaError FormulaError.Value), s1) :=
  ⟨by decide, SetCell_CacheCoherent sampleEnv CreateSheet A1 "'abc" CacheCoherent_CreateSheet,
    (C13_lookup_coercion_rules sampleEnv (Sheet.SetCell sampleEnv CreateSheet A1 "'abc").2 A1 0
      (by decide)
      (SetCell_CacheCoherent sampleEnv CreateSheet A1 "'abc" CacheCoherent_CreateSheet)).2.2.2.2.1
      { impl_ := Impl.text "'abc", dependents_cells_ := [], referenced_cells_ := [],
        cache_value_ := none } "'abc" ['a', 'b', 'c'] (by decide) rfl (by decide)⟩

/-! ## C20 -/

theorem TextImpl_GetValue_empty (value_ : String)
    (h : Value.str "" = TextImpl.GetValue value_) : value_ = "" ∨ value_ = "'" := by
  obtain ⟨l⟩ := value_
  cases l with
  | nil => left; rfl
  | cons ch rest =>
    right
    simp only [TextImpl.GetValue] at h
    split_ifs at h with hch
    · simp only [Value.str.injEq] at h
      have hrest : rest = [] := by
        have := congrArg String.data h
        simpa using this.symm
      subst hrest
      subst hch
      rfl
    · simp only [Value.str.injEq] at h
      have := congrArg String.data h
      simp at this

/-- A string value of `Cell::GetValue`, under cache coherence: the cell is Empty and the string
is empty, or the cell is a Text cell and the string is `TextImpl::GetValue` of its text; the
cell keeps its contents. -/
theorem GetValue_str_cases (E : Env) (n : Nat) (s : Sheet) (p : Position) (c : Cell)
    (str : String) (s1 : Sheet) (hcoh : CacheCoherent s) (hc : Sheet.find s p = some c)
    (hv : GetValue E n s p = some (Except.ok (Value.str str), s1)) :
    ((Sheet.find s1 p).getD c).impl_ = c.impl_ ∧
      ((c.impl_ = Impl.empty ∧ str = "") ∨
        ∃ value_, c.impl_ = Impl.text value_ ∧ Value.str str = TextImpl.GetValue value_) := by
  cases n with
  | zero => simp [GetValue] at hv
  | succ n =>
    rw [GetValue] at hv
    simp only [hc] at hv
    cases hcache : c.cache_value_ with
    | some v =>
      simp only [hcache, Option.some.injEq, Prod.mk.injEq, Except.ok.injEq] at hv
      obtain ⟨hv1, hs⟩ := hv
      subst hs
      subst hv1
      have hco := hcoh p c _ hc hcache
      refine ⟨by simp [hc], ?_⟩
      cases hi : c.impl_ with
      | empty =>
        rw [hi] at hco
        simp only [Value.str.injEq] at hco
        exact Or.inl ⟨rfl, hco⟩
      | text value_ =>
        rw [hi] at hco
        exact Or.inr ⟨value_, rfl, hco⟩
      | formula ast =>
        rw [hi] at hco
        exact absurd rfl (hco str)
    | none =>
      simp only [hcache] at hv
      cases hi : c.impl_ with
      | empty =>
        simp only [hi, Option.some.injEq, Prod.mk.injEq, Except.ok.injEq, Value.str.injEq] at hv
        obtain ⟨hv1, hs⟩ := hv
        subst hs
        refine ⟨by simp [find_modify, hc, hi], Or.inl ⟨rfl, hv1.symm⟩⟩
      | text value_ =>
        simp only [hi, Option.some.injEq, Prod.mk.injEq, Except.ok.injEq] at hv
        obtain ⟨hv1, hs⟩ := hv
        subst hs
        refine ⟨by simp [find_modify, hc, hi], Or.inr ⟨value_, rfl, hv1.symm⟩⟩
      | formula ast =>
        simp only [hi] at hv
        split at hv <;> simp at hv

/-- C20 (the code departs from the claim): after `SetCell(A1, "'")` the value of `A1` is the
empty string, and the lookup of `A1` raises `FormulaError(Value)`; with `SetCell(A2, "=A1")` the
value of `A2` is `#VALUE!`, not `0`. -/
theorem C20_lone_apostrophe_lookup_raises :
    ((GetValue sampleEnv 1 (Sheet.SetCell sampleEnv CreateSheet A1 "'").2 A1).map
        (fun r => r.1) = some (Except.ok (Value.str ""))) ∧
      ((interpret_function sampleEnv (GetValue sampleEnv 1)
          (Sheet.SetCell sampleEnv CreateSheet A1 "'").2 A1).map (fun r => r.1) =
        some (Except.error (Thrown.formulaError FormulaError.Value))) ∧
      ((GetValue sampleEnv 2
          (Sheet.SetCell sampleEnv (Sheet.SetCell sampleEnv CreateSheet A1 "'").2 A2 "=A1").2
          A2).map (fun r => r.1) = some (Except.ok (Value.err FormulaError.Value))) :=
  ⟨rfl, rfl, rfl⟩

/-- C20, amended: in the lookup closure of `Formula::Evaluate`, at a valid position `p` whose
cell's value (`GetValue`) is a string: the lookup returns `0.0` when the cell's raw text
(`GetText`) is empty, and raises `FormulaError(Value)` when the raw text begins with the
apostrophe; when the value is the empty string the raw text is empty or the lone apostrophe, so
the lookup returns `0.0` in the first case and raises `FormulaError(Value)` in the second. -/
theorem C20_lookup_of_string_value (E : Env) (s : Sheet) (p : Position) (n : Nat) (c : Cell)
    (str : String) (s1 : Sheet) (hp : p.IsValid = true) (hcoh : CacheCoherent s)
    (hc : Sheet.find s p = some c)
    (hv : GetValue E n s p = some (Except.ok (Value.str str), s1)) :
    (c.GetText E = "" →
        interpret_function E (GetValue E n) s p = some (Except.ok 0, s1)) ∧
      (∀ rest, (c.GetText E).data = ESCAPE_SIGN :: rest →
        interpret_function E (GetValue E n) s p =
          some (Except.error (Thrown.formulaError FormulaError.Value), s1)) ∧
      (str = "" → c.GetText E = "" ∨ c.GetText E = "'") := by
  obtain ⟨himpl, hcases⟩ := GetValue_str_cases E n s p c str s1 hcoh hc hv
  have htext : ((Sheet.find s1 p).getD c).GetText E = c.GetText E := by
    simp only [Cell.GetText, himpl]
  refine ⟨?_, ?_, ?_⟩
  · intro h0
    simp [interpret_function, GetCell_valid s p hp, hc, hv, htext, h0]
  · intro rest hrest
    simp [interpret_function, GetCell_valid s p hp, hc, hv, htext, hrest]
  · intro hstr
    subst hstr
    rcases hcases with ⟨hi, _⟩ | ⟨value_, hi, hval⟩
    · left
      simp [Cell.GetText, hi, Impl.GetText]
    · have := TextImpl_GetValue_empty value_ hval
      simpa [Cell.GetText, hi, Impl.GetText] using this

/-- C20, amended, at a concrete input: the sheet after `SetCell(A1, "'")`. -/
theorem C20_lookup_of_string_value_witness :
    A1.IsValid = true ∧ CacheCoherent (Sheet.SetCell sampleEnv CreateSheet A1 "'").2 ∧
      interpret_function sampleEnv (GetValue sampleEnv 1)
          (Sheet.SetCell sampleEnv CreateSheet A1 "'").2 A1 =
        some (Except.error (Thrown.formulaError FormulaError.Value),
          Sheet.modify (Sheet.SetCell sampleEnv CreateSheet A1 "'").2 A1
            (fun c => { c with cache_value_ := some (Value.str "") })) :=
  ⟨by decide, SetCell_CacheCoherent sampleEnv CreateSheet A1 "'" CacheCoherent_CreateSheet,
    (C20_lookup_of_string_value sampleEnv (Sheet.SetCell sampleEnv CreateSheet A1 "'").2 A1 1
      { impl_ := Impl.text "'", dependents_cells_ := [], referenced_cells_ := [],
        cache_value_ := none } ""
      (Sheet.modify (Sheet.SetCell sampleEnv CreateSheet A1 "'").2 A1
        (fun c => { c with cache_value_ := some (Value.str "") }))
      (by decide)
      (SetCell_CacheCoherent sampleEnv CreateSheet A1 "'" CacheCoherent_CreateSheet)
      (by decide) rfl).2.1 [] (by decide)⟩

/-! ## The sample `std::stod` -/

/-- The sample `std::stod` on a decimal fraction, on a number followed by other characters, on
signed numbers, after white space, with exponents, on a hexadecimal number, and where it
throws: no number at the head, and a range error. -/
theorem sampleStod_values :
    sampleStod "3.14" = some (157 / 50) ∧ sampleStod "5abc" = some 5 ∧
      sampleStod "-2" = some (-2) ∧ sampleStod "+7" = some 7 ∧ sampleStod " 42" = some 42 ∧
      sampleStod ".5" = some (1 / 2) ∧ sampleStod "1e3" = some 1000 ∧
      sampleStod "25E-1" = some (5 / 2) ∧ sampleStod "0x1A" = some 26 ∧
      sampleStod "abc" = none ∧ sampleStod "-" = none ∧ sampleStod "." = none ∧
      sampleStod "1e999" = none := by
  decide!

/-- The lookup of scenario S6: after `SetCell(A1, "3.14")` the lookup of `A1` returns `3.14`,
and after `SetCell(A1, "'3.14")` it raises `FormulaError(Value)`. -/
theorem interpret_function_S6 :
    ((interpret_function sampleEnv (GetValue sampleEnv 1)
        (Sheet.SetCell sampleEnv CreateSheet A1 "3.14").2 A1).map (fun r => r.1.toOption) =
      some (some (157 / 50))) ∧
    ((interpret_function sampleEnv (GetValue sampleEnv 1)
        (Sheet.SetCell sampleEnv CreateSheet A1 "'3.14").2 A1).map
          (fun r => match r.1 with
            | Except.error (Thrown.formulaError e) => some e
            | _ => none) =
      some (some FormulaError.Value)) := by
  refine ⟨by decide!, by decide⟩

/-! ## C11 -/

theorem find_some_mem (s : Sheet) (q : Position) (c : Cell) (h : Sheet.find s q = some c) :
    (q, c) ∈ s := by
  induction s with
  | nil => simp [Sheet.find] at h
  | cons e rest ih =>
    obtain ⟨k, c0⟩ := e
    simp only [Sheet.find] at h
    by_cases hk : k = q
    · simp only [hk, if_true, Option.some.injEq] at h
      subst h
      subst hk
      exact List.mem_cons_self _ _
    · simp only [hk, if_false] at h
      exact List.mem_cons_of_mem _ (ih h)

theorem RefsValid_of_forall (s : Sheet)
    (h : ∀ e ∈ s, ∀ q ∈ e.2.referenced_cells_, q.IsValid = true) : RefsValid s :=
  fun p c hc q hq => h (p, c) (find_some_mem s p c hc) q hq

theorem DepsValid_of_forall (s : Sheet)
    (h : ∀ e ∈ s, ∀ q ∈ e.2.dependents_cells_, q.IsValid = true) : DepsValid s :=
  fun p c hc q hq => h (p, c) (find_some_mem s p c hc) q hq

/-- What `ClearCell(pos)` does when it returns normally: nothing when no cell is installed at
`pos`; otherwise no cell is installed at `pos` afterwards, `pos` is in no dependents set of a
cell that the cleared cell referenced, and the cells at the other positions are the same, with
the same content and referenced set. -/
theorem ClearCell_ok_frame (E : Env) (fuel : Nat) (s : Sheet) (pos : Position) (s' : Sheet)
    (h : Sheet.ClearCell E fuel s pos = some (Outcome.ok, s')) :
    (Sheet.find s pos = none → s' = s) ∧
      ∀ cell, Sheet.find s pos = some cell →
        Sheet.GetCell s' pos = some none ∧
        (∀ q c', q ∈ cell.referenced_cells_ → Sheet.find s' q = some c' →
          pos ∉ c'.dependents_cells_) ∧
        (∀ q, q ≠ pos → (Sheet.find s q = none ∧ Sheet.find s' q = none) ∨
          ∃ c c', Sheet.find s q = some c ∧ Sheet.find s' q = some c' ∧
            c'.impl_ = c.impl_ ∧ c'.referenced_cells_ = c.referenced_cells_) := by
  unfold Sheet.ClearCell at h
  cases hpos : pos.IsValid
  · simp [hpos] at h
  · simp only [hpos, Bool.not_true, Bool.false_eq_true, if_false] at h
    refine ⟨?_, ?_⟩
    · intro hf
      simp only [hf, Option.some.injEq, Prod.mk.injEq, true_and] at h
      exact h.symm
    · intro cell hf
      simp only [hf] at h
      obtain ⟨l', _, hok, hfind⟩ := RemoveOldLinks_find pos cell.referenced_cells_ s
      rcases hr : RemoveOldLinks pos s cell.referenced_cells_ with ⟨o1, s1⟩
      rw [hr] at hok hfind h
      simp only at hok hfind
      by_cases ho1 : o1 = Outcome.ok
      · subst ho1
        have hl' : l' = cell.referenced_cells_ := hok rfl
        subst hl'
        simp only [Cell_Set_empty] at h
        have hc0 : Sheet.find s1 pos = some (unlink pos cell.referenced_cells_ pos cell) := by
          rw [hfind, hf]; rfl
        rw [hc0] at h
        simp only [Option.getD_some] at h
        generalize unlink pos cell.referenced_cells_ pos cell = c0 at h hc0
        have hs2 : ∀ q, q ≠ pos → Sheet.find (Sheet.modify s1 pos
              (fun _ => { c0 with impl_ := Impl.empty, cache_value_ := none })) q =
            Sheet.find s1 q := by
          intro q hq
          rw [find_modify, if_neg hq]
        cases hreset : ResetCacheDependentsCells fuel (Sheet.modify s1 pos
            (fun _ => { c0 with impl_ := Impl.empty, cache_value_ := none }))
            c0.dependents_cells_ with
        | none => simp [hreset] at h
        | some r =>
          obtain ⟨o_r, s3⟩ := r
          obtain ⟨hco, _⟩ := ResetCacheDependentsCells_post _ _ _ _ _ hreset
          rw [hreset] at h
          have ho_r : o_r = Outcome.ok ∧ s' = Sheet.erase (Sheet.modify s3 pos
              (fun c => { c with referenced_cells_ := [] })) pos := by
            cases o_r <;> simp_all
          obtain ⟨_, hs'⟩ := ho_r
          subst hs'
          -- the cells at the other positions
          have hother : ∀ q, q ≠ pos → (Sheet.find s q = none ∧
              Sheet.find (Sheet.erase (Sheet.modify s3 pos
                (fun c => { c with referenced_cells_ := [] })) pos) q = none) ∨
              ∃ c c', Sheet.find s q = some c ∧
                Sheet.find (Sheet.erase (Sheet.modify s3 pos
                  (fun c => { c with referenced_cells_ := [] })) pos) q = some c' ∧
                c'.impl_ = c.impl_ ∧ c'.referenced_cells_ = c.referenced_cells_ ∧
                c'.dependents_cells_ =
                  (unlink pos cell.referenced_cells_ q c).dependents_cells_ := by
            intro q hq
            rw [find_erase, if_neg hq, find_modify, if_neg hq]
            rcases hco q with ⟨h2, h3⟩ | ⟨c2, c3, h2, h3, hi, hr3, hd3⟩
            · rw [hs2 q hq, hfind] at h2
              left
              refine ⟨?_, h3⟩
              cases hsq : Sheet.find s q with
              | none => rfl
              | some c => rw [hsq] at h2; simp at h2
            · rw [hs2 q hq, hfind] at h2
              cases hsq : Sheet.find s q with
              | none => rw [hsq] at h2; simp at h2
              | some c =>
                rw [hsq] at h2
                simp only [Option.map_some', Option.some.injEq] at h2
                subst h2
                obtain ⟨g1, g2, _, _⟩ := unlink_fields pos cell.referenced_cells_ q c
                right
                exact ⟨c, c3, rfl, h3, hi.trans g1, hr3.trans g2, hd3⟩
          refine ⟨?_, ?_, ?_⟩
          · simp [Sheet.GetCell, hpos, find_erase]
          · intro q c' hq hc'
            by_cases hqp : q = pos
            · subst hqp
              simp [find_erase] at hc'
            · rcases hother q hqp with ⟨_, h3⟩ | ⟨c, c3, _, h3, _, _, hd⟩
              · rw [hc'] at h3; simp at h3
              · rw [hc'] at h3
                simp only [Option.some.injEq] at h3
                subst h3
                rw [hd]
                simp only [unlink, hq, if_true]
                intro hmem
                rw [mem_setErase] at hmem
                exact hmem.2 rfl
          · intro q hq
            rcases hother q hq with h0 | ⟨c, c3, h1, h3, hi, hr3, _⟩
            · exact Or.inl h0
            · exact Or.inr ⟨c, c3, h1, h3, hi, hr3⟩
      · have h' : some (o1, s1) = some (Outcome.ok, s') := by
          cases o1 <;> simp_all
        simp only [Option.some.injEq, Prod.mk.injEq] at h'
        exact absurd h'.1 ho1

/-- C15 (the code departs from it): after `SetCell(A2, "=A1")` and `ClearCell(A1)`, the cell
installed at the valid position `A2` references `A1`, where no cell is installed;
`ClearCell(A2)` uses the null result of `GetCell(A1)` in `RemoveOldLinks`, and the cell at `A2`
is still installed with its formula, where the claim has `GetCell(A2)` null. With a cell at
`A1`, `ClearCell(A2)` removes the cell at `A2`, erases `A2` from the dependents set of `A1`,
and leaves the text of `A1`; `ClearCell` of a position without a cell changes nothing. -/
theorem C15_ClearCell_null_reference :
    ((runOps sampleEnv 4 CreateSheet
        [Op.SetCell A2 "=A1", Op.ClearCell A1, Op.ClearCell A2]).map (fun r =>
          (r.1, (Sheet.find r.2 A1).isSome,
            (Sheet.find r.2 A2).map (fun c => (c.GetText sampleEnv, c.referenced_cells_)))) =
        some (Outcome.nullDereference, false, some ("=A1", [A1]))) ∧
      ((runOps sampleEnv 4 CreateSheet
        [Op.SetCell A1 "5", Op.SetCell A2 "=A1", Op.ClearCell A2]).map (fun r =>
          (r.1, Sheet.GetCell r.2 A2,
            (Sheet.find r.2 A1).map (fun c => (c.GetText sampleEnv, c.dependents_cells_)))) =
        some (Outcome.ok, some none, some ("5", []))) ∧
      ((runOps sampleEnv 4 CreateSheet [Op.SetCell A1 "5", Op.ClearCell A3]) =
        runOps sampleEnv 4 CreateSheet [Op.SetCell A1 "5"]) := by
  refine ⟨by decide, by decide, by decide⟩

/-! ## C21 -/

theorem CacheOnly_isSome {s s1 : Sheet} (h : CacheOnly s s1) (d : Position)
    (hd : (Sheet.find s d).isSome = true) : (Sheet.find s1 d).isSome = true := by
  rcases h d with ⟨h0, _⟩ | ⟨c, c1, _, hc1, _⟩
  · rw [h0] at hd; simp at hd
  · rw [hc1]; rfl

theorem DepsInstalled_of_CacheOnly {s s1 : Sheet} (h : CacheOnly s s1) (hv : DepsInstalled s) :
    DepsInstalled s1 := by
  intro p c1 hc1 d hd
  rcases h p with ⟨_, h0⟩ | ⟨c, c1', hc, hc1', _, _, hdeps⟩
  · rw [hc1] at h0; simp at h0
  · rw [hc1] at hc1'
    simp only [Option.some.injEq] at hc1'
    subst hc1'
    exact CacheOnly_isSome h d (hv p c hc d (hdeps ▸ hd))

theorem DepsInstalled_of_forall (s : Sheet)
    (h : ∀ e ∈ s, ∀ d ∈ e.2.dependents_cells_, (Sheet.find s d).isSome = true) :
    DepsInstalled s :=
  fun p c hc d hd => h (p, c) (find_some_mem s p c hc) d hd

theorem forEachDependent_no_null (rec : Sheet → List Position → Option (Outcome × Sheet))
    (hrec : ∀ s l o s1, rec s l = some (o, s1) → CacheOnly s s1 ∧
      (DepsInstalled s → (∀ d ∈ l, (Sheet.find s d).isSome = true) →
        o ≠ Outcome.nullDereference)) :
    ∀ (l : List Position) (s : Sheet) (o : Outcome) (s1 : Sheet),
      forEachDependent rec s l = some (o, s1) → CacheOnly s s1 ∧
      (DepsInstalled s → (∀ d ∈ l, (Sheet.find s d).isSome = true) →
        o ≠ Outcome.nullDereference) := by
  intro l
  induction l with
  | nil =>
    intro s o s1 h
    simp only [forEachDependent, Option.some.injEq, Prod.mk.injEq] at h
    obtain ⟨rfl, rfl⟩ := h
    exact ⟨CacheOnly.refl _, fun _ _ => by decide⟩
  | cons d rest ih =>
    intro s o s1 h
    unfold forEachDependent at h
    cases hg : Sheet.GetCell s d with
    | none =>
      simp only [hg, Option.some.injEq, Prod.mk.injEq] at h
      obtain ⟨rfl, rfl⟩ := h
      exact ⟨CacheOnly.refl _, fun _ _ => by decide⟩
    | some oc =>
      cases oc with
      | none =>
        simp only [hg, Option.some.injEq, Prod.mk.injEq] at h
        obtain ⟨rfl, rfl⟩ := h
        refine ⟨CacheOnly.refl _, fun _ hl => ?_⟩
        have hd := hl d (List.mem_cons_self _ _)
        unfold Sheet.GetCell at hg
        split at hg
        · simp only [Option.some.injEq] at hg
          rw [hg] at hd
          simp at hd
        · simp at hg
      | some c =>
        simp only [hg] at h
        have hfind : Sheet.find s d = some c := by
          unfold Sheet.GetCell at hg
          split at hg <;> simp_all
        have hm := modify_cache_CacheOnly s d none
        cases hr : rec (Sheet.modify s d (fun c => { c with cache_value_ := none }))
            c.dependents_cells_ with
        | none => simp [hr] at h
        | some r =>
          obtain ⟨o1, s2⟩ := r
          obtain ⟨hc1, ho1⟩ := hrec _ _ _ _ hr
          have hinner : DepsInstalled s → o1 ≠ Outcome.nullDereference := fun hinst =>
            ho1 (DepsInstalled_of_CacheOnly hm hinst)
              (fun e he => CacheOnly_isSome hm e (hinst d c hfind e he))
          rw [hr] at h
          by_cases hok : o1 = Outcome.ok
          · subst hok
            simp only at h
            obtain ⟨hc2, ho2⟩ := ih _ _ _ h
            refine ⟨(hm.trans hc1).trans hc2, fun hinst hl => ?_⟩
            exact ho2 (DepsInstalled_of_CacheOnly (hm.trans hc1) hinst)
              (fun e he => CacheOnly_isSome (hm.trans hc1) e (hl e (List.mem_cons_of_mem _ he)))
          · have h' : some (o1, s2) = some (o, s1) := by
              cases o1 <;> simp_all
            simp only [Option.some.injEq, Prod.mk.injEq] at h'
            obtain ⟨rfl, rfl⟩ := h'
            exact ⟨hm.trans hc1, fun hinst _ => hinner hinst⟩

/-- The traversal uses no null pointer when every entry it meets names an installed cell. -/
theorem ResetCacheDependentsCells_no_null :
    ∀ (fuel : Nat) (s : Sheet) (l : List Position) (o : Outcome) (s1 : Sheet),
      ResetCacheDependentsCells fuel s l = some (o, s1) → CacheOnly s s1 ∧
      (DepsInstalled s → (∀ d ∈ l, (Sheet.find s d).isSome = true) →
        o ≠ Outcome.nullDereference) := by
  intro fuel
  induction fuel with
  | zero =>
    intro s l o s1 h
    cases l with
    | nil =>
      simp only [ResetCacheDependentsCells, Option.some.injEq, Prod.mk.injEq] at h
      obtain ⟨rfl, rfl⟩ := h
      exact ⟨CacheOnly.refl _, fun _ _ => by decide⟩
    | cons d ds => simp [ResetCacheDependentsCells] at h
  | succ n ih =>
    intro s l o s1 h
    cases l with
    | nil =>
      simp only [ResetCacheDependentsCells, Option.some.injEq, Prod.mk.injEq] at h
      obtain ⟨rfl, rfl⟩ := h
      exact ⟨CacheOnly.refl _, fun _ _ => by decide⟩
    | cons d ds =>
      simp only [ResetCacheDependentsCells] at h
      exact forEachDependent_no_null _ ih _ _ _ _ h

/-- On the sheet with the dependents cycle the traversal exceeds every recursion budget, from
the dependents set of either cell. -/
theorem ResetCacheDependentsCells_cycle :
    ∀ fuel : Nat,
      ResetCacheDependentsCells fuel sheetWithDependentsCycle [A1] = none ∧
      ResetCacheDependentsCells fuel sheetWithDependentsCycle [A2] = none := by
  intro fuel
  induction fuel with
  | zero => exact ⟨rfl, rfl⟩
  | succ n ih =>
    obtain ⟨h1, h2⟩ := ih
    have hm1 : Sheet.modify sheetWithDependentsCycle A1
        (fun c => { c with cache_value_ := none }) = sheetWithDependentsCycle := by decide
    have hm2 : Sheet.modify sheetWithDependentsCycle A2
        (fun c => { c with cache_value_ := none }) = sheetWithDependentsCycle := by decide
    have hg1 : Sheet.GetCell sheetWithDependentsCycle A1 = some (some
        { impl_ := Impl.formula (Expr.cell A2), dependents_cells_ := [A2],
          referenced_cells_ := [A2], cache_value_ := none }) := by decide
    have hg2 : Sheet.GetCell sheetWithDependentsCycle A2 = some (some
        { impl_ := Impl.formula (Expr.cell A1), dependents_cells_ := [A1],
          referenced_cells_ := [A1], cache_value_ := none }) := by decide
    constructor
    · simp only [ResetCacheDependentsCells, forEachDependent, hg1, hm1, h2]
    · simp only [ResetCacheDependentsCells, forEachDependent, hg2, hm2, h1]

/-- C21 (the code departs from the claim on cyclic states): in the sheet where `A1` and `A2`
are each in the dependents set of the other, every dependents entry names an installed cell,
the dependents relation has a directed cycle, and the traversal `ResetCacheDependentsCells`
over the dependents set of the cell at `A1` exceeds every recursion budget: it has no visited
set and does not return. -/
theorem C21_dependents_cycle_no_return :
    DepsInstalled sheetWithDependentsCycle ∧
      Relation.TransGen (DepEdge sheetWithDependentsCycle) A1 A1 ∧
      (Sheet.find sheetWithDependentsCycle A1).map (fun c => c.dependents_cells_) = some [A2] ∧
      ∀ fuel : Nat, ResetCacheDependentsCells fuel sheetWithDependentsCycle [A2] = none := by
  have e1 : DepEdge sheetWithDependentsCycle A1 A2 :=
    ⟨{ impl_ := Impl.formula (Expr.cell A2), dependents_cells_ := [A2],
       referenced_cells_ := [A2], cache_value_ := none }, by decide, by decide⟩
  have e2 : DepEdge sheetWithDependentsCycle A2 A1 :=
    ⟨{ impl_ := Impl.formula (Expr.cell A1), dependents_cells_ := [A1],
       referenced_cells_ := [A1], cache_value_ := none }, by decide, by decide⟩
  exact ⟨DepsInstalled_of_forall _ (by decide),
    Relation.TransGen.head e1 (Relation.TransGen.single e2), by decide,
    fun fuel => (ResetCacheDependentsCells_cycle fuel).2⟩

/-- C21, amended: for every sheet state in which every dependents entry names an installed
cell and the dependents relation has no directed cycle, the traversal
`ResetCacheDependentsCells` over a list of installed positions returns within a recursion
budget of the number of cells plus two, with the same result for every larger budget, and
without using a null pointer. -/
theorem C21_ResetCacheDependentsCells_terminates (s : Sheet) (l : List Position)
    (hacyc : DepsAcyclic s) (hinst : DepsInstalled s)
    (hl : ∀ d ∈ l, (Sheet.find s d).isSome = true) :
    ∃ o s1, ResetCacheDependentsCells (s.length + 2) s l = some (o, s1) ∧
      o ≠ Outcome.nullDereference ∧
      ∀ fuel, s.length + 2 ≤ fuel → ResetCacheDependentsCells fuel s l = some (o, s1) := by
  obtain ⟨μ, h1, h2⟩ := exists_rank (DepEdge s) (s.map Prod.fst).toFinset
    (fun a b hab => by
      obtain ⟨c, hc, hb⟩ := hab
      obtain ⟨c', hc'⟩ := Option.isSome_iff_exists.mp (hinst a c hc b hb)
      exact find_some_mem_keys s b c' hc')
    hacyc
  have hbound : ∀ a, μ a ≤ s.length := fun a => (h1 a).trans
    (calc (s.map Prod.fst).toFinset.card ≤ (s.map Prod.fst).length := List.toFinset_card_le _
      _ = s.length := List.length_map _ _)
  have hsome := ResetCacheDependentsCells_isSome s μ h2 (s.length + 1) l s (CacheOnly.refl s)
    (fun d _ _ _ => Nat.lt_succ_of_le (hbound d))
  obtain ⟨r, hr⟩ := Option.isSome_iff_exists.mp hsome
  obtain ⟨o, s1⟩ := r
  exact ⟨o, s1, hr, (ResetCacheDependentsCells_no_null _ _ _ _ _ hr).2 hinst hl,
    fun fuel hle => ResetCacheDependentsCells_mono s l (o, s1) _ fuel hle hr⟩

/-- C21, amended, at a concrete input: the sheet after `SetCell(A1, "5")` and
`SetCell(A2, "=A1")`, and the dependents set `{A2}` of the cell at `A1`. -/
theorem C21_ResetCacheDependentsCells_terminates_witness :
    DepsAcyclic (Sheet.SetCell sampleEnv (Sheet.SetCell sampleEnv CreateSheet A1 "5").2
        A2 "=A1").2 ∧
      DepsInstalled (Sheet.SetCell sampleEnv (Sheet.SetCell sampleEnv CreateSheet A1 "5").2
        A2 "=A1").2 ∧
      ∃ o s1, ResetCacheDependentsCells
          ((Sheet.SetCell sampleEnv (Sheet.SetCell sampleEnv CreateSheet A1 "5").2
            A2 "=A1").2.length + 2)
          (Sheet.SetCell sampleEnv (Sheet.SetCell sampleEnv CreateSheet A1 "5").2 A2 "=A1").2
          [A2] = some (o, s1) ∧
        o ≠ Outcome.nullDereference ∧
        ∀ fuel, (Sheet.SetCell sampleEnv (Sheet.SetCell sampleEnv CreateSheet A1 "5").2
            A2 "=A1").2.length + 2 ≤ fuel →
          ResetCacheDependentsCells fuel
            (Sheet.SetCell sampleEnv (Sheet.SetCell sampleEnv CreateSheet A1 "5").2 A2 "=A1").2
            [A2] = some (o, s1) :=
  ⟨DepEdge_acyclic _ (SetCell_Inv _ _ _ _ (SetCell_Inv _ _ _ _ Inv_CreateSheet)),
    DepsInstalled_of_forall _ (by decide),
    C21_ResetCacheDependentsCells_terminates _ [A2]
      (DepEdge_acyclic _ (SetCell_Inv _ _ _ _ (SetCell_Inv _ _ _ _ Inv_CreateSheet)))
      (DepsInstalled_of_forall _ (by decide)) (by decide)⟩

/-! ## C22 -/

/-- The recording loop reaches the verdict of `CycleLoop`. -/
theorem CycleLoopTrace_fst (s : Sheet) (pos : Position) :
    ∀ (fuel : Nat) (queue checked : List Position),
      (CycleLoopTrace s pos fuel queue checked).map Prod.fst =
        CycleLoop s pos fuel queue checked := by
  intro fuel
  induction fuel with
  | zero => intro queue checked; simp [CycleLoopTrace, CycleLoop]
  | succ n ih =>
    intro queue checked
    cases queue with
    | nil => simp [CycleLoopTrace, CycleLoop]
    | cons cur rest =>
      rw [CycleLoopTrace, CycleLoop]
      by_cases h1 : cur = pos
      · simp [h1]
      · by_cases h2 : cur ∈ checked
        · simp only [h1, h2, if_true, if_false]
          exact ih _ _
        · simp only [h1, h2, if_false]
          cases (Sheet.GetCell s cur).getD none with
          | none => exact ih _ _
          | some cell =>
            simp only [Option.map_map]
            exact ih _ _

theorem CycleLoopTrace_succ (s : Sheet) (pos : Position) :
    ∀ (fuel : Nat) (queue checked : List Position) (r : Bool × List Position),
      CycleLoopTrace s pos fuel queue checked = some r →
      CycleLoopTrace s pos (fuel + 1) queue checked = some r := by
  intro fuel
  induction fuel with
  | zero => intro queue checked r h; simp [CycleLoopTrace] at h
  | succ n ih =>
    intro queue checked r h
    cases queue with
    | nil => simpa [CycleLoopTrace] using h
    | cons cur rest =>
      rw [CycleLoopTrace] at h ⊢
      by_cases h1 : cur = pos
      · simpa [h1] using h
      · by_cases h2 : cur ∈ checked
        · simp only [h1, h2, if_true, if_false] at h ⊢
          exact ih _ _ _ h
        · simp only [h1, h2, if_false] at h ⊢
          cases hc : (Sheet.GetCell s cur).getD none with
          | none =>
            rw [hc] at h
            exact ih _ _ _ h
          | some cell =>
            rw [hc] at h
            simp only at h ⊢
            cases hrec : CycleLoopTrace s pos n (rest ++ cell.GetReferencedCells)
                (setInsert cur checked) with
            | none => simp [hrec] at h
            | some r1 =>
              rw [hrec] at h
              rw [ih _ _ _ hrec]
              exact h

theorem CycleLoopTrace_mono (s : Sheet) (pos : Position) (queue checked : List Position)
    (r : Bool × List Position) (fuel fuel' : Nat) (hle : fuel ≤ fuel')
    (h : CycleLoopTrace s pos fuel queue checked = some r) :
    CycleLoopTrace s pos fuel' queue checked = some r := by
  induction hle with
  | refl => exact h
  | step _ ih => exact CycleLoopTrace_succ s pos _ _ _ _ ih

/-- No position is recorded twice, and no recorded position was in `checked_positions`
before. -/
theorem CycleLoopTrace_nodup (s : Sheet) (pos : Position) :
    ∀ (fuel : Nat) (queue checked : List Position) (r : Bool × List Position),
      CycleLoopTrace s pos fuel queue checked = some r →
      r.2.Nodup ∧ ∀ x ∈ r.2, x ∉ checked := by
  intro fuel
  induction fuel with
  | zero => intro queue checked r h; simp [CycleLoopTrace] at h
  | succ n ih =>
    intro queue checked r h
    cases queue with
    | nil =>
      simp only [CycleLoopTrace, Option.some.injEq] at h
      subst h
      simp
    | cons cur rest =>
      rw [CycleLoopTrace] at h
      by_cases h1 : cur = pos
      · simp only [h1, if_true, Option.some.injEq] at h
        subst h
        simp
      · by_cases h2 : cur ∈ checked
        · simp only [h1, h2, if_true, if_false] at h
          exact ih _ _ _ h
        · simp only [h1, h2, if_false] at h
          cases hc : (Sheet.GetCell s cur).getD none with
          | none =>
            rw [hc] at h
            obtain ⟨hn, hx⟩ := ih _ _ _ h
            exact ⟨hn, fun x hxr hmem => hx x hxr ((mem_setInsert _ _ _).mpr (Or.inr hmem))⟩
          | some cell =>
            rw [hc] at h
            simp only at h
            cases hrec : CycleLoopTrace s pos n (rest ++ cell.GetReferencedCells)
                (setInsert cur checked) with
            | none => simp [hrec] at h
            | some r1 =>
              rw [hrec] at h
              simp only [Option.map_some', Option.some.injEq] at h
              subst h
              obtain ⟨hn, hx⟩ := ih _ _ _ hrec
              refine ⟨List.nodup_cons.mpr ⟨fun hmem => ?_, hn⟩, fun x hxr hmem => ?_⟩
              · exact hx cur hmem ((mem_setInsert _ _ _).mpr (Or.inl rfl))
              · rcases List.mem_cons.mp hxr with rfl | hxr
                · exact h2 hmem
                · exact hx x hxr ((mem_setInsert _ _ _).mpr (Or.inr hmem))

/-- On the sheet where `A1` and `A2` reference each other, the check of a candidate at `A3`
that references `A1` ends with the verdict `false` after expanding `A1` and `A2` once each. -/
theorem CycleLoopTrace_on_cycle :
    CycleLoopTrace sheetWithDependentsCycle A3 (cycleFuel sheetWithDependentsCycle [A1]) [A1] [] =
      some (false, [A1, A2]) := by
  decide

/-- C22: for every sheet state, every candidate cell and every position `pos`, the loop of
`Sheet::CycleDependencyFound` ends within the budget `cycleFuel` (the number of the
candidate's references plus the number of references of all installed cells, plus one), with
the same verdict and the same expanded positions for every larger budget; the verdict is that
of `CycleDependencyFound`, and no position is expanded twice. Sheets whose referenced graph
contains a directed cycle are included. -/
theorem C22_CycleDependencyFound_terminates (s : Sheet) (tmp_cell : Cell) (pos : Position) :
    ∃ expanded : List Position,
      (∀ fuel, cycleFuel s tmp_cell.GetReferencedCells ≤ fuel →
        CycleLoopTrace s pos fuel tmp_cell.GetReferencedCells [] =
          some (Sheet.CycleDependencyFound s tmp_cell pos, expanded)) ∧
      expanded.Nodup := by
  have hspec := (CycleDependencyFound_spec s tmp_cell pos).1
  have hfst := CycleLoopTrace_fst s pos (cycleFuel s tmp_cell.GetReferencedCells)
    tmp_cell.GetReferencedCells []
  rw [hspec] at hfst
  cases htr : CycleLoopTrace s pos (cycleFuel s tmp_cell.GetReferencedCells)
      tmp_cell.GetReferencedCells [] with
  | none => simp [htr] at hfst
  | some r =>
    obtain ⟨b, expanded⟩ := r
    rw [htr] at hfst
    simp only [Option.map_some', Option.some.injEq] at hfst
    subst hfst
    exact ⟨expanded, fun fuel hle => CycleLoopTrace_mono s pos _ _ _ _ fuel hle htr,
      (CycleLoopTrace_nodup s pos _ _ _ _ htr).1⟩

/-! ## C23 -/

/-- `RemoveOldLinks` returns normally when every referenced position is valid and holds a
cell. -/
theorem RemoveOldLinks_ok_of_installed (pos : Position) :
    ∀ (l : List Position) (s : Sheet),
      (∀ q ∈ l, q.IsValid = true ∧ (Sheet.find s q).isSome = true) →
      (RemoveOldLinks pos s l).1 = Outcome.ok := by
  intro l
  induction l with
  | nil => intro s _; simp [RemoveOldLinks]
  | cons r rest ih =>
    intro s hl
    obtain ⟨hv, hs⟩ := hl r (List.mem_cons_self _ _)
    obtain ⟨c, hc⟩ := Option.isSome_iff_exists.mp hs
    unfold RemoveOldLinks
    simp only [Sheet.GetCell, hv, if_true, hc]
    refine ih _ (fun q hq => ⟨(hl q (List.mem_cons_of_mem _ hq)).1, ?_⟩)
    have := (hl q (List.mem_cons_of_mem _ hq)).2
    rw [find_modify]
    by_cases hqr : q = r
    · simp [hqr, hc]
    · simpa [hqr] using this

/-- C23 (the code departs from it): after `SetCell(A2, "=A1")` and `ClearCell(A1)`, both valid
calls that return normally, the cell at `A2` has `A1` in its referenced set and no cell is
installed at `A1`. `SetCell(A2, "5")` then uses the null result of `GetCell(A1)` in
`RemoveOldLinks` and the cell at `A2` keeps its formula; `ClearCell(A2)` uses it as well. -/
theorem C23_referenced_cell_not_installed :
    ((runOps sampleEnv 4 CreateSheet [Op.SetCell A2 "=A1", Op.ClearCell A1]).map (fun r =>
        (r.1, (Sheet.find r.2 A2).map (fun c => c.referenced_cells_),
          (Sheet.find r.2 A1).isSome)) = some (Outcome.ok, some [A1], false)) ∧
      ((runOps sampleEnv 4 CreateSheet
        [Op.SetCell A2 "=A1", Op.ClearCell A1, Op.SetCell A2 "5"]).map (fun r =>
          (r.1, (Sheet.find r.2 A2).map (fun c => c.GetText sampleEnv))) =
        some (Outcome.nullDereference, some "=A1")) ∧
      ((runOps sampleEnv 4 CreateSheet
        [Op.SetCell A2 "=A1", Op.ClearCell A1, Op.ClearCell A2]).map (fun r => r.1) =
        some Outcome.nullDereference) := by
  refine ⟨by decide, by decide, by decide⟩

end Spreadsheet
